import Mathlib

/-!
# The logger hierarchy of log4cxx (`src/hierarchy.cpp`)

A shallow embedding of `log4cxx::Hierarchy`: the registry of named loggers, the
provision nodes, the parent links kept in the logger objects, the threshold,
the listeners, the lock of the registry and the operations on all loggers
(`shutdown`, `resetConfiguration`), followed by theorems about them.

Conventions of the embedding.

* `String` is a list of characters; `String::npos` is `none`.
* A `LoggerPtr` is the address of a logger object, an index into `heap`; a null
  pointer is `none`.  Logger objects are never freed while they are referenced,
  so addresses are never reused.
* The two maps are association lists with unique keys: `find` returns the entry
  of a key, `insert` keeps an entry that is already there, `erase` removes it.
  The entries are kept in the order of insertion; none of the theorems depends
  on the order.
* Dereferencing a null pointer is the fault `nullPointer`.  The loop of
  `updateParents` runs on fuel, one unit per evaluation of its condition; a
  run that exhausts the fuel is the fault `noReturn`.
-/

namespace Log4cxx

/-- The `String` of the source: a sequence of characters. -/
abbrev Str := List Char

/-- Address of a logger object. -/
abbrev LoggerPtr := Nat

/-- What a call can end with instead of a result. -/
inductive Fault where
  | nullPointer
  | noReturn
deriving DecidableEq, Repr

deriving instance DecidableEq for Except

/-! ## `std::map` with `String` keys -/

namespace Map

/-- Modelled from the spec: `LoggerMap` and `ProvisionNodeMap` are declared in a
header that is not among the sources; the spec calls them mappings with unique
keys and `hierarchy.cpp` uses them through the calls of `std::map`.  This is
`find`: the entry of the key, `none` for `end()`. -/
def find {β : Type} : List (Str × β) → Str → Option β
  | [], _ => none
  | (k', v) :: rest, k => if k' = k then some v else find rest k

/-- Modelled from the spec: the effect of `insert(value_type(k, v))` on a
mapping with unique keys, as `std::map` has it: an existing entry of `k` is
kept, otherwise the entry is added. -/
def insert {β : Type} (m : List (Str × β)) (k : Str) (v : β) : List (Str × β) :=
  match find m k with
  | some _ => m
  | none => m ++ [(k, v)]

/-- Modelled from the spec: the effect of `erase(it)` where `it` is the entry
of `k`. -/
def erase {β : Type} (m : List (Str × β)) (k : Str) : List (Str × β) :=
  m.filter (fun e => decide (e.1 ≠ k))

/-- Modelled from the spec: a `ProvisionNode` is an ordered collection of
loggers (its class is not among the sources).  This is the effect of
`it->second.push_back(x)` where `it` is the entry of `k`. -/
def pushBack {β : Type} : List (Str × List β) → Str → β → List (Str × List β)
  | [], _, _ => []
  | (k', v) :: rest, k, x =>
    if k' = k then (k', v ++ [x]) :: rest else (k', v) :: pushBack rest k x

end Map

/-! ## Levels and logger objects -/

/-- Modelled from the spec: the `Level` class is not among the sources.  A
level object has an integer value (`Level::level`, read by `setThreshold`); `id`
stands for the address of the object, which `setThreshold(const String&)`
compares. -/
structure Level where
  id : Nat
  level : Int
deriving DecidableEq, Repr

/-- Modelled from the spec: `Level::ALL`, the designated minimum ("allow
all"), the least value of an `int`. -/
def Level.ALL : Level := { id := 0, level := -2147483648 }

/-- Modelled from the spec: `Level::OFF`, the designated maximum ("suppress
all"), the greatest value of an `int`. -/
def Level.OFF : Level := { id := 1, level := 2147483647 }

/-- Modelled from the spec: `Level::DEBUG`, the fixed default that
`resetConfiguration` gives to the root. -/
def Level.DEBUG : Level := { id := 2, level := 10000 }

/-- Modelled from the spec: `Level::toLevel(sArg, defaultLevel)`, the
name-to-level parser, is not among the sources.  `table` is the parser's table
of level names: a name of the table is converted to its level object, for
any other name the parser returns `defaultLevel`. -/
def Level.toLevel (table : List (Str × Level)) (sArg : Str) (defaultLevel : Level) : Level :=
  match Map.find table sArg with
  | some l => l
  | none => defaultLevel

/-- Modelled from the spec: a table of level names for the examples, with the
minimum `ALL`, the maximum `OFF` and `DEBUG`. -/
def levelNames : List (Str × Level) :=
  [("ALL".toList, Level.ALL), ("DEBUG".toList, Level.DEBUG), ("OFF".toList, Level.OFF)]

/-- One call `listener->addAppenderEvent(logger, appender)` (`added` is `true`)
or `listener->removeAppenderEvent(logger, appender)` made by the hierarchy. -/
structure ListenerCall where
  listener : Nat
  added : Bool
  logger : LoggerPtr
  appender : Nat
deriving DecidableEq, Repr

/-- Modelled from the spec: the `Logger` class is not among the sources.  The
fields are the ones `hierarchy.cpp` reads and writes (`name`, `parent`) and
the ones its callees keep (`hierarchy`, `level`, `additive`, `appenders`). -/
structure Logger where
  name : Str
  parent : Option LoggerPtr
  hierarchy : Bool
  level : Option Level
  additive : Bool
  appenders : List Nat
deriving DecidableEq, Repr

/-- The state of a `Hierarchy` object together with the logger objects it
refers to.  `warnings` is what `LogLog::warn` has been given; appenders are
known by their addresses, and `closedAppenders` holds the ones that have been
closed. -/
structure Hierarchy where
  heap : List Logger
  root : LoggerPtr
  loggers : List (Str × LoggerPtr)
  provisionNodes : List (Str × List LoggerPtr)
  threshold : Level
  thresholdInt : Int
  listeners : List Nat
  emittedNoAppenderWarning : Bool
  emittedNoResourceBundleWarning : Bool
  mapCs : Nat
  warnings : List Str
  closedAppenders : List Nat
deriving DecidableEq, Repr

/-- The anonymous `startsWith` of the source: `substr` is a prefix of `teststr`
and `teststr` is strictly longer. -/
def startsWith (teststr substr : Str) : Bool :=
  if teststr.length > substr.length then
    decide (teststr.take substr.length = substr)
  else
    false

/-- Conversion of an `int` to the `size_type` argument of `find_last_of`:
`-1` is `String::npos`. -/
def sizeType (v : Int) : Option Nat :=
  if v < 0 then none else some v.toNat

/-- Search of `find_last_of`: the greatest index below `n` that holds `c`. -/
def findLastBelow (s : Str) (c : Char) : Nat → Option Nat
  | 0 => none
  | n + 1 => if s[n]? = some c then some n else findLastBelow s c n

/-- The method `String::find_last_of(c, pos)`: the last index at or before `pos` that
holds `c`; with `pos = npos` (or any `pos` past the end) the whole string is
searched.  The result `none` is `npos`. -/
def find_last_of (s : Str) (c : Char) (pos : Option Nat) : Option Nat :=
  match pos with
  | none => findLastBelow s c s.length
  | some p => findLastBelow s c (min (p + 1) s.length)

namespace Hierarchy

/-- Pointer dereference `l->`. -/
def deref (h : Hierarchy) (l : LoggerPtr) : Except Fault Logger :=
  match h.heap[l]? with
  | some o => .ok o
  | none => .error .nullPointer

/-- The assignment `l->parent = p`. -/
def setParent (h : Hierarchy) (l : LoggerPtr) (p : Option LoggerPtr) : Hierarchy :=
  match h.heap[l]? with
  | some o => { h with heap := h.heap.set l { o with parent := p } }
  | none => h

/-- The call `l->setHierarchy(this)`. -/
def setHierarchy (h : Hierarchy) (l : LoggerPtr) : Hierarchy :=
  match h.heap[l]? with
  | some o => { h with heap := h.heap.set l { o with hierarchy := true } }
  | none => h

/-- The call `mapCs.lock()`: one more hold of the lock. -/
def lock (h : Hierarchy) : Hierarchy := { h with mapCs := h.mapCs + 1 }

/-- The call `mapCs.unlock()`: one hold less. -/
def unlock (h : Hierarchy) : Hierarchy := { h with mapCs := h.mapCs - 1 }

/-- `Hierarchy::setThreshold(const Level&)`. -/
def setThreshold (h : Hierarchy) (l : Level) : Hierarchy :=
  { h with thresholdInt := l.level, threshold := l }

/-- `Hierarchy::getThreshold`. -/
def getThreshold (h : Hierarchy) : Level := h.threshold

/-- `Hierarchy::isDisabled`. -/
def isDisabled (h : Hierarchy) (level : Int) : Bool :=
  decide (h.thresholdInt > level)

/-- The constructor `Hierarchy::Hierarchy(LoggerPtr root)`, given the logger
object `root` points to.  The registry, the provision nodes and the listener
list start empty and the lock is free. -/
def new (root : Logger) : Hierarchy :=
  let h : Hierarchy :=
    { heap := [root], root := 0, loggers := [], provisionNodes := [],
      threshold := Level.ALL, thresholdInt := 0, listeners := [],
      emittedNoAppenderWarning := false, emittedNoResourceBundleWarning := false,
      mapCs := 0, warnings := [], closedAppenders := [] }
  setHierarchy (setThreshold h Level.ALL) h.root

/-- `Hierarchy::clear`. -/
def clear (h : Hierarchy) : Hierarchy :=
  unlock { lock h with loggers := [] }

/-- `Hierarchy::exists`: the `return` statement leaves the function before
`mapCs.unlock()`. -/
def «exists» (h : Hierarchy) (name : Str) : Option LoggerPtr × Hierarchy :=
  let h := lock h
  (Map.find h.loggers name, h)

/-- `Hierarchy::getRootLogger`. -/
def getRootLogger (h : Hierarchy) : LoggerPtr := h.root

/-- `Hierarchy::getCurrentLoggers`: the registered loggers, in the order of the
entries of the registry. -/
def getCurrentLoggers (h : Hierarchy) : List LoggerPtr × Hierarchy :=
  let h := lock h
  (h.loggers.map Prod.snd, unlock h)

/-- `LogLog::warn(msg)`: the message goes to the diagnostic channel. -/
def warn (h : Hierarchy) (msg : Str) : Hierarchy :=
  { h with warnings := h.warnings ++ [msg] }

/-- `Hierarchy::addHierarchyEventListener`. -/
def addHierarchyEventListener (h : Hierarchy) (listener : Nat) : Hierarchy :=
  if listener ∈ h.listeners then
    warn h "Ignoring attempt to add an existent listener.".toList
  else
    { h with listeners := h.listeners ++ [listener] }

/-- `Hierarchy::setThreshold(const String&)`, given the table of the parser.
The test `&l != &Level::OFF` compares the addresses of the level objects. -/
def setThresholdStr (table : List (Str × Level)) (h : Hierarchy) (levelStr : Str) :
    Hierarchy :=
  let l := Level.toLevel table levelStr Level.OFF
  if l.id ≠ Level.OFF.id then
    setThreshold h l
  else
    warn h ("Could not convert [".toList ++ levelStr ++ "] to Level.".toList)

/-- The loop of `fireAddAppenderEvent` and of `fireRemoveAppenderEvent` over
the listener list: the calls it makes, first call first. -/
def fireLoop (added : Bool) (logger : LoggerPtr) (appender : Nat) :
    List Nat → List ListenerCall
  | [] => []
  | listener :: rest =>
    { listener := listener, added := added, logger := logger, appender := appender } ::
      fireLoop added logger appender rest

/-- `Hierarchy::fireAddAppenderEvent`: the calls made to the listeners. -/
def fireAddAppenderEvent (h : Hierarchy) (logger : LoggerPtr) (appender : Nat) :
    List ListenerCall :=
  fireLoop true logger appender h.listeners

/-- `Hierarchy::fireRemoveAppenderEvent`: the calls made to the listeners. -/
def fireRemoveAppenderEvent (h : Hierarchy) (logger : LoggerPtr) (appender : Nat) :
    List ListenerCall :=
  fireLoop false logger appender h.listeners

/-- A method of the logger object at `l` that rewrites the object with `f`. -/
def modifyLogger (h : Hierarchy) (l : LoggerPtr) (f : Logger → Logger) : Hierarchy :=
  match h.heap[l]? with
  | some o => { h with heap := h.heap.set l (f o) }
  | none => h

/-- Modelled from the spec: `Logger::setLevel(level)` is not among the sources.
It makes `level` the level override of the logger.  The object `Level::OFF` is
what `hierarchy.cpp` passes where no level is meant (the default it gives to
`toLevel`, the argument of the loop of `resetConfiguration`, which the spec
describes as resetting the level to "inherit"): with it the logger has no
override of its own. -/
def setLevel (h : Hierarchy) (l : LoggerPtr) (level : Level) : Hierarchy :=
  modifyLogger h l
    (fun o => { o with level := if level.id = Level.OFF.id then none else some level })

/-- Modelled from the spec: `Logger::setAdditivity(additive)`. -/
def setAdditivity (h : Hierarchy) (l : LoggerPtr) (additive : Bool) : Hierarchy :=
  modifyLogger h l (fun o => { o with additive := additive })

/-- Modelled from the spec: `Logger::addAppender(appender)` attaches the
appender to the logger. -/
def addAppender (h : Hierarchy) (l : LoggerPtr) (appender : Nat) : Hierarchy :=
  modifyLogger h l (fun o => { o with appenders := o.appenders ++ [appender] })

/-- Modelled from the spec: `Logger::removeAllAppenders()` detaches every
appender of the logger. -/
def removeAllAppenders (h : Hierarchy) (l : LoggerPtr) : Hierarchy :=
  modifyLogger h l (fun o => { o with appenders := [] })

/-- Modelled from the spec: `Appender::close()`, an idempotent release of the
appender's resources. -/
def closeAppender (closed : List Nat) (appender : Nat) : List Nat :=
  if appender ∈ closed then closed else closed ++ [appender]

/-- Modelled from the spec: `Logger::closeNestedAppenders()` closes the
appenders of the logger that hold releasable resources; `nested` tells which
appenders do. -/
def closeNestedAppenders (nested : Nat → Bool) (h : Hierarchy) (l : LoggerPtr) :
    Hierarchy :=
  match h.heap[l]? with
  | some o =>
    { h with closedAppenders :=
        (o.appenders.filter nested).foldl closeAppender h.closedAppenders }
  | none => h

/-- `Hierarchy::shutdown`.  The two loops go over the list that
`getCurrentLoggers` returned. -/
def shutdown (nested : Nat → Bool) (h : Hierarchy) : Hierarchy :=
  let root := getRootLogger h
  let h1 := closeNestedAppenders nested h root
  let loggers := (getCurrentLoggers h1).1
  let h2 := (getCurrentLoggers h1).2
  let h3 := loggers.foldl (closeNestedAppenders nested) h2
  let h4 := removeAllAppenders h3 root
  loggers.foldl removeAllAppenders h4

/-- `Hierarchy::resetConfiguration`. -/
def resetConfiguration (nested : Nat → Bool) (h : Hierarchy) : Hierarchy :=
  let h1 := lock h
  let h2 := setLevel h1 (getRootLogger h1) Level.DEBUG
  let h3 := setThreshold h2 Level.ALL
  let h4 := shutdown nested h3
  let loggers := (getCurrentLoggers h4).1
  let h5 := (getCurrentLoggers h4).2
  let h6 := loggers.foldl
    (fun s logger => setAdditivity (setLevel s logger Level.OFF) logger true) h5
  unlock h6

/-- A sequence of `addHierarchyEventListener` calls, first listener first. -/
def addListeners (h : Hierarchy) (listeners : List Nat) : Hierarchy :=
  listeners.foldl addHierarchyEventListener h

/-- Modelled from the spec: `LoggerFactory::makeNewLoggerInstance` of the
default factory is not among the sources.  It allocates a logger object with
the given name and no parent set. -/
def makeNewLoggerInstance (h : Hierarchy) (name : Str) : LoggerPtr × Hierarchy :=
  (h.heap.length,
   { h with heap := h.heap ++ [{ name := name, parent := none, hierarchy := false,
                                 level := none, additive := true, appenders := [] }] })

/-- `Hierarchy::updateChildren`, by recursion on the part of the provision
node still to visit. -/
def updateChildren (h : Hierarchy) (pn : List LoggerPtr) (logger : LoggerPtr) :
    Except Fault Hierarchy :=
  match pn with
  | [] => .ok h
  | l :: rest =>
    match deref h l with
    | .error e => .error e
    | .ok lo =>
      match lo.parent with
      | none => .error .nullPointer
      | some p =>
        match deref h p with
        | .error e => .error e
        | .ok po =>
          match deref h logger with
          | .error e => .error e
          | .ok lg =>
            if !startsWith po.name lg.name then
              updateChildren (setParent (setParent h logger lo.parent) l (some logger)) rest logger
            else
              updateChildren h rest logger

/-- The `else` branch in the loop body of `Hierarchy::updateParents`: the
provision node looked up is the one of `name`, the logger's own name; when
there is none, a node holding the logger is inserted under `substr`. -/
def addProvision (h : Hierarchy) (name substr : Str) (logger : LoggerPtr) : Hierarchy :=
  match Map.find h.provisionNodes name with
  | some _ =>
    { h with provisionNodes := Map.pushBack h.provisionNodes name logger }
  | none =>
    { h with provisionNodes := Map.insert h.provisionNodes substr [logger] }

/-- The `for` loop of `Hierarchy::updateParents`.  `i` is the loop variable
(`none` is `npos`); every evaluation of the loop condition takes one unit of
fuel.  The result carries `parentFound`. -/
def updateParentsLoop (name : Str) (logger : LoggerPtr) :
    Nat → Hierarchy → Option Nat → Except Fault (Hierarchy × Bool)
  | 0, _, _ => .error .noReturn
  | _ + 1, h, none => .ok (h, false)
  | fuel + 1, h, some i =>
    let substr := name.take i
    match Map.find h.loggers substr with
    | some p => .ok (setParent h logger (some p), true)
    | none =>
      updateParentsLoop name logger fuel (addProvision h name substr logger)
        (find_last_of name '.' (sizeType ((i : Int) - 1)))

/-- `Hierarchy::updateParents` with the given fuel for its loop. -/
def updateParents (fuel : Nat) (h : Hierarchy) (logger : LoggerPtr) :
    Except Fault Hierarchy :=
  match deref h logger with
  | .error e => .error e
  | .ok lg =>
    let name := lg.name
    match updateParentsLoop name logger fuel h
        (find_last_of name '.' (sizeType ((name.length : Int) - 1))) with
    | .error e => .error e
    | .ok (h1, parentFound) =>
      if !parentFound then .ok (setParent h1 logger (some h1.root)) else .ok h1

/-- The first statements of the creating branch of `getLogger`: the factory
makes the logger object, `setHierarchy` binds it and `loggers.insert` registers
it under `name`. -/
def registerNew (h : Hierarchy) (name : Str) : LoggerPtr × Hierarchy :=
  let logger := (makeNewLoggerInstance h name).1
  let h1 := (makeNewLoggerInstance h name).2
  let h2 := setHierarchy h1 logger
  (logger, { h2 with loggers := Map.insert h2.loggers name logger })

/-- The `if (it2 != provisionNodes.end())` block of `getLogger`: when a
provision node is keyed by `name`, `updateChildren` runs on it and the node is
erased. -/
def adoptChildren (h : Hierarchy) (name : Str) (logger : LoggerPtr) :
    Except Fault Hierarchy :=
  match Map.find h.provisionNodes name with
  | some pn =>
    match updateChildren h pn logger with
    | .error e => .error e
    | .ok h1 => .ok { h1 with provisionNodes := Map.erase h1.provisionNodes name }
  | none => .ok h

/-- `Hierarchy::getLogger(name, factory)` with the default factory and the
given fuel for the loop of `updateParents`. -/
def getLoggerFuel (fuel : Nat) (h : Hierarchy) (name : Str) :
    Except Fault (LoggerPtr × Hierarchy) :=
  let h0 := lock h
  match Map.find h0.loggers name with
  | some l => .ok (l, unlock h0)
  | none =>
    let logger := (registerNew h0 name).1
    match adoptChildren (registerNew h0 name).2 name logger with
    | .error e => .error e
    | .ok h1 =>
      match updateParents fuel h1 logger with
      | .error e => .error e
      | .ok h2 => .ok (logger, unlock h2)

/-- `Hierarchy::getLogger(name)`.  The loop of `updateParents` gets one unit of
fuel more than the name has characters, which is enough for every run that
ends (theorem `updateParentsLoop_fuel_enough`). -/
def getLogger (h : Hierarchy) (name : Str) : Except Fault (LoggerPtr × Hierarchy) :=
  getLoggerFuel (name.length + 1) h name

/-- A sequence of `getLogger` calls, first name first. -/
def getLoggers (h : Hierarchy) : List Str → Except Fault Hierarchy
  | [] => .ok h
  | name :: rest =>
    match getLogger h name with
    | .error e => .error e
    | .ok (_, h1) => getLoggers h1 rest

/-- The logger registered under `name`, as `exists` finds it. -/
def registered (h : Hierarchy) (name : Str) : Option LoggerPtr :=
  Map.find h.loggers name

/-- The name `x->name` of the logger object at `x`. -/
def nameAt (h : Hierarchy) (x : LoggerPtr) : Option Str :=
  match h.heap[x]? with
  | none => none
  | some o => some o.name

/-- The parent link `x->parent` of the logger object at `x`. -/
def parentAt (h : Hierarchy) (x : LoggerPtr) : Option LoggerPtr :=
  match h.heap[x]? with
  | none => none
  | some o => o.parent

/-- The level override `x->level` of the logger object at `x`; `some none` is
a logger that inherits its level. -/
def levelAt (h : Hierarchy) (x : LoggerPtr) : Option (Option Level) :=
  match h.heap[x]? with
  | none => none
  | some o => some o.level

/-- Modelled from the spec: the effective level of the logger at `l`, found by
walking the parent links until a logger with a level of its own is met; `n`
bounds the number of loggers looked at. -/
def effectiveLevel (h : Hierarchy) : Nat → LoggerPtr → Option Level
  | 0, _ => none
  | n + 1, l =>
    match levelAt h l with
    | none => none
    | some (some v) => some v
    | some none =>
      match parentAt h l with
      | none => none
      | some p => effectiveLevel h n p

/-- The additivity flag of the logger object at `x`. -/
def additiveAt (h : Hierarchy) (x : LoggerPtr) : Option Bool :=
  match h.heap[x]? with
  | none => none
  | some o => some o.additive

/-- The appenders attached to the logger object at `x`. -/
def appendersAt (h : Hierarchy) (x : LoggerPtr) : Option (List Nat) :=
  match h.heap[x]? with
  | none => none
  | some o => some o.appenders

/-- The parent link of the logger registered under `name`. -/
def parentOf (h : Hierarchy) (name : Str) : Option LoggerPtr :=
  match registered h name with
  | none => none
  | some l => parentAt h l

/-- Walk of the parent chain from `l`: `true` when the root is reached within
`n` hops. -/
def reachesRoot (h : Hierarchy) : Nat → LoggerPtr → Bool
  | 0, l => decide (l = h.root)
  | n + 1, l =>
    if l = h.root then true
    else
      match parentAt h l with
      | none => false
      | some p => reachesRoot h n p

/-- What `getLogger` and its helpers never touch: every field of the
hierarchy except the provision nodes, the number of logger objects and their
names. -/
structure Frame (h h1 : Hierarchy) : Prop where
  root : h1.root = h.root
  loggers : h1.loggers = h.loggers
  threshold : h1.threshold = h.threshold
  thresholdInt : h1.thresholdInt = h.thresholdInt
  listeners : h1.listeners = h.listeners
  emittedA : h1.emittedNoAppenderWarning = h.emittedNoAppenderWarning
  emittedR : h1.emittedNoResourceBundleWarning = h.emittedNoResourceBundleWarning
  mapCs : h1.mapCs = h.mapCs
  warnings : h1.warnings = h.warnings
  length : h1.heap.length = h.heap.length
  name : ∀ x, nameAt h1 x = nameAt h x

/-- The tree of the hierarchy: the root, the registry, the provision nodes, the
number of logger objects, their names and their parent links.  This is what
the calls that only touch levels, appenders, listeners, the threshold or the
lock leave alone. -/
structure SameTree (h h1 : Hierarchy) : Prop where
  root : h1.root = h.root
  loggers : h1.loggers = h.loggers
  provisionNodes : h1.provisionNodes = h.provisionNodes
  length : h1.heap.length = h.heap.length
  name : ∀ x, nameAt h1 x = nameAt h x
  parent : ∀ x, parentAt h1 x = parentAt h x

/-- The fields of the hierarchy that are neither the logger objects, nor the
registry, nor the provision nodes. -/
structure Rest (h h1 : Hierarchy) : Prop where
  root : h1.root = h.root
  threshold : h1.threshold = h.threshold
  thresholdInt : h1.thresholdInt = h.thresholdInt
  listeners : h1.listeners = h.listeners
  emittedA : h1.emittedNoAppenderWarning = h.emittedNoAppenderWarning
  emittedR : h1.emittedNoResourceBundleWarning = h.emittedNoResourceBundleWarning
  warnings : h1.warnings = h.warnings

end Hierarchy

/-- A root logger object named `name`, as the constructor receives it. -/
def rootLogger (name : Str) : Logger :=
  { name := name, parent := none, hierarchy := false, level := some Level.DEBUG,
    additive := true, appenders := [] }

/-- The spec's dotted-prefix containment: `p` followed by a dot is a prefix of
`name`, that is, `p` is a proper prefix of `name` ending just before a `'.'`. -/
def DottedAncestor (p name : Str) : Prop :=
  ∃ rest : Str, name = p ++ '.' :: rest

/-- The proper dotted prefixes of `name` that are shorter than `n` characters,
longest first. -/
def dottedPrefixesBelow (name : Str) : Nat → List Str
  | 0 => []
  | n + 1 =>
    if name[n]? = some '.' then name.take n :: dottedPrefixesBelow name n
    else dottedPrefixesBelow name n

/-- All proper dotted prefixes of `name`, longest first: for `"w.x.y.z"` they
are `"w.x.y"`, `"w.x"`, `"w"`. -/
def dottedPrefixes (name : Str) : List Str :=
  dottedPrefixesBelow name name.length

/-- The spec's nearest ancestor of `name`: the registered logger whose name is
the longest proper dotted prefix of `name`, the root when no proper dotted
prefix is registered. -/
def nearestAncestor (h : Hierarchy) (name : Str) : LoggerPtr :=
  match (dottedPrefixes name).findSome? (fun p => Hierarchy.registered h p) with
  | some l => l
  | none => h.root

/-- The state after a `getLogger` call that created the logger `l` named
`name`, against the state before it. -/
structure Hierarchy.Created (h : Hierarchy) (name : Str) (l : LoggerPtr) (h1 : Hierarchy) : Prop where
  ptr : l = h.heap.length
  rest : Rest h h1
  mapCs : h1.mapCs = h.mapCs
  length : h1.heap.length = h.heap.length + 1
  loggers : h1.loggers = Map.insert h.loggers name l
  nameOld : ∀ x, x < h.heap.length → Hierarchy.nameAt h1 x = Hierarchy.nameAt h x
  nameNew : Hierarchy.nameAt h1 l = some name
  parentOld : ∀ x, x < h.heap.length →
    Hierarchy.parentAt h1 x = Hierarchy.parentAt h x ∨
    ∃ node, Map.find h.provisionNodes name = some node ∧ x ∈ node ∧ Hierarchy.parentAt h1 x = some l
  parentNew : Hierarchy.parentAt h1 l = some (nearestAncestor h1 name)
  pnSelf : Map.find h1.provisionNodes name = none
  pnOld : ∀ k v, Map.find h1.provisionNodes k = some v →
    k ≠ name ∧
    (Map.find h.provisionNodes k = some v ∨
     (v = [l] ∧ Map.find h.loggers k = none ∧ DottedAncestor k name))

/-- The spec's listener list after the registrations `ls`: each distinct
listener once, in the order of first registration. -/
def firstRegistrations : List Nat → List Nat
  | [] => []
  | x :: xs => x :: (firstRegistrations xs).filter (fun y => decide (y ≠ x))

/-- The states a hierarchy goes through: it is constructed and then used
through `getLogger`, `clear`, `exists`, `getCurrentLoggers`, the two
`setThreshold`, `addHierarchyEventListener`, `shutdown` and
`resetConfiguration`, while its users set levels and additivity and attach
appenders on the logger objects. -/
inductive Reachable : Hierarchy → Prop where
  | new (root : Logger) : Reachable (Hierarchy.new root)
  | getLogger {h h1 : Hierarchy} {name : Str} {l : LoggerPtr} :
      Reachable h → Hierarchy.getLogger h name = .ok (l, h1) → Reachable h1
  | clear {h : Hierarchy} : Reachable h → Reachable (Hierarchy.clear h)
  | existsCall {h : Hierarchy} (name : Str) :
      Reachable h → Reachable (Hierarchy.exists h name).2
  | getCurrentLoggers {h : Hierarchy} :
      Reachable h → Reachable (Hierarchy.getCurrentLoggers h).2
  | setThreshold {h : Hierarchy} (l : Level) :
      Reachable h → Reachable (Hierarchy.setThreshold h l)
  | setThresholdStr {h : Hierarchy} (table : List (Str × Level)) (levelStr : Str) :
      Reachable h → Reachable (Hierarchy.setThresholdStr table h levelStr)
  | addHierarchyEventListener {h : Hierarchy} (listener : Nat) :
      Reachable h → Reachable (Hierarchy.addHierarchyEventListener h listener)
  | shutdown {h : Hierarchy} (nested : Nat → Bool) :
      Reachable h → Reachable (Hierarchy.shutdown nested h)
  | resetConfiguration {h : Hierarchy} (nested : Nat → Bool) :
      Reachable h → Reachable (Hierarchy.resetConfiguration nested h)
  | setLevel {h : Hierarchy} (l : LoggerPtr) (level : Level) :
      Reachable h → Reachable (Hierarchy.setLevel h l level)
  | setAdditivity {h : Hierarchy} (l : LoggerPtr) (additive : Bool) :
      Reachable h → Reachable (Hierarchy.setAdditivity h l additive)
  | addAppender {h : Hierarchy} (l : LoggerPtr) (appender : Nat) :
      Reachable h → Reachable (Hierarchy.addAppender h l appender)

/-- Well-formedness of a hierarchy state: the root exists; the registry maps
each name to a logger object of that name; the members of a provision node
carry a name below the node's key and have a parent; no provision node is
keyed by a registered name; and the parent of a registered logger is the root
or a registered logger whose name is a proper dotted prefix of its own. -/
structure WF (h : Hierarchy) : Prop where
  root_lt : h.root < h.heap.length
  reg : ∀ k l, Hierarchy.registered h k = some l → Hierarchy.nameAt h l = some k
  pn : ∀ k node l, Map.find h.provisionNodes k = some node → l ∈ node →
    (∃ nm, Hierarchy.nameAt h l = some nm ∧ DottedAncestor k nm) ∧
    ∃ p, Hierarchy.parentAt h l = some p ∧ p < h.heap.length
  pnKey : ∀ k node, Map.find h.provisionNodes k = some node →
    Hierarchy.registered h k = none
  par : ∀ k l, Hierarchy.registered h k = some l →
    Hierarchy.parentAt h l = some h.root ∨
    ∃ kp p, Hierarchy.parentAt h l = some p ∧ Hierarchy.registered h kp = some p ∧
      DottedAncestor kp k

/-- The hierarchy on which the examples run: root named `"root"`, then
`getLogger` for the given names in turn.  A run that does not return leaves the
fresh hierarchy. -/
def exampleHierarchy (names : List String) : Hierarchy :=
  match Hierarchy.getLoggers (Hierarchy.new (rootLogger "root".toList))
      (names.map String.toList) with
  | .ok h => h
  | .error _ => Hierarchy.new (rootLogger "root".toList)

/-- The hierarchy of the examples with `clear` in it: `getLogger` for the names
of `before`, then `clear`, then `getLogger` for the names of `after`. -/
def exampleCleared (before after : List String) : Hierarchy :=
  match Hierarchy.getLoggers (Hierarchy.clear (exampleHierarchy before))
      (after.map String.toList) with
  | .ok h => h
  | .error _ => Hierarchy.clear (exampleHierarchy before)

/-- An example with levels and appenders: after `getLogger("a")` and
`getLogger("a.b")`, the appender `7` is attached to the root (as the set-up of
the stream test does), the logger `"a"` gets the level `DEBUG` and the appender
`8`, and the logger `"a.b"`, which inherits its level, the appender `7`. -/
def exampleConfigured : Hierarchy :=
  Hierarchy.addAppender
    (Hierarchy.addAppender
      (Hierarchy.setLevel (Hierarchy.addAppender (exampleHierarchy ["a", "a.b"]) 0 7)
        1 Level.DEBUG)
      1 8)
    2 7

/-- The tree after `getLogger` has been called for `names` in turn on a fresh
hierarchy whose root is named `rootName`: for each name of `queries`, the
logger registered under it and that logger's parent.  The root is at `0` and the
loggers are numbered `1`, `2`, ... in the order of their creation. -/
def treeAfter (rootName : String) (names queries : List String) :
    Except Fault (List (Option LoggerPtr × Option LoggerPtr)) :=
  match Hierarchy.getLoggers (Hierarchy.new (rootLogger rootName.toList))
      (names.map String.toList) with
  | .error e => .error e
  | .ok h =>
    .ok (queries.map fun q =>
      (Hierarchy.registered h q.toList, Hierarchy.parentOf h q.toList))

open Hierarchy

/-! ## Association lists -/

namespace Map

theorem find_append {β : Type} (m m2 : List (Str × β)) (k : Str) :
    find (m ++ m2) k = (find m k).orElse (fun _ => find m2 k) := by
  induction m with
  | nil => simp [find]
  | cons e m ih =>
    obtain ⟨k1, v⟩ := e
    by_cases hk : k1 = k <;> simp [find, hk, ih]

theorem find_insert {β : Type} (m : List (Str × β)) (k k2 : Str) (v : β) :
    find (insert m k v) k2 =
      match find m k2 with
      | some x => some x
      | none => if k = k2 then some v else none := by
  unfold insert
  cases hk : find m k with
  | some x =>
    simp only
    cases hk2 : find m k2 with
    | some y => rfl
    | none =>
      have : k ≠ k2 := by rintro rfl; simp [hk] at hk2
      simp [this]
  | none =>
    simp only [find_append]
    cases hk2 : find m k2 <;> simp [find]

theorem find_insert_self {β : Type} (m : List (Str × β)) (k : Str) (v : β)
    (hm : find m k = none) : find (insert m k v) k = some v := by
  simp [find_insert, hm]

theorem find_insert_of_ne {β : Type} (m : List (Str × β)) (k k2 : Str) (v : β)
    (hne : k ≠ k2) : find (insert m k v) k2 = find m k2 := by
  rw [find_insert]
  cases find m k2 <;> simp [hne]

theorem find_erase {β : Type} (m : List (Str × β)) (k k2 : Str) :
    find (erase m k) k2 = if k2 = k then none else find m k2 := by
  induction m with
  | nil => simp [erase, find]
  | cons e m ih =>
    obtain ⟨k1, v⟩ := e
    unfold erase at ih ⊢
    by_cases h1 : k1 = k
    · subst h1
      by_cases h2 : k2 = k1
      · subst h2; simpa [List.filter, find] using ih
      · have h3 : ¬ k1 = k2 := fun h => h2 h.symm
        simpa [List.filter, find, h2, h3] using ih
    · by_cases h2 : k1 = k2
      · subst h2; simp [List.filter, find, h1]
      · simp only [List.filter, h1, ne_eq, not_false_eq_true, decide_True, find, h2, if_false]
        exact ih

theorem find_pushBack {β : Type} (m : List (Str × List β)) (k k2 : Str) (x : β) :
    find (pushBack m k x) k2 =
      if k2 = k then (find m k).map (fun v => v ++ [x]) else find m k2 := by
  induction m with
  | nil => simp [pushBack, find]
  | cons e m ih =>
    obtain ⟨k1, v⟩ := e
    by_cases h1 : k1 = k
    · subst h1
      by_cases h2 : k2 = k1
      · subst h2; simp [pushBack, find]
      · have h3 : ¬ k1 = k2 := fun h => h2 h.symm
        simp [pushBack, find, h2, h3]
    · by_cases h2 : k1 = k2
      · subst h2; simp [pushBack, find, h1]
      · by_cases h3 : k2 = k
        · subst h3; simp [pushBack, find, h1, ih]
        · simp [pushBack, find, h1, h2, h3, ih]

end Map

/-! ## Logger objects and the fields a call leaves alone -/

namespace Hierarchy

theorem Frame.refl (h : Hierarchy) : Frame h h :=
  ⟨rfl, rfl, rfl, rfl, rfl, rfl, rfl, rfl, rfl, rfl, fun _ => rfl⟩

theorem Frame.trans {h h1 h2 : Hierarchy} (a : Frame h h1) (b : Frame h1 h2) : Frame h h2 :=
  ⟨b.root.trans a.root, b.loggers.trans a.loggers, b.threshold.trans a.threshold,
   b.thresholdInt.trans a.thresholdInt, b.listeners.trans a.listeners,
   b.emittedA.trans a.emittedA, b.emittedR.trans a.emittedR, b.mapCs.trans a.mapCs,
   b.warnings.trans a.warnings, b.length.trans a.length,
   fun x => (b.name x).trans (a.name x)⟩

theorem frame_setParent (h : Hierarchy) (l : LoggerPtr) (p : Option LoggerPtr) :
    Frame h (setParent h l p) := by
  unfold setParent
  cases hl : h.heap[l]? with
  | none => exact Frame.refl h
  | some o =>
    refine ⟨rfl, rfl, rfl, rfl, rfl, rfl, rfl, rfl, rfl, by simp, fun x => ?_⟩
    simp only [nameAt, List.getElem?_set]
    by_cases hx : l = x
    · subst hx
      have hlt : l < h.heap.length := by
        rcases List.getElem?_eq_some.1 hl with ⟨hlt, _⟩; exact hlt
      simp [hl, hlt]
    · simp [hx]

theorem setParent_provisionNodes (h : Hierarchy) (l : LoggerPtr) (p : Option LoggerPtr) :
    (setParent h l p).provisionNodes = h.provisionNodes := by
  unfold setParent; cases h.heap[l]? <;> rfl

theorem parentAt_setParent (h : Hierarchy) (l x : LoggerPtr) (p : Option LoggerPtr) :
    parentAt (setParent h l p) x =
      if x = l ∧ l < h.heap.length then p else parentAt h x := by
  unfold setParent
  cases hl : h.heap[l]? with
  | none =>
    have hle : h.heap.length ≤ l := List.getElem?_eq_none_iff.1 hl
    have : ¬ (x = l ∧ l < h.heap.length) := fun hh => Nat.not_lt.2 hle hh.2
    simp [this]
  | some o =>
    have hlt : l < h.heap.length := by
      rcases List.getElem?_eq_some.1 hl with ⟨hlt, _⟩; exact hlt
    simp only [parentAt, List.getElem?_set]
    by_cases hx : l = x
    · subst hx; simp [hlt]
    · have hx2 : ¬ x = l := fun e => hx e.symm
      simp [hx, hx2]

theorem frame_setHierarchy (h : Hierarchy) (l : LoggerPtr) :
    Frame h (setHierarchy h l) := by
  unfold setHierarchy
  cases hl : h.heap[l]? with
  | none => exact Frame.refl h
  | some o =>
    refine ⟨rfl, rfl, rfl, rfl, rfl, rfl, rfl, rfl, rfl, by simp, fun x => ?_⟩
    simp only [nameAt, List.getElem?_set]
    by_cases hx : l = x
    · subst hx
      have hlt : l < h.heap.length := by
        rcases List.getElem?_eq_some.1 hl with ⟨hlt, _⟩; exact hlt
      simp [hl, hlt]
    · simp [hx]

theorem setHierarchy_provisionNodes (h : Hierarchy) (l : LoggerPtr) :
    (setHierarchy h l).provisionNodes = h.provisionNodes := by
  unfold setHierarchy; cases h.heap[l]? <;> rfl

theorem parentAt_setHierarchy (h : Hierarchy) (l x : LoggerPtr) :
    parentAt (setHierarchy h l) x = parentAt h x := by
  unfold setHierarchy
  cases hl : h.heap[l]? with
  | none => rfl
  | some o =>
    have hlt : l < h.heap.length := by
      rcases List.getElem?_eq_some.1 hl with ⟨hlt, _⟩; exact hlt
    simp only [parentAt, List.getElem?_set]
    by_cases hx : l = x
    · subst hx; simp [hlt, hl]
    · simp [hx]

theorem frame_provisionNodes (h : Hierarchy) (m : List (Str × List LoggerPtr)) :
    Frame h { h with provisionNodes := m } :=
  ⟨rfl, rfl, rfl, rfl, rfl, rfl, rfl, rfl, rfl, rfl, fun _ => rfl⟩

theorem nameAt_lt {h : Hierarchy} {x : LoggerPtr} {k : Str} (hx : nameAt h x = some k) :
    x < h.heap.length := by
  unfold nameAt at hx
  cases hl : h.heap[x]? with
  | none => simp [hl] at hx
  | some o => rcases List.getElem?_eq_some.1 hl with ⟨hlt, _⟩; exact hlt

theorem deref_ok_iff (h : Hierarchy) (x : LoggerPtr) (o : Logger) :
    deref h x = .ok o ↔ h.heap[x]? = some o := by
  unfold deref
  cases h.heap[x]? <;> simp

theorem deref_of_lt (h : Hierarchy) (x : LoggerPtr) (hx : x < h.heap.length) :
    ∃ o, deref h x = .ok o ∧ h.heap[x]? = some o := by
  refine ⟨h.heap[x], ?_, List.getElem?_eq_getElem hx⟩
  rw [deref_ok_iff]; exact List.getElem?_eq_getElem hx

/-! ## `updateChildren` -/

/-- What a run of `updateChildren` leaves alone and what it may change: only
parent links, of the new logger and of members of the provision node, and
a member's link only to the new logger. -/
theorem updateChildren_ok (logger : LoggerPtr) :
    ∀ (pn : List LoggerPtr) (h h1 : Hierarchy), updateChildren h pn logger = .ok h1 →
      Frame h h1 ∧ h1.provisionNodes = h.provisionNodes ∧
      ∀ x, x ≠ logger →
        parentAt h1 x = parentAt h x ∨ (x ∈ pn ∧ parentAt h1 x = some logger) := by
  intro pn
  induction pn with
  | nil =>
    intro h h1 hrun
    simp only [updateChildren, Except.ok.injEq] at hrun
    subst hrun
    exact ⟨Frame.refl h, rfl, fun x _ => Or.inl rfl⟩
  | cons l rest ih =>
    intro h h1 hrun
    unfold updateChildren at hrun
    cases hl : deref h l with
    | error e => simp [hl] at hrun
    | ok lo =>
      simp only [hl] at hrun
      cases hp : lo.parent with
      | none => simp [hp] at hrun
      | some p =>
        simp only [hp] at hrun
        cases hpo : deref h p with
        | error e => simp [hpo] at hrun
        | ok po =>
          simp only [hpo] at hrun
          cases hlg : deref h logger with
          | error e => simp [hlg] at hrun
          | ok lg =>
            simp only [hlg] at hrun
            by_cases hsw : startsWith po.name lg.name = true
            · simp only [hsw, Bool.not_true, Bool.false_eq_true, if_false] at hrun
              obtain ⟨hf, hpn, hpar⟩ := ih h h1 hrun
              refine ⟨hf, hpn, fun x hx => ?_⟩
              rcases hpar x hx with h2 | ⟨h2, h3⟩
              · exact Or.inl h2
              · exact Or.inr ⟨List.mem_cons_of_mem _ h2, h3⟩
            · have hsw2 : startsWith po.name lg.name = false := by
                cases hb : startsWith po.name lg.name with
                | true => exact absurd hb hsw
                | false => rfl
              simp only [hsw2, Bool.not_false, if_true] at hrun
              obtain ⟨hf, hpn, hpar⟩ := ih _ h1 hrun
              refine ⟨((frame_setParent _ _ _).trans (frame_setParent _ _ _)).trans hf, ?_,
                fun x hx => ?_⟩
              · rw [hpn, setParent_provisionNodes, setParent_provisionNodes]
              · rcases hpar x hx with h2 | ⟨h2, h3⟩
                · rw [parentAt_setParent, parentAt_setParent] at h2
                  by_cases hxl : x = l
                  · subst hxl
                    have hlt : x < h.heap.length := by
                      rcases (deref_ok_iff h x lo).1 hl with h4
                      rcases List.getElem?_eq_some.1 h4 with ⟨hlt, _⟩; exact hlt
                    have hlt2 : x < (setParent h logger (some p)).heap.length := by
                      rw [(frame_setParent _ _ _).length]; exact hlt
                    simp only [true_and, hlt2, if_true] at h2
                    exact Or.inr ⟨List.mem_cons_self _ _, h2⟩
                  · simp only [hxl, false_and, if_false, hx] at h2
                    exact Or.inl h2
                · exact Or.inr ⟨List.mem_cons_of_mem _ h2, h3⟩

/-- A run of `updateChildren` returns when the new logger exists and every
member of the provision node has a parent. -/
theorem updateChildren_total (logger : LoggerPtr) :
    ∀ (pn : List LoggerPtr) (h : Hierarchy), logger < h.heap.length →
      (∀ l ∈ pn, ∃ p, parentAt h l = some p ∧ p < h.heap.length) →
      ∃ h1, updateChildren h pn logger = .ok h1 := by
  intro pn
  induction pn with
  | nil => intro h _ _; exact ⟨h, rfl⟩
  | cons l rest ih =>
    intro h hlog hall
    obtain ⟨p, hp, hplt⟩ := hall l (List.mem_cons_self _ _)
    have hrest : ∀ x ∈ rest, ∃ q, parentAt h x = some q ∧ q < h.heap.length :=
      fun x hx => hall x (List.mem_cons_of_mem _ hx)
    unfold parentAt at hp
    cases hl : h.heap[l]? with
    | none => simp [hl] at hp
    | some lo =>
      simp only [hl] at hp
      obtain ⟨po, hpo, _⟩ := deref_of_lt h p hplt
      obtain ⟨lg, hlg, _⟩ := deref_of_lt h logger hlog
      have hdl : deref h l = .ok lo := (deref_ok_iff h l lo).2 hl
      have hllt : l < h.heap.length := by
        rcases List.getElem?_eq_some.1 hl with ⟨hlt, _⟩; exact hlt
      unfold updateChildren
      simp only [hdl, hp, hpo, hlg]
      by_cases hsw : startsWith po.name lg.name = true
      · simp only [hsw, Bool.not_true, Bool.false_eq_true, if_false]
        exact ih h hlog hrest
      · have hsw2 : startsWith po.name lg.name = false := by
          cases hb : startsWith po.name lg.name with
          | true => exact absurd hb hsw
          | false => rfl
        simp only [hsw2, Bool.not_false, if_true]
        have hlen : (setParent (setParent h logger (some p)) l (some logger)).heap.length
            = h.heap.length :=
          ((frame_setParent _ _ _).trans (frame_setParent _ _ _)).length
        apply ih
        · rw [hlen]; exact hlog
        · intro x hx
          rw [hlen, parentAt_setParent, parentAt_setParent, (frame_setParent _ _ _).length]
          by_cases hxl : x = l
          · subst hxl
            simp only [true_and, hllt, if_true]
            exact ⟨logger, rfl, hlog⟩
          · simp only [hxl, false_and, if_false]
            by_cases hxg : x = logger
            · subst hxg
              simp only [true_and, hlog, if_true]
              exact ⟨p, rfl, hplt⟩
            · simp only [hxg, false_and, if_false]
              exact hrest x hx

end Hierarchy

/-! ## `find_last_of` and the positions the loop of `updateParents` visits -/

theorem findLastBelow_some {s : Str} {c : Char} :
    ∀ {n j : Nat}, findLastBelow s c n = some j → j < n ∧ s[j]? = some c := by
  intro n
  induction n with
  | zero => intro j hj; simp [findLastBelow] at hj
  | succ n ih =>
    intro j hj
    unfold findLastBelow at hj
    by_cases hc : s[n]? = some c
    · simp only [hc, if_true, Option.some.injEq] at hj
      subst hj
      exact ⟨Nat.lt_succ_self _, hc⟩
    · simp only [hc, if_false] at hj
      obtain ⟨h1, h2⟩ := ih hj
      exact ⟨Nat.lt_succ_of_lt h1, h2⟩

theorem findLastBelow_exists {s : Str} {c : Char} (h0 : s[0]? = some c) :
    ∀ n, 0 < n → ∃ j, findLastBelow s c n = some j := by
  intro n
  induction n with
  | zero => intro hn; exact absurd hn (Nat.lt_irrefl 0)
  | succ n ih =>
    intro _
    unfold findLastBelow
    by_cases hc : s[n]? = some c
    · exact ⟨n, by simp [hc]⟩
    · simp only [hc, if_false]
      apply ih
      rcases Nat.eq_zero_or_pos n with hz | hpos
      · subst hz; exact absurd h0 hc
      · exact hpos

/-- The position the loop of `updateParents` moves to from position `n`: the
last dot before `n`, but the last dot of the whole name when `n` is `0`, where
`i-1` is `-1`, that is, `npos`. -/
theorem find_last_of_pred (name : Str) (n : Nat) (hn : n ≤ name.length) :
    find_last_of name '.' (sizeType ((n : Int) - 1)) =
      if n = 0 then findLastBelow name '.' name.length else findLastBelow name '.' n := by
  rcases Nat.eq_zero_or_pos n with hz | hpos
  · subst hz
    simp [sizeType, find_last_of]
  · have h1 : ¬ ((n : Int) - 1 < 0) := by omega
    have h2 : ((n : Int) - 1).toNat + 1 = n := by omega
    have h3 : n ≠ 0 := by omega
    simp only [sizeType, h1, if_false, find_last_of, h2, h3, Nat.min_eq_left hn]

namespace Hierarchy

theorem frame_addProvision (h : Hierarchy) (name substr : Str) (logger : LoggerPtr) :
    Frame h (addProvision h name substr logger) := by
  unfold addProvision
  cases Map.find h.provisionNodes name <;> exact frame_provisionNodes _ _

theorem parentAt_addProvision (h : Hierarchy) (name substr : Str) (logger x : LoggerPtr) :
    parentAt (addProvision h name substr logger) x = parentAt h x := by
  unfold addProvision
  cases Map.find h.provisionNodes name <;> rfl

theorem heap_addProvision (h : Hierarchy) (name substr : Str) (logger : LoggerPtr) :
    (addProvision h name substr logger).heap = h.heap := by
  unfold addProvision
  cases Map.find h.provisionNodes name <;> rfl

/-- When the name starts with a dot and none of its dotted prefixes is
registered, the loop never ends: from position `0` it moves to the last dot
of the name again. -/
theorem updateParentsLoop_noReturn (name : Str) (logger : LoggerPtr)
    (h0 : name[0]? = some '.') :
    ∀ (fuel : Nat) (h : Hierarchy) (i : Nat),
      (∀ j, name[j]? = some '.' → Map.find h.loggers (name.take j) = none) →
      name[i]? = some '.' →
      updateParentsLoop name logger fuel h (some i) = .error .noReturn := by
  intro fuel
  induction fuel with
  | zero => intro h i _ _; rfl
  | succ fuel ih =>
    intro h i hno hi
    unfold updateParentsLoop
    simp only [hno i hi]
    have hilt : i < name.length := by
      rcases List.getElem?_eq_some.1 hi with ⟨hlt, _⟩; exact hlt
    have hpos : 0 < name.length := by omega
    rw [find_last_of_pred name i (Nat.le_of_lt hilt)]
    have hnext : ∃ j, (if i = 0 then findLastBelow name '.' name.length
        else findLastBelow name '.' i) = some j := by
      by_cases hz : i = 0
      · simp only [hz, if_true]; exact findLastBelow_exists h0 _ hpos
      · simp only [hz, if_false]; exact findLastBelow_exists h0 _ (by omega)
    obtain ⟨j, hj⟩ := hnext
    rw [hj]
    have hjdot : name[j]? = some '.' := by
      by_cases hz : i = 0
      · simp only [hz, if_true] at hj; exact (findLastBelow_some hj).2
      · simp only [hz, if_false] at hj; exact (findLastBelow_some hj).2
    apply ih
    · intro k hk
      rw [(frame_addProvision h _ _ _).loggers]
      exact hno k hk
    · exact hjdot

/-- The loop ends within one unit of fuel per position at or below the one it
starts from, when the name does not start with a dot or one of the
dotted prefixes the loop will visit is registered. -/
theorem updateParentsLoop_returns (name : Str) (logger : LoggerPtr)
    (reg : List (Str × LoggerPtr)) :
    ∀ (n fuel : Nat) (h : Hierarchy), n ≤ name.length → n < fuel → h.loggers = reg →
      (name[0]? = some '.' →
        ∃ j, j < n ∧ name[j]? = some '.' ∧ Map.find reg (name.take j) ≠ none) →
      ∃ r, updateParentsLoop name logger fuel h (findLastBelow name '.' n) = .ok r := by
  intro n
  induction n with
  | zero =>
    intro fuel h _ hf _ _
    obtain ⟨f, rfl⟩ : ∃ f, fuel = f + 1 := ⟨fuel - 1, by omega⟩
    exact ⟨(h, false), rfl⟩
  | succ n ih =>
    intro fuel h hn hf hreg hgood
    obtain ⟨f, rfl⟩ : ∃ f, fuel = f + 1 := ⟨fuel - 1, by omega⟩
    by_cases hc : name[n]? = some '.'
    · have hfl : findLastBelow name '.' (n + 1) = some n := by
        simp [findLastBelow, hc]
      rw [hfl]
      cases hfind : Map.find reg (name.take n) with
      | some p =>
        unfold updateParentsLoop
        simp only [hreg, hfind]
        exact ⟨_, rfl⟩
      | none =>
        have hgood2 : name[0]? = some '.' →
            ∃ j, j < n ∧ name[j]? = some '.' ∧ Map.find reg (name.take j) ≠ none := by
          intro h0
          obtain ⟨j, hj, hjd, hjr⟩ := hgood h0
          rcases Nat.eq_or_lt_of_le (Nat.le_of_lt_succ hj) with he | hlt
          · subst he; exact absurd hfind hjr
          · exact ⟨j, hlt, hjd, hjr⟩
        have hnz : n ≠ 0 := by
          rintro rfl
          obtain ⟨j, hj, _, _⟩ := hgood2 hc
          exact absurd hj (Nat.not_lt_zero _)
        have hnext := find_last_of_pred name n (by omega)
        simp only [hnz, if_false] at hnext
        unfold updateParentsLoop
        simp only [hreg, hfind, hnext]
        exact ih f _ (by omega) (by omega)
          (by rw [(frame_addProvision _ _ _ _).loggers]; exact hreg) hgood2
    · have hfl : findLastBelow name '.' (n + 1) = findLastBelow name '.' n := by
        simp [findLastBelow, hc]
      rw [hfl]
      apply ih (f + 1) h (by omega) (by omega) hreg
      intro h0
      obtain ⟨j, hj, hjd, hjr⟩ := hgood h0
      rcases Nat.eq_or_lt_of_le (Nat.le_of_lt_succ hj) with he | hlt
      · subst he; exact absurd hjd hc
      · exact ⟨j, hlt, hjd, hjr⟩

/-- More fuel does not change the result of a run that ends. -/
theorem updateParentsLoop_mono (name : Str) (logger : LoggerPtr) :
    ∀ (fuel : Nat) (h : Hierarchy) (pos : Option Nat) (r : Hierarchy × Bool),
      updateParentsLoop name logger fuel h pos = .ok r →
      updateParentsLoop name logger (fuel + 1) h pos = .ok r := by
  intro fuel
  induction fuel with
  | zero => intro h pos r hrun; simp [updateParentsLoop] at hrun
  | succ f ih =>
    intro h pos r hrun
    cases pos with
    | none => simpa [updateParentsLoop] using hrun
    | some i =>
      unfold updateParentsLoop at hrun ⊢
      cases hfind : Map.find h.loggers (name.take i) with
      | some p => simpa only [hfind] using hrun
      | none =>
        simp only [hfind] at hrun ⊢
        exact ih _ _ _ hrun

theorem updateParentsLoop_mono_le (name : Str) (logger : LoggerPtr) (h : Hierarchy)
    (pos : Option Nat) (r : Hierarchy × Bool) (fuel : Nat)
    (hrun : updateParentsLoop name logger fuel h pos = .ok r) :
    ∀ k, updateParentsLoop name logger (fuel + k) h pos = .ok r := by
  intro k
  induction k with
  | zero => exact hrun
  | succ k ih => exact updateParentsLoop_mono name logger (fuel + k) h pos r ih

/-- The fuel `getLogger` gives to the loop of `updateParents`, one unit more
than the name is long, is enough: with any greater amount the loop, started
as `updateParents` starts it, has the same outcome. -/
theorem updateParentsLoop_fuel_enough (name : Str) (logger : LoggerPtr) (h : Hierarchy)
    (fuel : Nat) (hfuel : name.length + 1 ≤ fuel) :
    updateParentsLoop name logger fuel h (findLastBelow name '.' name.length) =
      updateParentsLoop name logger (name.length + 1) h
        (findLastBelow name '.' name.length) := by
  obtain ⟨k, rfl⟩ : ∃ k, fuel = name.length + 1 + k := ⟨fuel - (name.length + 1), by omega⟩
  by_cases hgood : name[0]? = some '.' →
      ∃ j, j < name.length ∧ name[j]? = some '.' ∧ Map.find h.loggers (name.take j) ≠ none
  · obtain ⟨r, hr⟩ := updateParentsLoop_returns name logger h.loggers name.length
      (name.length + 1) h (Nat.le_refl _) (Nat.lt_succ_self _) rfl hgood
    rw [hr, updateParentsLoop_mono_le name logger h _ r _ hr k]
  · have h0 : name[0]? = some '.' := by
      by_contra hc; exact hgood (fun h0 => absurd h0 hc)
    have hno : ∀ j, name[j]? = some '.' → Map.find h.loggers (name.take j) = none := by
      intro j hj
      by_contra hc
      apply hgood
      intro _
      rcases List.getElem?_eq_some.1 hj with ⟨hlt, _⟩
      exact ⟨j, hlt, hj, hc⟩
    have hpos : 0 < name.length := by
      rcases List.getElem?_eq_some.1 h0 with ⟨hlt, _⟩; exact hlt
    obtain ⟨j, hj⟩ := findLastBelow_exists h0 name.length hpos
    rw [hj, updateParentsLoop_noReturn name logger h0 _ h j hno (findLastBelow_some hj).2,
      updateParentsLoop_noReturn name logger h0 _ h j hno (findLastBelow_some hj).2]

theorem dottedAncestor_take {name : Str} {n : Nat} (hn : name[n]? = some '.') :
    DottedAncestor (name.take n) name := by
  rcases List.getElem?_eq_some.1 hn with ⟨hlt, hget⟩
  refine ⟨name.drop (n + 1), ?_⟩
  have h1 : name.drop n = name[n] :: name.drop (n + 1) := List.drop_eq_getElem_cons hlt
  rw [hget] at h1
  rw [← h1, List.take_append_drop]

theorem dottedAncestor_length {p name : Str} (hd : DottedAncestor p name) :
    p.length < name.length := by
  obtain ⟨rest, rfl⟩ := hd
  simp

/-- A proper dotted prefix of `name` is `name` cut just before one of its dots. -/
theorem dottedAncestor_take_length {p name : Str} (hd : DottedAncestor p name) :
    name[p.length]? = some '.' ∧ name.take p.length = p := by
  obtain ⟨rest, rfl⟩ := hd
  constructor
  · rw [List.getElem?_append_right (Nat.le_refl _)]; simp
  · simp

theorem take_ne_self {name : Str} {n : Nat} (hn : n < name.length) : name.take n ≠ name := by
  intro h
  have h1 : (name.take n).length = name.length := by rw [h]
  rw [List.length_take] at h1
  omega

/-- What a run of the loop of `updateParents` that ends has done, started at
the last dot before position `n` with no dotted prefix of `n` or more
characters registered: it stops at the longest registered dotted prefix, sets
the parent link to it, and has inserted provision nodes holding the logger only
under unregistered dotted prefixes that had none. -/
theorem updateParentsLoop_ok (name : Str) (logger : LoggerPtr) (reg : List (Str × LoggerPtr)) :
    ∀ (n fuel : Nat) (h h1 : Hierarchy) (found : Bool), n ≤ name.length →
      h.loggers = reg →
      (∀ j, n ≤ j → name[j]? = some '.' → Map.find reg (name.take j) = none) →
      Map.find h.provisionNodes name = none →
      updateParentsLoop name logger fuel h (findLastBelow name '.' n) = .ok (h1, found) →
      Frame h h1 ∧
      (∀ x, x ≠ logger → parentAt h1 x = parentAt h x) ∧
      Map.find h1.provisionNodes name = none ∧
      (∀ k v, Map.find h1.provisionNodes k = some v →
          Map.find h.provisionNodes k = some v ∨
          (v = [logger] ∧ Map.find reg k = none ∧ DottedAncestor k name)) ∧
      (match (dottedPrefixesBelow name n).findSome? (fun p => Map.find reg p) with
       | some p => found = true ∧ (logger < h.heap.length → parentAt h1 logger = some p)
       | none => found = false ∧ parentAt h1 logger = parentAt h logger) := by
  intro n
  induction n with
  | zero =>
    intro fuel h h1 found _ _ _ hpn hrun
    cases fuel with
    | zero => simp [findLastBelow, updateParentsLoop] at hrun
    | succ f =>
      simp only [findLastBelow, updateParentsLoop, Except.ok.injEq, Prod.mk.injEq] at hrun
      obtain ⟨rfl, rfl⟩ := hrun
      exact ⟨Frame.refl h, fun _ _ => rfl, hpn, fun k v hk => Or.inl hk,
        by simp [dottedPrefixesBelow]⟩
  | succ n ih =>
    intro fuel h h1 found hn hreg hno hpn hrun
    by_cases hc : name[n]? = some '.'
    · have hfl : findLastBelow name '.' (n + 1) = some n := by
        simp [findLastBelow, hc]
      have hdp : dottedPrefixesBelow name (n + 1) = name.take n :: dottedPrefixesBelow name n := by
        simp [dottedPrefixesBelow, hc]
      rw [hfl] at hrun
      rw [hdp]
      cases fuel with
      | zero => simp [updateParentsLoop] at hrun
      | succ f =>
        cases hfind : Map.find reg (name.take n) with
        | some p =>
          unfold updateParentsLoop at hrun
          simp only [hreg, hfind, Except.ok.injEq, Prod.mk.injEq] at hrun
          obtain ⟨rfl, rfl⟩ := hrun
          refine ⟨frame_setParent _ _ _, fun x hx => ?_, ?_, fun k v hk => ?_, ?_⟩
          · rw [parentAt_setParent]; simp [hx]
          · rw [setParent_provisionNodes]; exact hpn
          · rw [setParent_provisionNodes] at hk; exact Or.inl hk
          · simp only [List.findSome?_cons, hfind, true_and]
            intro hlt
            rw [parentAt_setParent]; simp [hlt]
        | none =>
          have hnext := find_last_of_pred name n (by omega)
          unfold updateParentsLoop at hrun
          simp only [hreg, hfind, hnext] at hrun
          have hall : ∀ j, n ≤ j → name[j]? = some '.' → Map.find reg (name.take j) = none := by
            intro j hj hjd
            rcases Nat.eq_or_lt_of_le hj with he | hlt
            · subst he; exact hfind
            · exact hno j hlt hjd
          have hlog : (addProvision h name (name.take n) logger).loggers = reg := by
            rw [(frame_addProvision _ _ _ _).loggers]; exact hreg
          by_cases hz : n = 0
          · subst hz
            simp only [if_true] at hrun
            obtain ⟨j, hj⟩ := findLastBelow_exists hc name.length (by omega)
            rw [hj] at hrun
            rw [updateParentsLoop_noReturn name logger hc f _ j
              (fun k hk => by rw [hlog]; exact hall k (Nat.zero_le _) hk)
              (findLastBelow_some hj).2] at hrun
            simp at hrun
          · simp only [hz, if_false] at hrun
            have hap : (addProvision h name (name.take n) logger).provisionNodes =
                Map.insert h.provisionNodes (name.take n) [logger] := by
              unfold addProvision; simp only [hpn]
            have hpn1 : Map.find (addProvision h name (name.take n) logger).provisionNodes name
                = none := by
              rw [hap, Map.find_insert_of_ne _ _ _ _ (take_ne_self (by omega)), hpn]
            obtain ⟨hf, hpar, hpn2, hkv, hres⟩ :=
              ih f _ h1 found (by omega) hlog hall hpn1 hrun
            refine ⟨(frame_addProvision _ _ _ _).trans hf, fun x hx => ?_, hpn2,
              fun k v hk => ?_, ?_⟩
            · rw [hpar x hx, parentAt_addProvision]
            · rcases hkv k v hk with h2 | h2
              · rw [hap, Map.find_insert] at h2
                cases hk0 : Map.find h.provisionNodes k with
                | some w => simp only [hk0] at h2; exact Or.inl h2
                | none =>
                  simp only [hk0] at h2
                  by_cases hkn : name.take n = k
                  · subst hkn
                    simp only [if_true, Option.some.injEq] at h2
                    exact Or.inr ⟨h2.symm, hfind, dottedAncestor_take hc⟩
                  · simp [hkn] at h2
              · exact Or.inr h2
            · simp only [List.findSome?_cons, hfind]
              rw [(frame_addProvision _ _ _ _).length, parentAt_addProvision] at hres
              exact hres
    · have hfl : findLastBelow name '.' (n + 1) = findLastBelow name '.' n := by
        simp [findLastBelow, hc]
      have hdp : dottedPrefixesBelow name (n + 1) = dottedPrefixesBelow name n := by
        simp [dottedPrefixesBelow, hc]
      rw [hfl] at hrun
      rw [hdp]
      apply ih fuel h h1 found (by omega) hreg _ hpn hrun
      intro j hj hjd
      rcases Nat.eq_or_lt_of_le hj with he | hlt
      · subst he; exact absurd hjd hc
      · exact hno j hlt hjd

theorem Frame.rest {h h1 : Hierarchy} (a : Frame h h1) : Rest h h1 :=
  ⟨a.root, a.threshold, a.thresholdInt, a.listeners, a.emittedA, a.emittedR, a.warnings⟩

theorem Rest.comp {h h1 h2 : Hierarchy} (a : Rest h h1) (b : Rest h1 h2) : Rest h h2 :=
  ⟨b.root.trans a.root, b.threshold.trans a.threshold, b.thresholdInt.trans a.thresholdInt,
   b.listeners.trans a.listeners, b.emittedA.trans a.emittedA, b.emittedR.trans a.emittedR,
   b.warnings.trans a.warnings⟩

/-- What a run of `updateParents` that returns has done for the logger at
`logger`, named `name`, when no provision node is keyed by `name`. -/
theorem updateParents_ok (fuel : Nat) (h h1 : Hierarchy) (logger : LoggerPtr) (name : Str)
    (hname : nameAt h logger = some name)
    (hpn : Map.find h.provisionNodes name = none)
    (hrun : updateParents fuel h logger = .ok h1) :
    Frame h h1 ∧
    (∀ x, x ≠ logger → parentAt h1 x = parentAt h x) ∧
    Map.find h1.provisionNodes name = none ∧
    (∀ k v, Map.find h1.provisionNodes k = some v →
        Map.find h.provisionNodes k = some v ∨
        (v = [logger] ∧ Map.find h.loggers k = none ∧ DottedAncestor k name)) ∧
    parentAt h1 logger = some (nearestAncestor h name) := by
  have hlt : logger < h.heap.length := nameAt_lt hname
  obtain ⟨lg, hd, hget⟩ := deref_of_lt h logger hlt
  have hlgn : lg.name = name := by
    unfold nameAt at hname
    simp only [hget, Option.some.injEq] at hname
    exact hname
  have hstart : find_last_of name '.' (sizeType ((name.length : Int) - 1)) =
      findLastBelow name '.' name.length := by
    rw [find_last_of_pred name name.length (Nat.le_refl _)]
    by_cases hz : name.length = 0 <;> simp [hz]
  unfold updateParents at hrun
  simp only [hd, hlgn, hstart] at hrun
  cases hloop : updateParentsLoop name logger fuel h (findLastBelow name '.' name.length) with
  | error e => simp [hloop] at hrun
  | ok r =>
    obtain ⟨h2, found⟩ := r
    simp only [hloop] at hrun
    obtain ⟨hf, hpar, hpn2, hkv, hres⟩ :=
      updateParentsLoop_ok name logger h.loggers name.length fuel h h2 found (Nat.le_refl _) rfl
        (fun j hj hjd => by
          rcases List.getElem?_eq_some.1 hjd with ⟨hlt2, _⟩
          omega)
        hpn hloop
    unfold nearestAncestor dottedPrefixes registered
    cases hfs : (dottedPrefixesBelow name name.length).findSome? (fun p => Map.find h.loggers p) with
    | some p =>
      simp only [hfs] at hres
      obtain ⟨hfound, hp⟩ := hres
      simp only [hfound, Bool.not_true, Bool.false_eq_true, if_false, Except.ok.injEq] at hrun
      subst hrun
      exact ⟨hf, hpar, hpn2, hkv, hp hlt⟩
    | none =>
      simp only [hfs] at hres
      obtain ⟨hfound, _⟩ := hres
      simp only [hfound, Bool.not_false, if_true, Except.ok.injEq] at hrun
      subst hrun
      refine ⟨hf.trans (frame_setParent _ _ _), fun x hx => ?_, ?_, fun k v hk => ?_, ?_⟩
      · rw [parentAt_setParent]; simp only [hx, false_and, if_false]; exact hpar x hx
      · rw [setParent_provisionNodes]; exact hpn2
      · rw [setParent_provisionNodes] at hk; exact hkv k v hk
      · rw [parentAt_setParent]
        have : logger < h2.heap.length := by rw [hf.length]; exact hlt
        simp [this, hf.root]

/-- A run of `updateParents` returns when the logger exists and its name does
not start with a dot, given one unit of fuel more than the name is long. -/
theorem updateParents_total (fuel : Nat) (h : Hierarchy) (logger : LoggerPtr) (name : Str)
    (hname : nameAt h logger = some name) (h0 : name[0]? ≠ some '.')
    (hfuel : name.length < fuel) :
    ∃ h1, updateParents fuel h logger = .ok h1 := by
  have hlt : logger < h.heap.length := nameAt_lt hname
  obtain ⟨lg, hd, hget⟩ := deref_of_lt h logger hlt
  have hlgn : lg.name = name := by
    unfold nameAt at hname
    simp only [hget, Option.some.injEq] at hname
    exact hname
  have hstart : find_last_of name '.' (sizeType ((name.length : Int) - 1)) =
      findLastBelow name '.' name.length := by
    rw [find_last_of_pred name name.length (Nat.le_refl _)]
    by_cases hz : name.length = 0 <;> simp [hz]
  obtain ⟨r, hr⟩ := updateParentsLoop_returns name logger h.loggers name.length fuel h
    (Nat.le_refl _) hfuel rfl (fun hd => absurd hd h0)
  unfold updateParents
  simp only [hd, hlgn, hstart, hr]
  by_cases hb : r.2 = true
  · exact ⟨r.1, by simp [hb]⟩
  · exact ⟨setParent r.1 logger (some r.1.root), by simp [hb]⟩

/-! ## The creating branch of `getLogger` -/

theorem registerNew_fst (h : Hierarchy) (name : Str) : (registerNew h name).1 = h.heap.length :=
  rfl

/-- The state in which the new logger has been registered: one more logger
object, named `name`, with no parent, registered under `name`. -/
theorem registerNew_snd (h : Hierarchy) (name : Str) :
    Rest h (registerNew h name).2 ∧
    (registerNew h name).2.mapCs = h.mapCs ∧
    (registerNew h name).2.heap.length = h.heap.length + 1 ∧
    (registerNew h name).2.loggers = Map.insert h.loggers name h.heap.length ∧
    (registerNew h name).2.provisionNodes = h.provisionNodes ∧
    (∀ x, x < h.heap.length → nameAt (registerNew h name).2 x = nameAt h x ∧
        parentAt (registerNew h name).2 x = parentAt h x) ∧
    nameAt (registerNew h name).2 h.heap.length = some name ∧
    parentAt (registerNew h name).2 h.heap.length = none := by
  have hnew : (makeNewLoggerInstance h name).2.heap[h.heap.length]? =
      some { name := name, parent := none, hierarchy := false, level := none,
             additive := true, appenders := [] } := by
    simp [makeNewLoggerInstance]
  have hold : ∀ x, x < h.heap.length →
      (makeNewLoggerInstance h name).2.heap[x]? = h.heap[x]? := by
    intro x hx
    simp [makeNewLoggerInstance, List.getElem?_append_left hx]
  have hf := frame_setHierarchy (makeNewLoggerInstance h name).2 (makeNewLoggerInstance h name).1
  have hpar :=
    parentAt_setHierarchy (makeNewLoggerInstance h name).2 (makeNewLoggerInstance h name).1
  refine ⟨⟨hf.root, hf.threshold, hf.thresholdInt, hf.listeners, hf.emittedA, hf.emittedR,
    hf.warnings⟩, hf.mapCs, ?_, ?_, ?_, fun x hx => ⟨?_, ?_⟩, ?_, ?_⟩
  · show (setHierarchy _ _).heap.length = _
    rw [hf.length]; simp [makeNewLoggerInstance]
  · show Map.insert (setHierarchy _ _).loggers name _ = _
    rw [hf.loggers]; rfl
  · show (setHierarchy _ _).provisionNodes = _
    rw [setHierarchy_provisionNodes]; rfl
  · show nameAt (setHierarchy _ _) x = _
    rw [hf.name]; unfold nameAt; rw [hold x hx]
  · show parentAt (setHierarchy _ _) x = _
    rw [hpar]; unfold parentAt; rw [hold x hx]
  · show nameAt (setHierarchy _ _) _ = _
    rw [hf.name]; unfold nameAt; rw [hnew]
  · show parentAt (setHierarchy _ _) _ = _
    rw [hpar]; unfold parentAt; rw [hnew]

/-- What `adoptChildren` leaves alone and what it may change. -/
theorem adoptChildren_ok (h h1 : Hierarchy) (name : Str) (logger : LoggerPtr)
    (hrun : adoptChildren h name logger = .ok h1) :
    Frame h h1 ∧
    (∀ k, Map.find h1.provisionNodes k =
        if k = name then none else Map.find h.provisionNodes k) ∧
    ∀ x, x ≠ logger →
      parentAt h1 x = parentAt h x ∨
      ∃ node, Map.find h.provisionNodes name = some node ∧ x ∈ node ∧
        parentAt h1 x = some logger := by
  unfold adoptChildren at hrun
  cases hpn : Map.find h.provisionNodes name with
  | none =>
    simp only [hpn, Except.ok.injEq] at hrun
    subst hrun
    refine ⟨Frame.refl h, fun k => ?_, fun x _ => Or.inl rfl⟩
    by_cases hk : k = name
    · subst hk; simp [hpn]
    · simp [hk]
  | some pn =>
    simp only [hpn] at hrun
    cases huc : updateChildren h pn logger with
    | error e => simp [huc] at hrun
    | ok h2 =>
      simp only [huc, Except.ok.injEq] at hrun
      subst hrun
      obtain ⟨hf, hp, hpar⟩ := updateChildren_ok logger pn h h2 huc
      refine ⟨hf.trans (frame_provisionNodes _ _), fun k => ?_, fun x hx => ?_⟩
      · show Map.find (Map.erase h2.provisionNodes name) k = _
        rw [Map.find_erase, hp]
      · rcases hpar x hx with h3 | ⟨h3, h4⟩
        · exact Or.inl h3
        · exact Or.inr ⟨pn, rfl, h3, h4⟩

/-- The block `adoptChildren` returns when the new logger exists and every
member of the provision node of `name` has a parent. -/
theorem adoptChildren_total (h : Hierarchy) (name : Str) (logger : LoggerPtr)
    (hlog : logger < h.heap.length)
    (hall : ∀ node, Map.find h.provisionNodes name = some node →
      ∀ l ∈ node, ∃ p, parentAt h l = some p ∧ p < h.heap.length) :
    ∃ h1, adoptChildren h name logger = .ok h1 := by
  unfold adoptChildren
  cases hpn : Map.find h.provisionNodes name with
  | none => exact ⟨h, rfl⟩
  | some pn =>
    obtain ⟨h2, h2run⟩ := updateChildren_total logger pn h hlog (hall pn hpn)
    simp only [h2run]
    exact ⟨_, rfl⟩

theorem getLoggerFuel_registered (fuel : Nat) (h : Hierarchy) (name : Str) (l : LoggerPtr)
    (hreg : registered h name = some l) :
    getLoggerFuel fuel h name = .ok (l, h) := by
  unfold registered at hreg
  unfold getLoggerFuel
  simp only [lock, hreg, unlock, Nat.add_sub_cancel]

theorem getLoggerFuel_created (fuel : Nat) (h h1 : Hierarchy) (name : Str) (l : LoggerPtr)
    (hreg : registered h name = none)
    (hrun : getLoggerFuel fuel h name = .ok (l, h1)) :
    Created h name l h1 := by
  unfold registered at hreg
  unfold getLoggerFuel at hrun
  have hlk : (lock h).loggers = h.loggers := rfl
  simp only [hlk, hreg] at hrun
  obtain ⟨hrest, hmap, hlen, hlog, hpn, hold, hnn, hnp⟩ := registerNew_snd (lock h) name
  have hlkheap : (lock h).heap = h.heap := rfl
  rw [hlkheap] at hlen hlog hold hnn hnp
  rw [registerNew_fst, hlkheap] at hrun
  cases hac : adoptChildren (registerNew (lock h) name).2 name h.heap.length with
  | error e => simp [hac] at hrun
  | ok h2 =>
    simp only [hac] at hrun
    cases hup : updateParents fuel h2 h.heap.length with
    | error e => simp [hup] at hrun
    | ok h3 =>
      simp only [hup, Except.ok.injEq, Prod.mk.injEq] at hrun
      obtain ⟨rfl, rfl⟩ := hrun
      obtain ⟨hf2, hpn2, hpar2⟩ := adoptChildren_ok _ _ _ _ hac
      have hname2 : nameAt h2 h.heap.length = some name := by rw [hf2.name]; exact hnn
      have hpnn : Map.find h2.provisionNodes name = none := by rw [hpn2]; simp
      obtain ⟨hf3, hpar3, hpn3, hkv3, hnew3⟩ :=
        updateParents_ok fuel h2 h3 h.heap.length name hname2 hpnn hup
      have hlog3 : h3.loggers = Map.insert h.loggers name h.heap.length := by
        rw [hf3.loggers, hf2.loggers, hlog]; rfl
      refine ⟨rfl, ?_, ?_, ?_, hlog3, fun x hx => ?_, ?_, fun x hx => ?_, ?_, hpn3,
        fun k v hk => ?_⟩
      · have hr : Rest h (lock h) := ⟨rfl, rfl, rfl, rfl, rfl, rfl, rfl⟩
        have hr3 : Rest h h3 := (hr.comp hrest).comp ((hf2.trans hf3).rest)
        exact ⟨hr3.root, hr3.threshold, hr3.thresholdInt, hr3.listeners, hr3.emittedA,
          hr3.emittedR, hr3.warnings⟩
      · show h3.mapCs - 1 = h.mapCs
        rw [hf3.mapCs, hf2.mapCs, hmap]
        show h.mapCs + 1 - 1 = h.mapCs
        omega
      · show h3.heap.length = _
        rw [hf3.length, hf2.length, hlen]
      · show nameAt h3 x = _
        rw [hf3.name, hf2.name]; exact (hold x hx).1
      · show nameAt h3 _ = _
        rw [hf3.name]; exact hname2
      · have hxne : x ≠ h.heap.length := Nat.ne_of_lt hx
        show parentAt h3 x = _ ∨ ∃ node, _ ∧ _ ∧ parentAt h3 x = _
        rw [hpar3 x hxne]
        rcases hpar2 x hxne with h4 | ⟨node, h4, h5, h6⟩
        · left; rw [h4]; exact (hold x hx).2
        · right
          rw [hpn] at h4
          exact ⟨node, h4, h5, h6⟩
      · show parentAt h3 _ = some (nearestAncestor (unlock h3) name)
        rw [hnew3]
        unfold nearestAncestor registered
        show _ = some (match List.findSome? (fun p => Map.find h3.loggers p) _ with
          | some l => l | none => h3.root)
        rw [hf3.loggers, hf3.root]
      · have hk3 : Map.find h3.provisionNodes k = some v := hk
        have hkne : k ≠ name := by
          rintro rfl; rw [hpn3] at hk3; simp at hk3
        refine ⟨hkne, ?_⟩
        rcases hkv3 k v hk3 with h4 | ⟨h4, h5, h6⟩
        · left
          rw [hpn2, hpn] at h4
          simpa [hkne] using h4
        · right
          refine ⟨h4, ?_, h6⟩
          rw [hf2.loggers, hlog, Map.find_insert] at h5
          cases hk0 : Map.find h.loggers k with
          | some w => rw [hlk, hk0] at h5; simp at h5
          | none => rfl

end Hierarchy

/-! ## Logger attributes, appenders and the bulk operations -/

theorem unlock_lock (h : Hierarchy) : unlock (lock h) = h := by
  cases h
  simp [lock, unlock]

theorem getCurrentLoggers_fst (h : Hierarchy) :
    (getCurrentLoggers h).1 = h.loggers.map Prod.snd := rfl

theorem getCurrentLoggers_snd (h : Hierarchy) : (getCurrentLoggers h).2 = h :=
  unlock_lock h

theorem clear_eq (h : Hierarchy) : Hierarchy.clear h = { h with loggers := [] } := by
  cases h
  simp [Hierarchy.clear, lock, unlock]

/-- A method that rewrites a logger object changes nothing but the objects. -/
theorem modifyLogger_keeps {α : Type} (π : Hierarchy → α)
    (hπ : ∀ (s : Hierarchy) (hp : List Logger), π { s with heap := hp } = π s)
    (h : Hierarchy) (l : LoggerPtr) (f : Logger → Logger) :
    π (modifyLogger h l f) = π h := by
  unfold modifyLogger
  cases h.heap[l]? with
  | none => rfl
  | some o => exact hπ h _

theorem modifyLogger_get (h : Hierarchy) (l x : LoggerPtr) (f : Logger → Logger) :
    (modifyLogger h l f).heap[x]? = (h.heap[x]?).map (fun o => if x = l then f o else o) := by
  unfold modifyLogger
  cases hl : h.heap[l]? with
  | none =>
    by_cases hx : x = l
    · subst hx; simp [hl]
    · simp [hx]
  | some o =>
    have hlt : l < h.heap.length := by
      rcases List.getElem?_eq_some.1 hl with ⟨hlt, _⟩; exact hlt
    simp only [List.getElem?_set]
    by_cases hx : l = x
    · subst hx; simp [hlt, hl]
    · have hx2 : ¬ x = l := fun e => hx e.symm
      simp [hx, hx2]

theorem modifyLogger_twice (h : Hierarchy) (l : LoggerPtr) (f g : Logger → Logger) :
    modifyLogger (modifyLogger h l f) l g = modifyLogger h l (fun o => g (f o)) := by
  unfold modifyLogger
  cases hl : h.heap[l]? with
  | none => simp [hl]
  | some o =>
    have hlt : l < h.heap.length := by
      rcases List.getElem?_eq_some.1 hl with ⟨hlt, _⟩; exact hlt
    simp [hlt, List.set_set]

theorem closeNestedAppenders_keeps {α : Type} (π : Hierarchy → α)
    (hπ : ∀ (s : Hierarchy) (c : List Nat), π { s with closedAppenders := c } = π s)
    (nested : Nat → Bool) (h : Hierarchy) (l : LoggerPtr) :
    π (closeNestedAppenders nested h l) = π h := by
  unfold closeNestedAppenders
  cases h.heap[l]? with
  | none => rfl
  | some o => exact hπ h _

theorem foldl_keeps {α β : Type} (π : Hierarchy → α) (step : Hierarchy → β → Hierarchy)
    (hstep : ∀ s x, π (step s x) = π s) :
    ∀ (ls : List β) (h : Hierarchy), π (ls.foldl step h) = π h := by
  intro ls
  induction ls with
  | nil => intro h; rfl
  | cons a rest ih => intro h; rw [List.foldl_cons, ih, hstep]

/-- A loop that applies an idempotent rewriting `f` to the loggers of a list
rewrites exactly the objects of the list, each with `f`. -/
theorem foldl_modifyLogger_get (f : Logger → Logger) (hf : ∀ o, f (f o) = f o) :
    ∀ (ls : List LoggerPtr) (h : Hierarchy) (x : LoggerPtr),
      (ls.foldl (fun s l => modifyLogger s l f) h).heap[x]? =
        (h.heap[x]?).map (fun o => if x ∈ ls then f o else o) := by
  intro ls
  induction ls with
  | nil => intro h x; simp
  | cons a rest ih =>
    intro h x
    rw [List.foldl_cons, ih, modifyLogger_get]
    cases h.heap[x]? with
    | none => rfl
    | some o =>
      by_cases hxa : x = a
      · by_cases hxr : x ∈ rest <;> simp [hxa, hxr, hf]
      · by_cases hxr : x ∈ rest <;> simp [hxa, hxr]

theorem shutdown_keeps {α : Type} (π : Hierarchy → α)
    (hπ : ∀ (s : Hierarchy) (hp : List Logger) (c : List Nat),
      π { s with heap := hp, closedAppenders := c } = π s)
    (nested : Nat → Bool) (h : Hierarchy) :
    π (shutdown nested h) = π h := by
  have h1 : ∀ (s : Hierarchy) (hp : List Logger), π { s with heap := hp } = π s :=
    fun s hp => hπ s hp s.closedAppenders
  have h2 : ∀ (s : Hierarchy) (c : List Nat), π { s with closedAppenders := c } = π s :=
    fun s c => hπ s s.heap c
  unfold shutdown
  simp only [getCurrentLoggers_snd, getCurrentLoggers_fst]
  rw [foldl_keeps π removeAllAppenders (fun s x => modifyLogger_keeps π h1 s x _),
    show π (removeAllAppenders _ _) = _ from modifyLogger_keeps π h1 _ _ _,
    foldl_keeps π (closeNestedAppenders nested)
      (fun s x => closeNestedAppenders_keeps π h2 nested s x),
    closeNestedAppenders_keeps π h2]

/-- The logger objects after `shutdown`: the root and the registered loggers
have lost their appenders and nothing else of any object has changed. -/
theorem shutdown_get (nested : Nat → Bool) (h : Hierarchy) (x : LoggerPtr) :
    (shutdown nested h).heap[x]? =
      (h.heap[x]?).map (fun o =>
        if x = h.root ∨ x ∈ h.loggers.map Prod.snd then { o with appenders := [] } else o) := by
  have hheap1 : (closeNestedAppenders nested h h.root).heap = h.heap :=
    closeNestedAppenders_keeps (fun s => s.heap) (fun _ _ => rfl) nested h _
  have hlog1 : (closeNestedAppenders nested h h.root).loggers = h.loggers :=
    closeNestedAppenders_keeps (fun s => s.loggers) (fun _ _ => rfl) nested h _
  have hheap3 : ((h.loggers.map Prod.snd).foldl (closeNestedAppenders nested)
      (closeNestedAppenders nested h h.root)).heap = h.heap := by
    rw [foldl_keeps (fun s => s.heap) (closeNestedAppenders nested)
      (fun s x => closeNestedAppenders_keeps (fun s => s.heap) (fun _ _ => rfl) nested s x)]
    exact hheap1
  unfold shutdown
  simp only [getCurrentLoggers_snd, getCurrentLoggers_fst, getRootLogger, hlog1]
  have hloop := foldl_modifyLogger_get (fun o => { o with appenders := [] }) (fun _ => rfl)
    (h.loggers.map Prod.snd)
    (removeAllAppenders ((h.loggers.map Prod.snd).foldl (closeNestedAppenders nested)
      (closeNestedAppenders nested h h.root)) h.root) x
  have hstep : (removeAllAppenders ((h.loggers.map Prod.snd).foldl
      (closeNestedAppenders nested) (closeNestedAppenders nested h h.root)) h.root).heap[x]? =
      (h.heap[x]?).map (fun o => if x = h.root then { o with appenders := [] } else o) := by
    unfold removeAllAppenders
    rw [modifyLogger_get, hheap3]
  refine Eq.trans hloop ?_
  rw [hstep]
  cases h.heap[x]? with
  | none => rfl
  | some o =>
    by_cases hxr : x = h.root
    · by_cases hxl : x ∈ h.loggers.map Prod.snd <;> simp [hxr, hxl]
    · by_cases hxl : x ∈ h.loggers.map Prod.snd <;> simp [hxr, hxl]

theorem length_eq_of_get_map {l1 l2 : List Logger} (F : Nat → Logger → Logger)
    (hget : ∀ x, l1[x]? = (l2[x]?).map (F x)) : l1.length = l2.length := by
  apply Nat.le_antisymm
  · have h1 := hget l2.length
    rw [List.getElem?_eq_none (Nat.le_refl _)] at h1
    exact List.getElem?_eq_none_iff.1 h1
  · have h1 := hget l1.length
    rw [List.getElem?_eq_none (Nat.le_refl _)] at h1
    cases h2 : l2[l1.length]? with
    | none => exact List.getElem?_eq_none_iff.1 h2
    | some o => rw [h2] at h1; simp at h1

/-- A call that keeps root, registry and provision nodes and rewrites the
logger objects without touching names and parents keeps the tree. -/
theorem sameTree_of_get {h h1 : Hierarchy} (F : LoggerPtr → Logger → Logger)
    (hn : ∀ x o, (F x o).name = o.name) (hp : ∀ x o, (F x o).parent = o.parent)
    (hroot : h1.root = h.root) (hlog : h1.loggers = h.loggers)
    (hpn : h1.provisionNodes = h.provisionNodes)
    (hget : ∀ x, h1.heap[x]? = (h.heap[x]?).map (F x)) : SameTree h h1 := by
  refine ⟨hroot, hlog, hpn, length_eq_of_get_map F hget, fun x => ?_, fun x => ?_⟩
  · unfold nameAt
    rw [hget x]
    cases h.heap[x]? with
    | none => rfl
    | some o => simp [hn]
  · unfold parentAt
    rw [hget x]
    cases h.heap[x]? with
    | none => rfl
    | some o => simp [hp]

theorem sameTree_of_heap {h h1 : Hierarchy} (hroot : h1.root = h.root)
    (hlog : h1.loggers = h.loggers) (hpn : h1.provisionNodes = h.provisionNodes)
    (hheap : h1.heap = h.heap) : SameTree h h1 :=
  ⟨hroot, hlog, hpn, by rw [hheap], fun x => by unfold nameAt; rw [hheap],
    fun x => by unfold parentAt; rw [hheap]⟩

theorem sameTree_modifyLogger (h : Hierarchy) (l : LoggerPtr) (f : Logger → Logger)
    (hn : ∀ o, (f o).name = o.name) (hp : ∀ o, (f o).parent = o.parent) :
    SameTree h (modifyLogger h l f) := by
  apply sameTree_of_get (fun x o => if x = l then f o else o)
  · intro x o; by_cases hx : x = l <;> simp [hx, hn]
  · intro x o; by_cases hx : x = l <;> simp [hx, hp]
  · exact modifyLogger_keeps (fun s => s.root) (fun _ _ => rfl) h l f
  · exact modifyLogger_keeps (fun s => s.loggers) (fun _ _ => rfl) h l f
  · exact modifyLogger_keeps (fun s => s.provisionNodes) (fun _ _ => rfl) h l f
  · exact fun x => modifyLogger_get h l x f

theorem sameTree_shutdown (nested : Nat → Bool) (h : Hierarchy) :
    SameTree h (shutdown nested h) := by
  apply sameTree_of_get (fun x o =>
    if x = h.root ∨ x ∈ h.loggers.map Prod.snd then { o with appenders := [] } else o)
  · intro x o; split <;> rfl
  · intro x o; split <;> rfl
  · exact shutdown_keeps (fun s => s.root) (fun _ _ _ => rfl) nested h
  · exact shutdown_keeps (fun s => s.loggers) (fun _ _ _ => rfl) nested h
  · exact shutdown_keeps (fun s => s.provisionNodes) (fun _ _ _ => rfl) nested h
  · exact fun x => shutdown_get nested h x

/-- What `resetConfiguration` does to the fields other than the logger
objects and the closed appenders: what `setThreshold(Level::ALL)` does. -/
theorem resetConfiguration_keeps {α : Type} (π : Hierarchy → α)
    (hπ : ∀ (s : Hierarchy) (hp : List Logger) (c : List Nat),
      π { s with heap := hp, closedAppenders := c } = π s)
    (nested : Nat → Bool) (h : Hierarchy) :
    π (resetConfiguration nested h) = π (setThreshold h Level.ALL) := by
  have h1 : ∀ (s : Hierarchy) (hp : List Logger), π { s with heap := hp } = π s :=
    fun s hp => hπ s hp s.closedAppenders
  have hend : unlock (setThreshold (lock h) Level.ALL) = setThreshold h Level.ALL := by
    cases h
    simp [lock, unlock, setThreshold]
  unfold resetConfiguration
  simp only [getCurrentLoggers_snd, getCurrentLoggers_fst]
  rw [foldl_keeps (fun s => π (unlock s))
      (fun s logger => setAdditivity (setLevel s logger Level.OFF) logger true)
      (fun s x => by
        show π (unlock (modifyLogger (modifyLogger s x _) x _)) = π (unlock s)
        rw [modifyLogger_keeps (fun s => π (unlock s)) (fun s hp => h1 (unlock s) hp),
          modifyLogger_keeps (fun s => π (unlock s)) (fun s hp => h1 (unlock s) hp)]),
    shutdown_keeps (fun s => π (unlock s)) (fun s hp c => hπ (unlock s) hp c),
    ← hend]
  exact modifyLogger_keeps (fun s => π (unlock (setThreshold s Level.ALL)))
    (fun s hp => h1 (unlock (setThreshold s Level.ALL)) hp) (lock h) _ _

theorem foldl_congr_step {β : Type} (step1 step2 : Hierarchy → β → Hierarchy)
    (hstep : ∀ s x, step1 s x = step2 s x) :
    ∀ (ls : List β) (h : Hierarchy), ls.foldl step1 h = ls.foldl step2 h := by
  intro ls
  induction ls with
  | nil => intro h; rfl
  | cons a rest ih => intro h; rw [List.foldl_cons, List.foldl_cons, hstep, ih]

/-- The state `resetConfiguration` runs `shutdown` in. -/
theorem resetConfiguration_before_shutdown (h : Hierarchy) (x : LoggerPtr) :
    (setThreshold (setLevel (lock h) (getRootLogger (lock h)) Level.DEBUG) Level.ALL).root
      = h.root ∧
    (setThreshold (setLevel (lock h) (getRootLogger (lock h)) Level.DEBUG) Level.ALL).loggers
      = h.loggers ∧
    (setThreshold (setLevel (lock h) (getRootLogger (lock h)) Level.DEBUG) Level.ALL).heap[x]?
      = (h.heap[x]?).map (fun o =>
          if x = h.root then { o with level := some Level.DEBUG } else o) :=
  ⟨modifyLogger_keeps (fun s => s.root) (fun _ _ => rfl) (lock h) _ _,
   modifyLogger_keeps (fun s => s.loggers) (fun _ _ => rfl) (lock h) _ _,
   modifyLogger_get (lock h) h.root x _⟩

/-- The logger objects after `resetConfiguration`: the root has the level
`DEBUG`, the root and the registered loggers have no appenders, and every
registered logger has no level of its own and additivity `true`. -/
theorem resetConfiguration_get (nested : Nat → Bool) (h : Hierarchy) (x : LoggerPtr) :
    (resetConfiguration nested h).heap[x]? =
      (h.heap[x]?).map (fun o =>
        if x ∈ h.loggers.map Prod.snd then
          { o with level := none, additive := true, appenders := [] }
        else if x = h.root then
          { o with level := some Level.DEBUG, appenders := [] }
        else o) := by
  obtain ⟨hroot3, hlog3, hget3⟩ := resetConfiguration_before_shutdown h x
  have hlog4 : (shutdown nested (setThreshold (setLevel (lock h) (getRootLogger (lock h))
      Level.DEBUG) Level.ALL)).loggers = h.loggers := by
    rw [shutdown_keeps (fun s => s.loggers) (fun _ _ _ => rfl)]
    exact hlog3
  have hloop := foldl_congr_step
    (fun (s : Hierarchy) (logger : LoggerPtr) =>
      setAdditivity (setLevel s logger Level.OFF) logger true)
    (fun s l => modifyLogger s l
      (fun o => { o with level := none, additive := true }))
    (fun s l => modifyLogger_twice s l _ _)
  have hunfold : (resetConfiguration nested h).heap =
      ((h.loggers.map Prod.snd).foldl
        (fun s l => modifyLogger s l
          (fun o => { o with level := none, additive := true }))
        (shutdown nested (setThreshold (setLevel (lock h) (getRootLogger (lock h))
          Level.DEBUG) Level.ALL))).heap := by
    unfold resetConfiguration
    simp only [getCurrentLoggers_snd, getCurrentLoggers_fst]
    rw [hloop, hlog4]
    rfl
  rw [hunfold,
    foldl_modifyLogger_get (fun o => { o with level := none, additive := true })
      (fun _ => rfl),
    shutdown_get, hroot3, hlog3, hget3]
  cases h.heap[x]? with
  | none => rfl
  | some o =>
    simp only [Option.map_some']
    by_cases hxr : x = h.root
    · subst hxr
      by_cases hxl : h.root ∈ h.loggers.map Prod.snd
      · simp only [hxl, or_true, if_true]
      · simp only [hxl, or_false, if_true, if_false]
    · by_cases hxl : x ∈ h.loggers.map Prod.snd
      · simp only [hxl, hxr, or_true, if_true, if_false]
      · simp only [hxl, hxr, or_false, if_false, or_self]

theorem sameTree_resetConfiguration (nested : Nat → Bool) (h : Hierarchy) :
    SameTree h (resetConfiguration nested h) := by
  apply sameTree_of_get (fun x o =>
    if x ∈ h.loggers.map Prod.snd then
      { o with level := none, additive := true, appenders := [] }
    else if x = h.root then
      { o with level := some Level.DEBUG, appenders := [] }
    else o)
  · intro x o
    split
    · rfl
    · split <;> rfl
  · intro x o
    split
    · rfl
    · split <;> rfl
  · exact resetConfiguration_keeps (fun s => s.root) (fun _ _ _ => rfl) nested h
  · exact resetConfiguration_keeps (fun s => s.loggers) (fun _ _ _ => rfl) nested h
  · exact resetConfiguration_keeps (fun s => s.provisionNodes) (fun _ _ _ => rfl) nested h
  · exact fun x => resetConfiguration_get nested h x

/-! ## `shutdown` twice -/

theorem modifyLogger_id (h : Hierarchy) (l : LoggerPtr) (f : Logger → Logger)
    (hf : ∀ o, h.heap[l]? = some o → f o = o) : modifyLogger h l f = h := by
  unfold modifyLogger
  cases hl : h.heap[l]? with
  | none => rfl
  | some o =>
    have hset : h.heap.set l (f o) = h.heap := by
      rw [hf o hl]
      rcases List.getElem?_eq_some.1 hl with ⟨hlt, hget⟩
      apply List.ext_getElem?
      intro i
      rw [List.getElem?_set]
      by_cases hi : l = i
      · subst hi; simp [hlt, hl]
      · simp [hi]
    simp only [hset]

theorem closeNestedAppenders_id (nested : Nat → Bool) (h : Hierarchy) (l : LoggerPtr)
    (hq : ∀ o, h.heap[l]? = some o → o.appenders = []) :
    closeNestedAppenders nested h l = h := by
  unfold closeNestedAppenders
  cases hl : h.heap[l]? with
  | none => rfl
  | some o =>
    simp only [hq o hl, List.filter_nil, List.foldl_nil]

theorem foldl_id {β : Type} (step : Hierarchy → β → Hierarchy) (h : Hierarchy) :
    ∀ (ls : List β), (∀ x ∈ ls, step h x = h) → ls.foldl step h = h := by
  intro ls
  induction ls with
  | nil => intro _; rfl
  | cons a rest ih =>
    intro hid
    rw [List.foldl_cons, hid a (List.mem_cons_self _ _)]
    exact ih (fun x hx => hid x (List.mem_cons_of_mem _ hx))

/-- On a state in which neither the root nor a registered logger has an
appender, `shutdown` changes nothing. -/
theorem shutdown_of_quiet (nested : Nat → Bool) (h : Hierarchy)
    (hq : ∀ x, (x = h.root ∨ x ∈ h.loggers.map Prod.snd) →
      ∀ o, h.heap[x]? = some o → o.appenders = []) :
    shutdown nested h = h := by
  have h1 : closeNestedAppenders nested h h.root = h :=
    closeNestedAppenders_id nested h h.root (hq h.root (Or.inl rfl))
  have h3 : (h.loggers.map Prod.snd).foldl (closeNestedAppenders nested) h = h :=
    foldl_id _ h _ (fun x hx => closeNestedAppenders_id nested h x (hq x (Or.inr hx)))
  have hrm : ∀ x, (x = h.root ∨ x ∈ h.loggers.map Prod.snd) →
      removeAllAppenders h x = h := by
    intro x hx
    apply modifyLogger_id
    intro o ho
    have := hq x hx o ho
    cases o
    simp_all
  have h4 : removeAllAppenders h h.root = h := hrm h.root (Or.inl rfl)
  have h5 : (h.loggers.map Prod.snd).foldl removeAllAppenders h = h :=
    foldl_id _ h _ (fun x hx => hrm x (Or.inr hx))
  unfold shutdown
  simp only [getCurrentLoggers_snd, getCurrentLoggers_fst, getRootLogger, h1, h3, h4, h5]

/-- After `shutdown` neither the root nor a registered logger has an appender. -/
theorem quiet_shutdown (nested : Nat → Bool) (h : Hierarchy) :
    ∀ x, (x = (shutdown nested h).root ∨ x ∈ (shutdown nested h).loggers.map Prod.snd) →
      ∀ o, (shutdown nested h).heap[x]? = some o → o.appenders = [] := by
  intro x hx o ho
  rw [shutdown_keeps (fun s => s.root) (fun _ _ _ => rfl),
    shutdown_keeps (fun s => s.loggers) (fun _ _ _ => rfl)] at hx
  rw [shutdown_get] at ho
  cases hh : h.heap[x]? with
  | none => rw [hh] at ho; simp at ho
  | some o0 =>
    rw [hh] at ho
    simp only [Option.map_some', hx, if_true, Option.some.injEq] at ho
    rw [← ho]

/-! ## Listeners and the threshold by name -/

theorem fireLoop_eq_map (added : Bool) (logger : LoggerPtr) (appender : Nat) :
    ∀ ls : List Nat, fireLoop added logger appender ls =
      ls.map (fun listener =>
        { listener := listener, added := added, logger := logger, appender := appender }) := by
  intro ls
  induction ls with
  | nil => rfl
  | cons a rest ih => simp [fireLoop, ih]

theorem addHierarchyEventListener_listeners (h : Hierarchy) (listener : Nat) :
    (addHierarchyEventListener h listener).listeners =
      if listener ∈ h.listeners then h.listeners else h.listeners ++ [listener] := by
  unfold addHierarchyEventListener
  by_cases hm : listener ∈ h.listeners <;> simp [hm, warn]

theorem addHierarchyEventListener_keeps {α : Type} (π : Hierarchy → α)
    (hπ : ∀ (s : Hierarchy) (ls : List Nat) (w : List Str),
      π { s with listeners := ls, warnings := w } = π s)
    (h : Hierarchy) (listener : Nat) :
    π (addHierarchyEventListener h listener) = π h := by
  unfold addHierarchyEventListener
  by_cases hm : listener ∈ h.listeners
  · simp only [hm, if_true]; exact hπ h h.listeners _
  · simp only [hm, if_false]; exact hπ h _ h.warnings

theorem mem_firstRegistrations (x : Nat) :
    ∀ ls : List Nat, x ∈ firstRegistrations ls ↔ x ∈ ls := by
  intro ls
  induction ls with
  | nil => simp [firstRegistrations]
  | cons a rest ih =>
    simp only [firstRegistrations, List.mem_cons, List.mem_filter, ih, ne_eq,
      decide_eq_true_eq]
    by_cases hxa : x = a <;> simp [hxa]

theorem nodup_firstRegistrations : ∀ ls : List Nat, (firstRegistrations ls).Nodup := by
  intro ls
  induction ls with
  | nil => simp [firstRegistrations]
  | cons a rest ih =>
    simp only [firstRegistrations, List.nodup_cons, List.mem_filter, ne_eq,
      decide_eq_true_eq, not_and, not_not]
    exact ⟨fun _ => trivial, ih.filter _⟩

/-- The listeners of `firstRegistrations ls` stand in the order of their first
occurrence in `ls`. -/
theorem pairwise_firstRegistrations :
    ∀ ls : List Nat,
      (firstRegistrations ls).Pairwise (fun x y => ls.indexOf x < ls.indexOf y) := by
  intro ls
  induction ls with
  | nil => simp [firstRegistrations]
  | cons a rest ih =>
    simp only [firstRegistrations, List.pairwise_cons, List.mem_filter, ne_eq,
      decide_eq_true_eq]
    refine ⟨fun y hy => ?_, ?_⟩
    · rw [List.indexOf_cons_self, List.indexOf_cons_ne _ (fun e => hy.2 e.symm)]
      exact Nat.succ_pos _
    · apply List.Pairwise.imp_of_mem _ (ih.filter _)
      intro x y hx hy hlt
      have hxa0 : ¬ x = a := by simpa using (List.mem_filter.1 hx).2
      have hya0 : ¬ y = a := by simpa using (List.mem_filter.1 hy).2
      have hxa : a ≠ x := fun e => hxa0 e.symm
      have hya : a ≠ y := fun e => hya0 e.symm
      rw [List.indexOf_cons_ne _ hxa, List.indexOf_cons_ne _ hya]
      exact Nat.succ_lt_succ hlt

/-- The listener list after a sequence of `addHierarchyEventListener` calls:
the list before, followed by the new distinct listeners in the order of their
first registration. -/
theorem addListeners_listeners :
    ∀ (ls : List Nat) (h : Hierarchy),
      (addListeners h ls).listeners =
        h.listeners ++ (firstRegistrations ls).filter (fun y => decide (y ∉ h.listeners)) := by
  intro ls
  induction ls with
  | nil => intro h; simp [addListeners, firstRegistrations]
  | cons a rest ih =>
    intro h
    have hstep : addListeners h (a :: rest) =
        addListeners (addHierarchyEventListener h a) rest := rfl
    rw [hstep, ih, addHierarchyEventListener_listeners]
    by_cases hm : a ∈ h.listeners
    · simp only [hm, if_true, firstRegistrations, List.filter_cons, not_true_eq_false,
        decide_False, Bool.false_eq_true, if_false, List.filter_filter]
      congr 1
      apply List.filter_congr
      intro y _
      by_cases hy : y ∈ h.listeners
      · simp [hy]
      · have : y ≠ a := fun e => hy (e ▸ hm)
        simp [hy, this]
    · simp only [hm, if_false, firstRegistrations, List.filter_cons, not_false_eq_true,
        decide_True, if_true, List.filter_filter, List.append_assoc, List.singleton_append]
      congr 2
      apply List.filter_congr
      intro y _
      by_cases hy : y ∈ h.listeners
      · simp [hy]
      · by_cases hya : y = a <;> simp [hy, hya]

theorem setThresholdStr_cases (table : List (Str × Level)) (h : Hierarchy) (levelStr : Str) :
    setThresholdStr table h levelStr =
        setThreshold h (Level.toLevel table levelStr Level.OFF) ∨
    setThresholdStr table h levelStr =
        warn h ("Could not convert [".toList ++ levelStr ++ "] to Level.".toList) := by
  unfold setThresholdStr
  by_cases hid : (Level.toLevel table levelStr Level.OFF).id = Level.OFF.id
  · right; simp only [hid, ne_eq, not_true_eq_false, if_false]
  · left; simp only [hid, ne_eq, not_false_eq_true, if_true]

theorem setThresholdStr_found (table : List (Str × Level)) (h : Hierarchy) (levelStr : Str)
    (v : Level) (hfind : Map.find table levelStr = some v) (hv : v.id ≠ Level.OFF.id) :
    setThresholdStr table h levelStr = setThreshold h v := by
  unfold setThresholdStr Level.toLevel
  simp only [hfind, hv, ne_eq, not_false_eq_true, if_true]

theorem setThresholdStr_sentinel (table : List (Str × Level)) (h : Hierarchy) (levelStr : Str)
    (hfind : Level.toLevel table levelStr Level.OFF = Level.OFF) :
    setThresholdStr table h levelStr =
      warn h ("Could not convert [".toList ++ levelStr ++ "] to Level.".toList) := by
  unfold setThresholdStr
  simp only [hfind, ne_eq, not_true_eq_false, if_false]

/-! ## Well-formedness is kept by every operation -/

theorem mem_dottedPrefixesBelow {name p : Str} :
    ∀ {n : Nat}, p ∈ dottedPrefixesBelow name n → DottedAncestor p name := by
  intro n
  induction n with
  | zero => intro hp; simp [dottedPrefixesBelow] at hp
  | succ n ih =>
    intro hp
    unfold dottedPrefixesBelow at hp
    by_cases hc : name[n]? = some '.'
    · simp only [hc, if_true, List.mem_cons] at hp
      rcases hp with rfl | hp
      · exact dottedAncestor_take hc
      · exact ih hp
    · simp only [hc, if_false] at hp
      exact ih hp

/-- The nearest ancestor is the root or a registered logger whose name is a
proper dotted prefix. -/
theorem nearestAncestor_cases (h : Hierarchy) (name : Str) :
    nearestAncestor h name = h.root ∨
    ∃ kp, registered h kp = some (nearestAncestor h name) ∧ DottedAncestor kp name := by
  unfold nearestAncestor
  cases hfs : (dottedPrefixes name).findSome? (fun p => registered h p) with
  | none => exact Or.inl rfl
  | some q =>
    obtain ⟨kp, hmem, hkp⟩ := List.exists_of_findSome?_eq_some hfs
    exact Or.inr ⟨kp, hkp, mem_dottedPrefixesBelow hmem⟩

theorem WF_new (root : Logger) : WF (Hierarchy.new root) := by
  have hl : (Hierarchy.new root).loggers = [] := by
    unfold Hierarchy.new; rw [(frame_setHierarchy _ _).loggers]; rfl
  have hp : (Hierarchy.new root).provisionNodes = [] := by
    unfold Hierarchy.new; rw [setHierarchy_provisionNodes]; rfl
  have hlen : (Hierarchy.new root).heap.length = 1 := by
    unfold Hierarchy.new; rw [(frame_setHierarchy _ _).length]; rfl
  have hr : (Hierarchy.new root).root = 0 := by
    unfold Hierarchy.new; rw [(frame_setHierarchy _ _).root]; rfl
  refine ⟨by rw [hlen, hr]; exact Nat.one_pos, ?_, ?_, ?_, ?_⟩
  · intro k l hk; unfold registered at hk; rw [hl] at hk; simp [Map.find] at hk
  · intro k node l hk; rw [hp] at hk; simp [Map.find] at hk
  · intro k node hk; rw [hp] at hk; simp [Map.find] at hk
  · intro k l hk; unfold registered at hk; rw [hl] at hk; simp [Map.find] at hk

theorem WF_clear {h : Hierarchy} (w : WF h) : WF (Hierarchy.clear h) := by
  refine ⟨w.root_lt, ?_, fun k node l hk hl => w.pn k node l hk hl, ?_, ?_⟩
  · intro k l hk; simp [registered, Hierarchy.clear, unlock, lock, Map.find] at hk
  · intro k node _; rfl
  · intro k l hk; simp [registered, Hierarchy.clear, unlock, lock, Map.find] at hk

theorem WF_exists {h : Hierarchy} (name : Str) (w : WF h) : WF (Hierarchy.exists h name).2 :=
  ⟨w.root_lt, w.reg, w.pn, w.pnKey, w.par⟩

theorem WF_getCurrentLoggers {h : Hierarchy} (w : WF h) : WF (Hierarchy.getCurrentLoggers h).2 :=
  ⟨w.root_lt, w.reg, w.pn, w.pnKey, w.par⟩

theorem WF_setThreshold {h : Hierarchy} (l : Level) (w : WF h) : WF (Hierarchy.setThreshold h l) :=
  ⟨w.root_lt, w.reg, w.pn, w.pnKey, w.par⟩

theorem registered_created {h h1 : Hierarchy} {name : Str} {l : LoggerPtr}
    (c : Created h name l h1) (k : Str) :
    registered h1 k =
      match registered h k with
      | some x => some x
      | none => if name = k then some l else none := by
  unfold registered
  rw [c.loggers, Map.find_insert]
  cases Map.find h.loggers k <;> rfl

theorem WF_created {h h1 : Hierarchy} {name : Str} {l : LoggerPtr}
    (w : WF h) (c : Created h name l h1) : WF h1 := by
  have hreg1 : ∀ k x, registered h1 k = some x → nameAt h1 x = some k := by
    intro k x hk
    rw [registered_created c] at hk
    cases hk0 : registered h k with
    | some y =>
      simp only [hk0, Option.some.injEq] at hk
      subst hk
      have := w.reg k y hk0
      rw [c.nameOld y (nameAt_lt this)]; exact this
    | none =>
      simp only [hk0] at hk
      by_cases hn : name = k
      · subst hn
        simp only [if_true, Option.some.injEq] at hk
        subst hk; exact c.nameNew
      · simp [hn] at hk
  have hkeep : ∀ k x, registered h k = some x → registered h1 k = some x := by
    intro k x hk
    rw [registered_created c, hk]
  have hlen : h.heap.length < h1.heap.length := by rw [c.length]; exact Nat.lt_succ_self _
  have hna_lt : nearestAncestor h1 name < h1.heap.length := by
    rcases nearestAncestor_cases h1 name with h2 | ⟨kp, h2, _⟩
    · rw [h2, c.rest.root]; exact Nat.lt_trans w.root_lt hlen
    · exact nameAt_lt (hreg1 kp _ h2)
  refine ⟨?_, hreg1, ?_, ?_, ?_⟩
  · rw [c.rest.root]; exact Nat.lt_trans w.root_lt hlen
  · intro k node x hk hx
    obtain ⟨_, hold | ⟨hv, _, hd⟩⟩ := c.pnOld k node hk
    · obtain ⟨⟨nm, hnm, hdot⟩, p, hp, hplt⟩ := w.pn k node x hold hx
      have hxlt : x < h.heap.length := nameAt_lt hnm
      refine ⟨⟨nm, by rw [c.nameOld x hxlt]; exact hnm, hdot⟩, ?_⟩
      rcases c.parentOld x hxlt with h2 | ⟨_, _, _, h2⟩
      · exact ⟨p, by rw [h2]; exact hp, Nat.lt_trans hplt hlen⟩
      · exact ⟨l, h2, by rw [c.ptr]; exact hlen⟩
    · subst hv
      simp only [List.mem_singleton] at hx
      subst hx
      exact ⟨⟨name, c.nameNew, hd⟩, _, c.parentNew, hna_lt⟩
  · intro k node hk
    obtain ⟨hkne, hold | ⟨_, hnone, _⟩⟩ := c.pnOld k node hk
    · have hne : ¬ name = k := fun e => hkne e.symm
      rw [registered_created c, w.pnKey k node hold]
      simp [hne]
    · have : registered h k = none := hnone
      have hne : ¬ name = k := fun e => hkne e.symm
      rw [registered_created c, this]
      simp [hne]
  · intro k x hk
    have hk1 := hk
    rw [registered_created c] at hk
    cases hk0 : registered h k with
    | some y =>
      simp only [hk0, Option.some.injEq] at hk
      subst hk
      have hny := w.reg k y hk0
      have hylt : y < h.heap.length := nameAt_lt hny
      rcases c.parentOld y hylt with h2 | ⟨node, hnode, hmem, h2⟩
      · rcases w.par k y hk0 with h3 | ⟨kp, p, h3, h4, h5⟩
        · left; rw [h2, h3, c.rest.root]
        · right; exact ⟨kp, p, by rw [h2]; exact h3, hkeep kp p h4, h5⟩
      · right
        obtain ⟨⟨nm, hnm, hdot⟩, _⟩ := w.pn name node y hnode hmem
        rw [hny] at hnm
        simp only [Option.some.injEq] at hnm
        subst hnm
        have hnone : registered h name = none := w.pnKey name node hnode
        refine ⟨name, l, h2, ?_, hdot⟩
        rw [registered_created c, hnone]; simp
    | none =>
      simp only [hk0] at hk
      by_cases hn : name = k
      · subst hn
        simp only [if_true, Option.some.injEq] at hk
        subst hk
        rcases nearestAncestor_cases h1 name with h2 | ⟨kp, h2, h3⟩
        · left; rw [c.parentNew, h2]
        · right; exact ⟨kp, _, c.parentNew, h2, h3⟩
      · simp [hn] at hk

theorem WF_getLogger {h h1 : Hierarchy} {name : Str} {l : LoggerPtr}
    (w : WF h) (hrun : Hierarchy.getLogger h name = .ok (l, h1)) : WF h1 := by
  unfold Hierarchy.getLogger at hrun
  cases hreg : registered h name with
  | some x =>
    rw [getLoggerFuel_registered _ h name x hreg] at hrun
    simp only [Except.ok.injEq, Prod.mk.injEq] at hrun
    rw [← hrun.2]; exact w
  | none => exact WF_created w (getLoggerFuel_created _ h h1 name l hreg hrun)

/-- A call that keeps the tree keeps the state well-formed. -/
theorem WF_of_sameTree {h h1 : Hierarchy} (w : WF h) (t : SameTree h h1) : WF h1 := by
  have hreg : ∀ k, registered h1 k = registered h k := by
    intro k; unfold registered; rw [t.loggers]
  refine ⟨by rw [t.root, t.length]; exact w.root_lt, ?_, ?_, ?_, ?_⟩
  · intro k l hk
    rw [hreg] at hk
    rw [t.name]; exact w.reg k l hk
  · intro k node l hk hl
    rw [t.provisionNodes] at hk
    rw [t.name, t.parent, t.length]
    exact w.pn k node l hk hl
  · intro k node hk
    rw [t.provisionNodes] at hk
    rw [hreg]; exact w.pnKey k node hk
  · intro k l hk
    rw [hreg] at hk
    rw [t.parent, t.root]
    rcases w.par k l hk with h2 | ⟨kp, p, h2, h3, h4⟩
    · exact Or.inl h2
    · exact Or.inr ⟨kp, p, h2, by rw [hreg]; exact h3, h4⟩

theorem sameTree_setThresholdStr (table : List (Str × Level)) (h : Hierarchy)
    (levelStr : Str) : SameTree h (Hierarchy.setThresholdStr table h levelStr) := by
  rcases setThresholdStr_cases table h levelStr with h1 | h1 <;> rw [h1] <;>
    exact sameTree_of_heap rfl rfl rfl rfl

theorem sameTree_addHierarchyEventListener (h : Hierarchy) (listener : Nat) :
    SameTree h (Hierarchy.addHierarchyEventListener h listener) := by
  unfold Hierarchy.addHierarchyEventListener
  split <;> exact sameTree_of_heap rfl rfl rfl rfl

theorem Reachable.wf {h : Hierarchy} (r : Reachable h) : WF h := by
  induction r with
  | new root => exact WF_new root
  | getLogger _ hrun ih => exact WF_getLogger ih hrun
  | clear _ ih => exact WF_clear ih
  | existsCall name _ ih => exact WF_exists name ih
  | getCurrentLoggers _ ih => exact WF_getCurrentLoggers ih
  | setThreshold l _ ih => exact WF_setThreshold l ih
  | setThresholdStr table levelStr _ ih =>
    exact WF_of_sameTree ih (sameTree_setThresholdStr table _ levelStr)
  | addHierarchyEventListener listener _ ih =>
    exact WF_of_sameTree ih (sameTree_addHierarchyEventListener _ listener)
  | shutdown nested _ ih => exact WF_of_sameTree ih (sameTree_shutdown nested _)
  | resetConfiguration nested _ ih =>
    exact WF_of_sameTree ih (sameTree_resetConfiguration nested _)
  | setLevel l level _ ih =>
    exact WF_of_sameTree ih (sameTree_modifyLogger _ l _ (fun _ => rfl) (fun _ => rfl))
  | setAdditivity l additive _ ih =>
    exact WF_of_sameTree ih (sameTree_modifyLogger _ l _ (fun _ => rfl) (fun _ => rfl))
  | addAppender l appender _ ih =>
    exact WF_of_sameTree ih (sameTree_modifyLogger _ l _ (fun _ => rfl) (fun _ => rfl))

/-- In a well-formed state `getLogger` returns for every name that does not
start with a dot. -/
theorem getLogger_total {h : Hierarchy} (w : WF h) (name : Str) (h0 : name[0]? ≠ some '.') :
    ∃ l h1, Hierarchy.getLogger h name = .ok (l, h1) := by
  unfold Hierarchy.getLogger
  cases hreg : registered h name with
  | some x => exact ⟨x, h, getLoggerFuel_registered _ h name x hreg⟩
  | none =>
    obtain ⟨_, _, hlen, _, hpn, hold, hnn, _⟩ := registerNew_snd (lock h) name
    have hlkheap : (lock h).heap = h.heap := rfl
    rw [hlkheap] at hlen hold hnn
    obtain ⟨h2, hac⟩ := adoptChildren_total (registerNew (lock h) name).2 name h.heap.length
      (by rw [hlen]; exact Nat.lt_succ_self _)
      (by
        intro node hnode l hl
        rw [hpn] at hnode
        obtain ⟨⟨nm, hnm, _⟩, p, hp, hplt⟩ := w.pn name node l hnode hl
        have hllt : l < h.heap.length := nameAt_lt hnm
        exact ⟨p, by rw [(hold l hllt).2]; exact hp, by rw [hlen]; exact Nat.lt_succ_of_lt hplt⟩)
    obtain ⟨hf2, _, _⟩ := adoptChildren_ok _ _ _ _ hac
    obtain ⟨h3, hup⟩ := updateParents_total (name.length + 1) h2 h.heap.length name
      (by rw [hf2.name]; exact hnn) h0 (Nat.lt_succ_self _)
    refine ⟨h.heap.length, unlock h3, ?_⟩
    unfold registered at hreg
    unfold getLoggerFuel
    have hlk : (lock h).loggers = h.loggers := rfl
    simp only [hlk, hreg, registerNew_fst, hlkheap, hac, hup]

/-! ## The provision nodes a creating call leaves behind -/

theorem length_take_of_dot {name : Str} {j : Nat} (hj : name[j]? = some '.') :
    (name.take j).length = j := by
  rcases List.getElem?_eq_some.1 hj with ⟨hlt, _⟩
  rw [List.length_take]; omega

theorem take_ne_take_of_dot {name : Str} {i j : Nat} (hi : name[i]? = some '.')
    (hj : name[j]? = some '.') (hne : i ≠ j) : name.take i ≠ name.take j := by
  intro h
  have := congrArg List.length h
  rw [length_take_of_dot hi, length_take_of_dot hj] at this
  exact hne this

/-- What a run of the loop of `updateParents` that ends has recorded: it
keeps every provision node it finds, and under each unregistered dotted
prefix it has visited that had no provision node there is now a node holding
exactly the logger. -/
theorem updateParentsLoop_records (name : Str) (logger : LoggerPtr)
    (reg : List (Str × LoggerPtr)) :
    ∀ (n fuel : Nat) (h h1 : Hierarchy) (found : Bool), n ≤ name.length →
      h.loggers = reg →
      (∀ j, n ≤ j → name[j]? = some '.' → Map.find reg (name.take j) = none) →
      Map.find h.provisionNodes name = none →
      updateParentsLoop name logger fuel h (findLastBelow name '.' n) = .ok (h1, found) →
      (∀ k v, Map.find h.provisionNodes k = some v → Map.find h1.provisionNodes k = some v) ∧
      (∀ j, j < n → name[j]? = some '.' →
        (∀ i, j ≤ i → i < n → name[i]? = some '.' → Map.find reg (name.take i) = none) →
        Map.find h.provisionNodes (name.take j) = none →
        Map.find h1.provisionNodes (name.take j) = some [logger]) := by
  intro n
  induction n with
  | zero =>
    intro fuel h h1 found _ _ _ _ hrun
    cases fuel with
    | zero => simp [findLastBelow, updateParentsLoop] at hrun
    | succ f =>
      simp only [findLastBelow, updateParentsLoop, Except.ok.injEq, Prod.mk.injEq] at hrun
      obtain ⟨rfl, rfl⟩ := hrun
      exact ⟨fun k v hk => hk, fun j hj => absurd hj (Nat.not_lt_zero _)⟩
  | succ n ih =>
    intro fuel h h1 found hn hreg hno hpn hrun
    by_cases hc : name[n]? = some '.'
    · have hfl : findLastBelow name '.' (n + 1) = some n := by
        simp [findLastBelow, hc]
      rw [hfl] at hrun
      cases fuel with
      | zero => simp [updateParentsLoop] at hrun
      | succ f =>
        cases hfind : Map.find reg (name.take n) with
        | some p =>
          unfold updateParentsLoop at hrun
          simp only [hreg, hfind, Except.ok.injEq, Prod.mk.injEq] at hrun
          obtain ⟨rfl, rfl⟩ := hrun
          refine ⟨fun k v hk => by rw [setParent_provisionNodes]; exact hk,
            fun j hj _ hall _ => ?_⟩
          have := hall n (Nat.le_of_lt_succ hj) (Nat.lt_succ_self _) hc
          rw [hfind] at this; simp at this
        | none =>
          have hnext := find_last_of_pred name n (by omega)
          unfold updateParentsLoop at hrun
          simp only [hreg, hfind, hnext] at hrun
          have hall : ∀ j, n ≤ j → name[j]? = some '.' → Map.find reg (name.take j) = none := by
            intro j hj hjd
            rcases Nat.eq_or_lt_of_le hj with he | hlt
            · subst he; exact hfind
            · exact hno j hlt hjd
          have hlog : (addProvision h name (name.take n) logger).loggers = reg := by
            rw [(frame_addProvision _ _ _ _).loggers]; exact hreg
          by_cases hz : n = 0
          · subst hz
            simp only [if_true] at hrun
            obtain ⟨j, hj⟩ := findLastBelow_exists hc name.length (by omega)
            rw [hj] at hrun
            rw [updateParentsLoop_noReturn name logger hc f _ j
              (fun k hk => by rw [hlog]; exact hall k (Nat.zero_le _) hk)
              (findLastBelow_some hj).2] at hrun
            simp at hrun
          · simp only [hz, if_false] at hrun
            have hap : (addProvision h name (name.take n) logger).provisionNodes =
                Map.insert h.provisionNodes (name.take n) [logger] := by
              unfold addProvision; simp only [hpn]
            have hpn1 : Map.find (addProvision h name (name.take n) logger).provisionNodes name
                = none := by
              rw [hap, Map.find_insert_of_ne _ _ _ _ (take_ne_self (by omega)), hpn]
            obtain ⟨hkeep, hrec⟩ := ih f _ h1 found (by omega) hlog hall hpn1 hrun
            have hkeep0 : ∀ k v, Map.find h.provisionNodes k = some v →
                Map.find (addProvision h name (name.take n) logger).provisionNodes k = some v := by
              intro k v hk
              rw [hap, Map.find_insert, hk]
            refine ⟨fun k v hk => hkeep k v (hkeep0 k v hk), fun j hj hjd hjall hjnone => ?_⟩
            rcases Nat.eq_or_lt_of_le (Nat.le_of_lt_succ hj) with he | hlt
            · subst he
              apply hkeep
              rw [hap, Map.find_insert_self _ _ _ hjnone]
            · apply hrec j hlt hjd (fun i h1 h2 hid => hjall i h1 (Nat.lt_succ_of_lt h2) hid)
              rw [hap, Map.find_insert_of_ne _ _ _ _ (take_ne_take_of_dot hc hjd (by omega))]
              exact hjnone
    · have hfl : findLastBelow name '.' (n + 1) = findLastBelow name '.' n := by
        simp [findLastBelow, hc]
      rw [hfl] at hrun
      have hall : ∀ j, n ≤ j → name[j]? = some '.' → Map.find reg (name.take j) = none := by
        intro j hj hjd
        rcases Nat.eq_or_lt_of_le hj with he | hlt
        · subst he; exact absurd hjd hc
        · exact hno j hlt hjd
      obtain ⟨hkeep, hrec⟩ := ih fuel h h1 found (by omega) hreg hall hpn hrun
      refine ⟨hkeep, fun j hj hjd hjall hjnone => ?_⟩
      rcases Nat.eq_or_lt_of_le (Nat.le_of_lt_succ hj) with he | hlt
      · subst he; exact absurd hjd hc
      · exact hrec j hlt hjd (fun i h1 h2 hid => hjall i h1 (Nat.lt_succ_of_lt h2) hid) hjnone

/-- The two steps of a creating `getLogger` call. -/
theorem getLoggerFuel_steps (fuel : Nat) (h h1 : Hierarchy) (name : Str) (l : LoggerPtr)
    (hreg : registered h name = none)
    (hrun : getLoggerFuel fuel h name = .ok (l, h1)) :
    l = h.heap.length ∧
    ∃ h2 h3, adoptChildren (registerNew (lock h) name).2 name h.heap.length = .ok h2 ∧
      updateParents fuel h2 h.heap.length = .ok h3 ∧ h1 = unlock h3 := by
  unfold registered at hreg
  unfold getLoggerFuel at hrun
  have hlk : (lock h).loggers = h.loggers := rfl
  have hlkheap : (lock h).heap = h.heap := rfl
  simp only [hlk, hreg] at hrun
  rw [registerNew_fst, hlkheap] at hrun
  cases hac : adoptChildren (registerNew (lock h) name).2 name h.heap.length with
  | error e => simp [hac] at hrun
  | ok h2 =>
    simp only [hac] at hrun
    cases hup : updateParents fuel h2 h.heap.length with
    | error e => simp [hup] at hrun
    | ok h3 =>
      simp only [hup, Except.ok.injEq, Prod.mk.injEq] at hrun
      exact ⟨hrun.1.symm, h2, h3, rfl, hup, hrun.2.symm⟩

/-- The loop run inside a run of `updateParents` that returns. -/
theorem updateParents_loop (fuel : Nat) (h h1 : Hierarchy) (logger : LoggerPtr) (name : Str)
    (hname : nameAt h logger = some name)
    (hrun : updateParents fuel h logger = .ok h1) :
    ∃ h2 found,
      updateParentsLoop name logger fuel h (findLastBelow name '.' name.length)
        = .ok (h2, found) ∧
      h1.provisionNodes = h2.provisionNodes := by
  have hlt : logger < h.heap.length := nameAt_lt hname
  obtain ⟨lg, hd, hget⟩ := deref_of_lt h logger hlt
  have hlgn : lg.name = name := by
    unfold nameAt at hname
    simp only [hget, Option.some.injEq] at hname
    exact hname
  have hstart : find_last_of name '.' (sizeType ((name.length : Int) - 1)) =
      findLastBelow name '.' name.length := by
    rw [find_last_of_pred name name.length (Nat.le_refl _)]
    by_cases hz : name.length = 0 <;> simp [hz]
  unfold updateParents at hrun
  simp only [hd, hlgn, hstart] at hrun
  cases hloop : updateParentsLoop name logger fuel h (findLastBelow name '.' name.length) with
  | error e => simp [hloop] at hrun
  | ok r =>
    obtain ⟨h2, found⟩ := r
    simp only [hloop] at hrun
    refine ⟨h2, found, rfl, ?_⟩
    cases found with
    | true =>
      simp only [Bool.not_true, Bool.false_eq_true, if_false, Except.ok.injEq] at hrun
      rw [← hrun]
    | false =>
      simp only [Bool.not_false, if_true, Except.ok.injEq] at hrun
      rw [← hrun, setParent_provisionNodes]

/-- The provision nodes after a creating `getLogger(name)`: the nodes of other
keys are kept, and under each proper dotted prefix `k` of `name` such that
neither `k` nor a longer proper dotted prefix is registered, and that had no
node, there is now a node holding exactly the new logger. -/
theorem getLoggerFuel_records (fuel : Nat) (h h1 : Hierarchy) (name : Str) (l : LoggerPtr)
    (hreg : registered h name = none)
    (hrun : getLoggerFuel fuel h name = .ok (l, h1)) :
    (∀ k v, k ≠ name → Map.find h.provisionNodes k = some v →
      Map.find h1.provisionNodes k = some v) ∧
    (∀ k, DottedAncestor k name → Map.find h.provisionNodes k = none →
      (∀ q, DottedAncestor q name → k.length ≤ q.length → registered h q = none) →
      Map.find h1.provisionNodes k = some [l]) := by
  obtain ⟨hl, h2, h3, hac, hup, rfl⟩ := getLoggerFuel_steps fuel h h1 name l hreg hrun
  subst hl
  obtain ⟨_, _, _, hlog, hpn, _, hnn, _⟩ := registerNew_snd (lock h) name
  have hlkheap : (lock h).heap = h.heap := rfl
  have hlk : (lock h).loggers = h.loggers := rfl
  have hlkpn : (lock h).provisionNodes = h.provisionNodes := rfl
  rw [hlkheap] at hnn hlog
  rw [hlk] at hlog
  rw [hlkpn] at hpn
  obtain ⟨hf2, hpn2, _⟩ := adoptChildren_ok _ _ _ _ hac
  have hname2 : nameAt h2 h.heap.length = some name := by rw [hf2.name]; exact hnn
  have hpnn : Map.find h2.provisionNodes name = none := by rw [hpn2]; simp
  obtain ⟨h4, found, hloop, hpneq⟩ := updateParents_loop fuel h2 h3 _ name hname2 hup
  obtain ⟨hkeep, hrec⟩ := updateParentsLoop_records name h.heap.length h2.loggers name.length
    fuel h2 h4 found (Nat.le_refl _) rfl
    (fun j hj hjd => by
      rcases List.getElem?_eq_some.1 hjd with ⟨hlt2, _⟩
      omega)
    hpnn hloop
  have hpn2' : ∀ k, k ≠ name → Map.find h2.provisionNodes k = Map.find h.provisionNodes k := by
    intro k hk
    rw [hpn2, hpn]; simp [hk]
  refine ⟨fun k v hk hkv => ?_, fun k hkd hknone hall => ?_⟩
  · show Map.find h3.provisionNodes k = some v
    rw [hpneq]
    apply hkeep
    rw [hpn2' k hk]; exact hkv
  · show Map.find h3.provisionNodes k = some [h.heap.length]
    rw [hpneq]
    obtain ⟨hkdot, hktake⟩ := dottedAncestor_take_length hkd
    have hkne : k ≠ name := by
      intro e
      have := dottedAncestor_length hkd
      rw [e] at this; exact Nat.lt_irrefl _ this
    rw [← hktake]
    apply hrec k.length (dottedAncestor_length hkd) hkdot
    · intro i hi1 hi2 hid
      have hq : DottedAncestor (name.take i) name := dottedAncestor_take hid
      have hne : ¬ name = name.take i := fun e => take_ne_self hi2 e.symm
      have hnone : Map.find h.loggers (name.take i) = none :=
        hall _ hq (by rw [length_take_of_dot hid]; exact hi1)
      rw [hf2.loggers, hlog, Map.find_insert, hnone]
      simp [hne]
    · rw [hktake, hpn2' k hkne]; exact hknone

theorem deref_of_parentAt {h : Hierarchy} {x p : LoggerPtr} (hx : parentAt h x = some p) :
    ∃ o, deref h x = .ok o ∧ o.parent = some p := by
  unfold parentAt at hx
  cases hl : h.heap[x]? with
  | none => simp [hl] at hx
  | some o =>
    simp only [hl] at hx
    exact ⟨o, (deref_ok_iff h x o).2 hl, hx⟩

theorem deref_of_nameAt {h : Hierarchy} {x : LoggerPtr} {n : Str} (hx : nameAt h x = some n) :
    ∃ o, deref h x = .ok o ∧ o.name = n := by
  unfold nameAt at hx
  cases hl : h.heap[x]? with
  | none => simp [hl] at hx
  | some o =>
    simp only [hl, Option.some.injEq] at hx
    exact ⟨o, (deref_ok_iff h x o).2 hl, hx⟩

/-- Re-parenting by a creating `getLogger(name)`: when the provision node of
`name` holds exactly the logger `x` and the name of the parent of `x` does not
start with `name`, then `x` is under the new logger after the call. -/
theorem getLoggerFuel_reparents (fuel : Nat) (h h1 : Hierarchy) (name : Str) (l : LoggerPtr)
    (hreg : registered h name = none)
    (hrun : getLoggerFuel fuel h name = .ok (l, h1))
    (x p : LoggerPtr) (pname : Str)
    (hnode : Map.find h.provisionNodes name = some [x])
    (hx : parentAt h x = some p) (hp : nameAt h p = some pname)
    (hsw : startsWith pname name = false) :
    parentAt h1 x = some l := by
  obtain ⟨hl, h2, h3, hac, hup, rfl⟩ := getLoggerFuel_steps fuel h h1 name l hreg hrun
  subst hl
  obtain ⟨_, _, hlen, _, hpn, hold, hnn, _⟩ := registerNew_snd (lock h) name
  have hlkheap : (lock h).heap = h.heap := rfl
  have hlkpn : (lock h).provisionNodes = h.provisionNodes := rfl
  rw [hlkheap] at hnn hlen hold
  rw [hlkpn] at hpn
  have hxlt : x < h.heap.length := by
    obtain ⟨o, ho, _⟩ := deref_of_parentAt hx
    rcases List.getElem?_eq_some.1 ((deref_ok_iff _ _ _).1 ho) with ⟨hlt, _⟩; exact hlt
  have hplt : p < h.heap.length := nameAt_lt hp
  have hxg : parentAt (registerNew (lock h) name).2 x = some p := by
    rw [(hold x hxlt).2]; exact hx
  have hpg : nameAt (registerNew (lock h) name).2 p = some pname := by
    rw [(hold p hplt).1]; exact hp
  obtain ⟨lo, hlo, hlop⟩ := deref_of_parentAt hxg
  obtain ⟨po, hpo, hpon⟩ := deref_of_nameAt hpg
  obtain ⟨lg, hlg, hlgn⟩ := deref_of_nameAt hnn
  have hsw2 : startsWith po.name lg.name = false := by rw [hpon, hlgn]; exact hsw
  unfold adoptChildren at hac
  rw [hpn, hnode] at hac
  simp only [updateChildren, hlo, hlop, hpo, hlg, hsw2, Bool.not_false, if_true,
    Except.ok.injEq] at hac
  obtain ⟨hf2, hpn2, _⟩ : Frame (registerNew (lock h) name).2 h2 ∧
      (∀ k, Map.find h2.provisionNodes k =
        if k = name then none else Map.find (registerNew (lock h) name).2.provisionNodes k) ∧
      True := by
    have := adoptChildren_ok (registerNew (lock h) name).2 h2 name h.heap.length (by
      unfold adoptChildren
      rw [hpn, hnode]
      simp only [updateChildren, hlo, hlop, hpo, hlg, hsw2, Bool.not_false, if_true]
      rw [hac])
    exact ⟨this.1, this.2.1, trivial⟩
  have hx2 : parentAt h2 x = some h.heap.length := by
    rw [← hac]
    show parentAt (setParent (setParent _ _ _) x (some h.heap.length)) x = _
    rw [parentAt_setParent, (frame_setParent _ _ _).length, hlen]
    simp [Nat.lt_succ_of_lt hxlt]
  have hname2 : nameAt h2 h.heap.length = some name := by rw [hf2.name]; exact hnn
  have hpnn : Map.find h2.provisionNodes name = none := by rw [hpn2]; simp
  obtain ⟨_, hpar3, _, _, _⟩ := updateParents_ok fuel h2 h3 h.heap.length name hname2 hpnn hup
  show parentAt h3 x = _
  rw [hpar3 x (Nat.ne_of_lt hxlt), hx2]

/-- In a well-formed state `getLogger` never returns for an unregistered name
that starts with a dot and has no registered dotted prefix, whatever the fuel. -/
theorem getLoggerFuel_noReturn {h : Hierarchy} (w : WF h) (name : Str)
    (h0 : name[0]? = some '.') (hreg : registered h name = none)
    (hno : ∀ j, name[j]? = some '.' → registered h (name.take j) = none) (fuel : Nat) :
    getLoggerFuel fuel h name = .error .noReturn := by
  obtain ⟨_, _, hlen, hlog, hpn, hold, hnn, _⟩ := registerNew_snd (lock h) name
  have hlkheap : (lock h).heap = h.heap := rfl
  have hlk : (lock h).loggers = h.loggers := rfl
  rw [hlkheap] at hlen hold hnn hlog
  rw [hlk] at hlog
  obtain ⟨h2, hac⟩ := adoptChildren_total (registerNew (lock h) name).2 name h.heap.length
    (by rw [hlen]; exact Nat.lt_succ_self _)
    (by
      intro node hnode l hl
      rw [hpn] at hnode
      obtain ⟨⟨nm, hnm, _⟩, p, hp, hplt⟩ := w.pn name node l hnode hl
      have hllt : l < h.heap.length := nameAt_lt hnm
      exact ⟨p, by rw [(hold l hllt).2]; exact hp, by rw [hlen]; exact Nat.lt_succ_of_lt hplt⟩)
  obtain ⟨hf2, _, _⟩ := adoptChildren_ok _ _ _ _ hac
  have hname2 : nameAt h2 h.heap.length = some name := by rw [hf2.name]; exact hnn
  have hlt2 : h.heap.length < h2.heap.length := nameAt_lt hname2
  obtain ⟨lg, hd, hget⟩ := deref_of_lt h2 h.heap.length hlt2
  have hlgn : lg.name = name := by
    unfold nameAt at hname2
    simp only [hget, Option.some.injEq] at hname2
    exact hname2
  have hstart : find_last_of name '.' (sizeType ((name.length : Int) - 1)) =
      findLastBelow name '.' name.length := by
    rw [find_last_of_pred name name.length (Nat.le_refl _)]
    by_cases hz : name.length = 0 <;> simp [hz]
  have hpos : 0 < name.length := by
    rcases List.getElem?_eq_some.1 h0 with ⟨hlt, _⟩; exact hlt
  obtain ⟨j, hj⟩ := findLastBelow_exists h0 name.length hpos
  have hloop : updateParentsLoop name h.heap.length fuel h2 (some j) = .error .noReturn := by
    apply updateParentsLoop_noReturn name _ h0 fuel h2 j _ (findLastBelow_some hj).2
    intro i hi
    have hilt : i < name.length := by
      rcases List.getElem?_eq_some.1 hi with ⟨hlt, _⟩; exact hlt
    have hne : ¬ name = name.take i := fun e => take_ne_self hilt e.symm
    have hni : Map.find h.loggers (name.take i) = none := hno i hi
    rw [hf2.loggers, hlog, Map.find_insert, hni]
    simp [hne]
  unfold registered at hreg
  unfold getLoggerFuel
  simp only [hlk, hreg, registerNew_fst, hlkheap, hac]
  unfold updateParents
  simp only [hd, hlgn, hstart, hj, hloop]

/-- With more fuel than it takes for itself `getLogger` has the same outcome. -/
theorem getLoggerFuel_fuel_enough (h : Hierarchy) (name : Str) (fuel : Nat)
    (hfuel : name.length + 1 ≤ fuel) :
    getLoggerFuel fuel h name = Hierarchy.getLogger h name := by
  unfold Hierarchy.getLogger getLoggerFuel
  cases hfind : Map.find (lock h).loggers name with
  | some l => simp only [hfind]
  | none =>
    simp only [hfind]
    cases hac : adoptChildren (registerNew (lock h) name).2 name (registerNew (lock h) name).1 with
    | error e => rfl
    | ok h2 =>
      have hup : updateParents fuel h2 (registerNew (lock h) name).1 =
          updateParents (name.length + 1) h2 (registerNew (lock h) name).1 := by
        unfold updateParents
        cases hd : deref h2 (registerNew (lock h) name).1 with
        | error e => rfl
        | ok lg =>
          obtain ⟨hf2, _, _⟩ := adoptChildren_ok _ _ _ _ hac
          obtain ⟨_, _, _, _, _, _, hnn, _⟩ := registerNew_snd (lock h) name
          have hname2 : nameAt h2 (registerNew (lock h) name).1 = some name := by
            rw [hf2.name]; exact hnn
          have hlgn : lg.name = name := by
            unfold nameAt at hname2
            rw [(deref_ok_iff _ _ _).1 hd] at hname2
            simpa using hname2
          have hstart : find_last_of name '.' (sizeType ((name.length : Int) - 1)) =
              findLastBelow name '.' name.length := by
            rw [find_last_of_pred name name.length (Nat.le_refl _)]
            by_cases hz : name.length = 0 <;> simp [hz]
          simp only [hlgn, hstart]
          rw [updateParentsLoop_fuel_enough name _ h2 fuel hfuel]
      simp only [hup]

theorem mem_keys_iff {β : Type} (m : List (Str × β)) (k : Str) :
    k ∈ m.map Prod.fst ↔ ∃ v, Map.find m k = some v := by
  induction m with
  | nil =>
    constructor
    · intro hm; simp at hm
    · rintro ⟨v, hv⟩; simp [Map.find] at hv
  | cons e m ih =>
    obtain ⟨k1, v1⟩ := e
    by_cases hk : k1 = k
    · subst hk
      constructor
      · intro _; exact ⟨v1, by simp [Map.find]⟩
      · intro _; exact List.mem_cons_self _ _
    · have hk2 : ¬ k = k1 := fun e => hk e.symm
      simp only [List.map_cons, List.mem_cons, hk2, false_or, Map.find, hk, if_false]
      exact ih

theorem reachable_getLoggers {h : Hierarchy} (r : Reachable h) :
    ∀ (names : List Str) (h1 : Hierarchy), getLoggers h names = .ok h1 → Reachable h1 := by
  intro names
  induction names generalizing h with
  | nil =>
    intro h1 hrun
    simp only [getLoggers, Except.ok.injEq] at hrun
    rw [← hrun]; exact r
  | cons name rest ih =>
    intro h1 hrun
    unfold getLoggers at hrun
    cases hg : Hierarchy.getLogger h name with
    | error e => simp [hg] at hrun
    | ok p =>
      obtain ⟨l, h2⟩ := p
      simp only [hg] at hrun
      exact ih (Reachable.getLogger r hg) h1 hrun

theorem reachable_exampleHierarchy (names : List String) :
    Reachable (exampleHierarchy names) := by
  unfold exampleHierarchy
  cases hg : getLoggers (Hierarchy.new (rootLogger "root".toList)) (names.map String.toList) with
  | error e => exact Reachable.new _
  | ok h => exact reachable_getLoggers (Reachable.new _) _ h hg

theorem reachable_exampleCleared (before after : List String) :
    Reachable (exampleCleared before after) := by
  unfold exampleCleared
  cases hg : getLoggers (Hierarchy.clear (exampleHierarchy before))
      (after.map String.toList) with
  | error e => exact Reachable.clear (reachable_exampleHierarchy _)
  | ok h => exact reachable_getLoggers (Reachable.clear (reachable_exampleHierarchy _)) _ h hg

/-- The cached `thresholdInt` is the integer value of the threshold in every
state the hierarchy goes through. -/
theorem thresholdInt_eq {h : Hierarchy} (r : Reachable h) :
    h.thresholdInt = h.threshold.level := by
  induction r with
  | new root =>
    unfold Hierarchy.new
    rw [(frame_setHierarchy _ _).thresholdInt, (frame_setHierarchy _ _).threshold]
    rfl
  | @getLogger h h1 name l _ hrun ih =>
    unfold Hierarchy.getLogger at hrun
    cases hreg : registered h name with
    | some x =>
      rw [getLoggerFuel_registered _ h name x hreg] at hrun
      simp only [Except.ok.injEq, Prod.mk.injEq] at hrun
      rw [← hrun.2]; exact ih
    | none =>
      have c := getLoggerFuel_created _ h h1 name l hreg hrun
      rw [c.rest.thresholdInt, c.rest.threshold]; exact ih
  | clear _ ih => exact ih
  | existsCall name _ ih => exact ih
  | getCurrentLoggers _ ih => exact ih
  | setThreshold l _ ih => rfl
  | setThresholdStr table levelStr _ ih =>
    rcases setThresholdStr_cases table _ levelStr with h1 | h1 <;> rw [h1]
    · rfl
    · exact ih
  | addHierarchyEventListener listener _ ih =>
    rw [addHierarchyEventListener_keeps (fun s => s.thresholdInt) (fun _ _ _ => rfl),
      addHierarchyEventListener_keeps (fun s => s.threshold) (fun _ _ _ => rfl)]
    exact ih
  | shutdown nested _ ih =>
    rw [shutdown_keeps (fun s => s.thresholdInt) (fun _ _ _ => rfl),
      shutdown_keeps (fun s => s.threshold) (fun _ _ _ => rfl)]
    exact ih
  | resetConfiguration nested _ ih =>
    rw [resetConfiguration_keeps (fun s => s.thresholdInt) (fun _ _ _ => rfl),
      resetConfiguration_keeps (fun s => s.threshold) (fun _ _ _ => rfl)]
    rfl
  | setLevel l level _ ih =>
    rw [show (Hierarchy.setLevel _ l level).thresholdInt = _ from
        modifyLogger_keeps (fun s => s.thresholdInt) (fun _ _ => rfl) _ _ _,
      show (Hierarchy.setLevel _ l level).threshold = _ from
        modifyLogger_keeps (fun s => s.threshold) (fun _ _ => rfl) _ _ _]
    exact ih
  | setAdditivity l additive _ ih =>
    rw [show (Hierarchy.setAdditivity _ l additive).thresholdInt = _ from
        modifyLogger_keeps (fun s => s.thresholdInt) (fun _ _ => rfl) _ _ _,
      show (Hierarchy.setAdditivity _ l additive).threshold = _ from
        modifyLogger_keeps (fun s => s.threshold) (fun _ _ => rfl) _ _ _]
    exact ih
  | addAppender l appender _ ih =>
    rw [show (Hierarchy.addAppender _ l appender).thresholdInt = _ from
        modifyLogger_keeps (fun s => s.thresholdInt) (fun _ _ => rfl) _ _ _,
      show (Hierarchy.addAppender _ l appender).threshold = _ from
        modifyLogger_keeps (fun s => s.threshold) (fun _ _ => rfl) _ _ _]
    exact ih

/-- No listener is twice in the listener list, in every state the hierarchy
goes through. -/
theorem listeners_nodup {h : Hierarchy} (r : Reachable h) : h.listeners.Nodup := by
  induction r with
  | new root =>
    unfold Hierarchy.new
    rw [(frame_setHierarchy _ _).listeners]
    exact List.nodup_nil
  | @getLogger h h1 name l _ hrun ih =>
    unfold Hierarchy.getLogger at hrun
    cases hreg : registered h name with
    | some x =>
      rw [getLoggerFuel_registered _ h name x hreg] at hrun
      simp only [Except.ok.injEq, Prod.mk.injEq] at hrun
      rw [← hrun.2]; exact ih
    | none =>
      have c := getLoggerFuel_created _ h h1 name l hreg hrun
      rw [c.rest.listeners]; exact ih
  | clear _ ih => exact ih
  | existsCall name _ ih => exact ih
  | getCurrentLoggers _ ih => exact ih
  | setThreshold l _ ih => exact ih
  | setThresholdStr table levelStr _ ih =>
    rcases setThresholdStr_cases table _ levelStr with h1 | h1 <;> rw [h1] <;> exact ih
  | addHierarchyEventListener listener _ ih =>
    rw [addHierarchyEventListener_listeners]
    split
    · exact ih
    · rename_i hm
      exact List.nodup_append.2 ⟨ih, List.nodup_singleton _,
        fun x hx hx2 => hm (by rw [List.mem_singleton.1 hx2] at hx; exact hx)⟩
  | shutdown nested _ ih =>
    rw [shutdown_keeps (fun s => s.listeners) (fun _ _ _ => rfl)]; exact ih
  | resetConfiguration nested _ ih =>
    rw [resetConfiguration_keeps (fun s => s.listeners) (fun _ _ _ => rfl)]; exact ih
  | setLevel l level _ ih =>
    rw [show (Hierarchy.setLevel _ l level).listeners = _ from
      modifyLogger_keeps (fun s => s.listeners) (fun _ _ => rfl) _ _ _]
    exact ih
  | setAdditivity l additive _ ih =>
    rw [show (Hierarchy.setAdditivity _ l additive).listeners = _ from
      modifyLogger_keeps (fun s => s.listeners) (fun _ _ => rfl) _ _ _]
    exact ih
  | addAppender l appender _ ih =>
    rw [show (Hierarchy.addAppender _ l appender).listeners = _ from
      modifyLogger_keeps (fun s => s.listeners) (fun _ _ => rfl) _ _ _]
    exact ih

/-- The parent chain of a registered logger reaches the root within as many
hops as its name has characters. -/
theorem reachesRoot_of_wf {h : Hierarchy} (w : WF h) :
    ∀ (n : Nat) (k : Str) (l : LoggerPtr), k.length < n → registered h k = some l →
      reachesRoot h n l = true := by
  have hroot : ∀ m, reachesRoot h m h.root = true := by
    intro m; cases m <;> simp [reachesRoot]
  intro n
  induction n with
  | zero => intro k l hk _; exact absurd hk (Nat.not_lt_zero _)
  | succ n ih =>
    intro k l hk hreg
    unfold reachesRoot
    by_cases hl : l = h.root
    · simp [hl]
    · simp only [hl, if_false]
      rcases w.par k l hreg with h2 | ⟨kp, p, h2, h3, ⟨rest, h4⟩⟩
      · rw [h2]; exact hroot n
      · rw [h2]
        apply ih kp p _ h3
        have : k.length = kp.length + (rest.length + 1) := by
          rw [h4]; simp
        omega

theorem registered_after_getLogger {h h1 : Hierarchy} {name : Str} {l : LoggerPtr}
    (hrun : Hierarchy.getLogger h name = .ok (l, h1)) : registered h1 name = some l := by
  unfold Hierarchy.getLogger at hrun
  cases hreg : registered h name with
  | some x =>
    rw [getLoggerFuel_registered _ h name x hreg] at hrun
    simp only [Except.ok.injEq, Prod.mk.injEq] at hrun
    rw [← hrun.1, ← hrun.2]; exact hreg
  | none =>
    have c := getLoggerFuel_created _ h h1 name l hreg hrun
    rw [registered_created c, hreg]; simp

/-- The first registered entry of `dottedPrefixesBelow name n` belongs to the
greatest dot position below `n` whose prefix is registered. -/
theorem findSome_dottedPrefixesBelow (name : Str) (f : Str → Option LoggerPtr) :
    ∀ n, n ≤ name.length →
      (∀ p, (dottedPrefixesBelow name n).findSome? f = some p →
        ∃ j, j < n ∧ name[j]? = some '.' ∧ f (name.take j) = some p ∧
          ∀ i, j < i → i < n → name[i]? = some '.' → f (name.take i) = none) ∧
      ((dottedPrefixesBelow name n).findSome? f = none →
        ∀ j, j < n → name[j]? = some '.' → f (name.take j) = none) := by
  intro n
  induction n with
  | zero =>
    intro _
    exact ⟨fun p hp => by simp [dottedPrefixesBelow] at hp,
      fun _ j hj => absurd hj (Nat.not_lt_zero _)⟩
  | succ n ih =>
    intro hn
    obtain ⟨ih1, ih2⟩ := ih (Nat.le_of_succ_le hn)
    by_cases hc : name[n]? = some '.'
    · have hdp : dottedPrefixesBelow name (n + 1) = name.take n :: dottedPrefixesBelow name n := by
        simp [dottedPrefixesBelow, hc]
      rw [hdp]
      cases hf : f (name.take n) with
      | some q =>
        simp only [List.findSome?_cons, hf]
        refine ⟨fun p hp => ?_, fun hp => by simp at hp⟩
        simp only [Option.some.injEq] at hp
        subst hp
        exact ⟨n, Nat.lt_succ_self _, hc, hf, fun i h1 h2 => by omega⟩
      | none =>
        simp only [List.findSome?_cons, hf]
        refine ⟨fun p hp => ?_, fun hp j hj hjd => ?_⟩
        · obtain ⟨j, hj, hjd, hjf, hjmax⟩ := ih1 p hp
          refine ⟨j, Nat.lt_succ_of_lt hj, hjd, hjf, fun i h1 h2 hid => ?_⟩
          rcases Nat.eq_or_lt_of_le (Nat.le_of_lt_succ h2) with he | hlt
          · subst he; exact hf
          · exact hjmax i h1 hlt hid
        · rcases Nat.eq_or_lt_of_le (Nat.le_of_lt_succ hj) with he | hlt
          · subst he; exact hf
          · exact ih2 hp j hlt hjd
    · have hdp : dottedPrefixesBelow name (n + 1) = dottedPrefixesBelow name n := by
        simp [dottedPrefixesBelow, hc]
      rw [hdp]
      refine ⟨fun p hp => ?_, fun hp j hj hjd => ?_⟩
      · obtain ⟨j, hj, hjd, hjf, hjmax⟩ := ih1 p hp
        refine ⟨j, Nat.lt_succ_of_lt hj, hjd, hjf, fun i h1 h2 hid => ?_⟩
        rcases Nat.eq_or_lt_of_le (Nat.le_of_lt_succ h2) with he | hlt
        · subst he; exact absurd hid hc
        · exact hjmax i h1 hlt hid
      · rcases Nat.eq_or_lt_of_le (Nat.le_of_lt_succ hj) with he | hlt
        · subst he; exact absurd hjd hc
        · exact ih2 hp j hlt hjd

/-- The nearest ancestor in the words of the spec: it is the root and no
proper dotted prefix of `name` is registered, or it is registered under a
proper dotted prefix of `name` and no longer one is registered. -/
theorem nearestAncestor_spec (h : Hierarchy) (name : Str) :
    (nearestAncestor h name = h.root ∧
      ∀ q, DottedAncestor q name → registered h q = none) ∨
    (∃ kp, DottedAncestor kp name ∧ registered h kp = some (nearestAncestor h name) ∧
      ∀ q, DottedAncestor q name → kp.length < q.length → registered h q = none) := by
  obtain ⟨h1, h2⟩ := findSome_dottedPrefixesBelow name (fun p => registered h p) name.length
    (Nat.le_refl _)
  unfold nearestAncestor dottedPrefixes
  cases hfs : (dottedPrefixesBelow name name.length).findSome? (fun p => registered h p) with
  | none =>
    left
    refine ⟨rfl, fun q hq => ?_⟩
    obtain ⟨hqd, hqt⟩ := dottedAncestor_take_length hq
    have := h2 hfs q.length (dottedAncestor_length hq) hqd
    rw [hqt] at this; exact this
  | some p =>
    right
    obtain ⟨j, hj, hjd, hjf, hjmax⟩ := h1 p hfs
    have hlen : (name.take j).length = j := by
      rw [List.length_take]; omega
    refine ⟨name.take j, dottedAncestor_take hjd, hjf, fun q hq hlt => ?_⟩
    obtain ⟨hqd, hqt⟩ := dottedAncestor_take_length hq
    rw [hlen] at hlt
    have := hjmax q.length hlt (dottedAncestor_length hq) hqd
    rw [hqt] at this; exact this

/-! ## Creation in the order X, Z, Y -/

theorem startsWith_false_of_length {a b : Str} (h : a.length ≤ b.length) :
    startsWith a b = false := by
  unfold startsWith
  simp [Nat.not_lt.2 h]

theorem dottedAncestor_trans {a b c : Str} (h1 : DottedAncestor a b)
    (h2 : DottedAncestor b c) : DottedAncestor a c := by
  obtain ⟨r1, rfl⟩ := h1
  obtain ⟨r2, rfl⟩ := h2
  exact ⟨r1 ++ '.' :: r2, by simp⟩

theorem dottedAncestor_ne {a b : Str} (h : DottedAncestor a b) : a ≠ b := by
  intro e
  have := dottedAncestor_length h
  rw [e] at this
  exact Nat.lt_irrefl _ this

theorem no_leading_dot_of_dottedAncestor {a b : Str} (h : DottedAncestor a b)
    (h0 : b[0]? ≠ some '.') : a[0]? ≠ some '.' := by
  obtain ⟨rest, rfl⟩ := h
  cases a with
  | nil => simp at h0
  | cons c cs => simpa using h0

theorem new_facts (r : Logger) :
    (Hierarchy.new r).loggers = [] ∧ (Hierarchy.new r).provisionNodes = [] ∧
    (Hierarchy.new r).heap.length = 1 ∧ (Hierarchy.new r).root = 0 ∧
    nameAt (Hierarchy.new r) 0 = some r.name := by
  unfold Hierarchy.new
  refine ⟨?_, ?_, ?_, ?_, ?_⟩
  · rw [(frame_setHierarchy _ _).loggers]; rfl
  · rw [setHierarchy_provisionNodes]; rfl
  · rw [(frame_setHierarchy _ _).length]; rfl
  · rw [(frame_setHierarchy _ _).root]; rfl
  · rw [(frame_setHierarchy _ _).name]; rfl

/-- Creation in the order X, Z, Y on a fresh hierarchy, where Y is a proper
dotted prefix of X and Z one of Y: when X does not begin with a dot and the
name of the root does not start with Y, the three calls return, and afterwards
the parent of X (logger `1`) is Y (logger `3`) and the parent of Y is Z
(logger `2`). -/
theorem getLoggers_X_Z_Y (r : Logger) (X Y Z : Str)
    (hYX : DottedAncestor Y X) (hZY : DottedAncestor Z Y)
    (hX0 : X[0]? ≠ some '.') (hroot : startsWith r.name Y = false) :
    ∃ s, getLoggers (Hierarchy.new r) [X, Z, Y] = .ok s ∧
      registered s X = some 1 ∧ registered s Z = some 2 ∧ registered s Y = some 3 ∧
      parentAt s 1 = some 3 ∧ parentAt s 3 = some 2 := by
  have hZX : DottedAncestor Z X := dottedAncestor_trans hZY hYX
  have hY0 : Y[0]? ≠ some '.' := no_leading_dot_of_dottedAncestor hYX hX0
  have hZ0 : Z[0]? ≠ some '.' := no_leading_dot_of_dottedAncestor hZY hY0
  have hXZ : ¬ X = Z := fun e => dottedAncestor_ne hZX e.symm
  have hXY : ¬ X = Y := fun e => dottedAncestor_ne hYX e.symm
  have hZYne : ¬ Z = Y := dottedAncestor_ne hZY
  obtain ⟨hl0, hp0, hlen0, hroot0, hname0⟩ := new_facts r
  have hreg0 : ∀ k, registered (Hierarchy.new r) k = none := by
    intro k; unfold registered; rw [hl0]; rfl
  have hpn0 : ∀ k, Map.find (Hierarchy.new r).provisionNodes k = none := by
    intro k; rw [hp0]; rfl
  have w0 := WF_new r
  -- the call for X
  obtain ⟨l1, s1, run1⟩ := getLogger_total w0 X hX0
  have c1 := getLoggerFuel_created _ _ _ _ _ (hreg0 X) run1
  have rec1 := getLoggerFuel_records _ _ _ _ _ (hreg0 X) run1
  have hl1 : l1 = 1 := by rw [c1.ptr, hlen0]
  subst hl1
  have w1 := WF_getLogger w0 run1
  have hreg1 : ∀ k, registered s1 k = if X = k then some 1 else none := by
    intro k; rw [registered_created c1, hreg0 k]
  have hlen1 : s1.heap.length = 2 := by rw [c1.length, hlen0]
  have hpnZ1 : Map.find s1.provisionNodes Z = some [1] :=
    rec1.2 Z hZX (hpn0 Z) (fun q _ _ => hreg0 q)
  have hpnY1 : Map.find s1.provisionNodes Y = some [1] :=
    rec1.2 Y hYX (hpn0 Y) (fun q _ _ => hreg0 q)
  have hroot1 : s1.root = 0 := by rw [c1.rest.root, hroot0]
  have hpar1 : parentAt s1 1 = some 0 := by
    rw [c1.parentNew]
    rcases nearestAncestor_spec s1 X with ⟨h2, _⟩ | ⟨kp, hkp, h2, _⟩
    · rw [h2, hroot1]
    · rw [hreg1 kp] at h2
      by_cases e : X = kp
      · exact absurd e.symm (dottedAncestor_ne hkp)
      · simp [e] at h2
  have hname1_0 : nameAt s1 0 = some r.name := by
    rw [c1.nameOld 0 (by rw [hlen0]; exact Nat.one_pos)]; exact hname0
  -- the call for Z
  have hregZ1 : registered s1 Z = none := by rw [hreg1 Z]; simp [hXZ]
  obtain ⟨l2, s2, run2⟩ := getLogger_total w1 Z hZ0
  have c2 := getLoggerFuel_created _ _ _ _ _ hregZ1 run2
  have rec2 := getLoggerFuel_records _ _ _ _ _ hregZ1 run2
  have hl2 : l2 = 2 := by rw [c2.ptr, hlen1]
  subst hl2
  have w2 := WF_getLogger w1 run2
  have hreg2 : ∀ k, registered s2 k =
      if X = k then some 1 else if Z = k then some 2 else none := by
    intro k
    rw [registered_created c2, hreg1 k]
    by_cases e : X = k <;> simp [e]
  have hlen2 : s2.heap.length = 3 := by rw [c2.length, hlen1]
  have hpnY2 : Map.find s2.provisionNodes Y = some [1] :=
    rec2.1 Y [1] (fun e => hZYne e.symm) hpnY1
  have hname2_0 : nameAt s2 0 = some r.name := by
    rw [c2.nameOld 0 (by rw [hlen1]; omega)]; exact hname1_0
  have hname2_2 : nameAt s2 2 = some Z := c2.nameNew
  have hpar2 : parentAt s2 1 = some 0 ∨ parentAt s2 1 = some 2 := by
    rcases c2.parentOld 1 (by rw [hlen1]; omega) with h2 | ⟨_, _, _, h2⟩
    · left; rw [h2, hpar1]
    · right; exact h2
  -- the call for Y
  have hregY2 : registered s2 Y = none := by rw [hreg2 Y]; simp [hXY, hZYne]
  obtain ⟨l3, s3, run3⟩ := getLogger_total w2 Y hY0
  have c3 := getLoggerFuel_created _ _ _ _ _ hregY2 run3
  have hl3 : l3 = 3 := by rw [c3.ptr, hlen2]
  subst hl3
  have hreg3 : ∀ k, registered s3 k =
      if X = k then some 1 else if Z = k then some 2 else if Y = k then some 3 else none := by
    intro k
    rw [registered_created c3, hreg2 k]
    by_cases e : X = k
    · simp [e]
    · by_cases e2 : Z = k <;> simp [e, e2]
  have hparX : parentAt s3 1 = some 3 := by
    rcases hpar2 with h2 | h2
    · exact getLoggerFuel_reparents _ _ _ _ _ hregY2 run3 1 0 r.name hpnY2 h2 hname2_0 hroot
    · exact getLoggerFuel_reparents _ _ _ _ _ hregY2 run3 1 2 Z hpnY2 h2 hname2_2
        (startsWith_false_of_length (Nat.le_of_lt (dottedAncestor_length hZY)))
  have hparY : parentAt s3 3 = some 2 := by
    rw [c3.parentNew]
    rcases nearestAncestor_spec s3 Y with ⟨_, h2⟩ | ⟨kp, hkp, h2, _⟩
    · have := h2 Z hZY
      rw [hreg3 Z] at this
      simp [hXZ] at this
    · rw [hreg3 kp] at h2
      by_cases e : X = kp
      · subst e
        have h3 := dottedAncestor_length hkp
        have h4 := dottedAncestor_length hYX
        omega
      · by_cases e2 : Z = kp
        · simp only [e, e2, if_false, if_true, Option.some.injEq] at h2
          rw [← h2]
        · by_cases e3 : Y = kp
          · exact absurd e3.symm (dottedAncestor_ne hkp)
          · simp [e, e2, e3] at h2
  refine ⟨s3, ?_, ?_, ?_, ?_, hparX, hparY⟩
  · simp only [getLoggers, run1, run2, run3]
  · rw [hreg3 X]; simp
  · rw [hreg3 Z]; simp [hXZ]
  · rw [hreg3 Y]; simp [hXY, hZYne]

/-! ## The levels after `resetConfiguration` -/

theorem registered_mem_values {h : Hierarchy} {k : Str} {l : LoggerPtr}
    (hk : registered h k = some l) : l ∈ h.loggers.map Prod.snd := by
  unfold registered at hk
  generalize h.loggers = m at hk
  induction m with
  | nil => simp [Map.find] at hk
  | cons e m ih =>
    obtain ⟨k1, v⟩ := e
    unfold Map.find at hk
    by_cases hk1 : k1 = k
    · simp only [hk1, if_true, Option.some.injEq] at hk
      subst hk; simp
    · simp only [hk1, if_false] at hk
      exact List.mem_cons_of_mem _ (ih hk)

theorem root_not_listed_of_sameTree {h h1 : Hierarchy} (t : SameTree h h1)
    (hn : h.root ∉ h.loggers.map Prod.snd) : h1.root ∉ h1.loggers.map Prod.snd := by
  rw [t.root, t.loggers]; exact hn

/-- The root logger is not an entry of the registry, in every state the
hierarchy goes through: the registry holds only loggers that `getLogger`
created. -/
theorem root_not_listed {h : Hierarchy} (r : Reachable h) :
    h.root ∉ h.loggers.map Prod.snd := by
  induction r with
  | new root =>
    rw [(new_facts root).1]; simp
  | @getLogger h h1 name l r0 hrun ih =>
    unfold Hierarchy.getLogger at hrun
    cases hreg : registered h name with
    | some x =>
      rw [getLoggerFuel_registered _ h name x hreg] at hrun
      simp only [Except.ok.injEq, Prod.mk.injEq] at hrun
      rw [← hrun.2]; exact ih
    | none =>
      have c := getLoggerFuel_created _ h h1 name l hreg hrun
      have hins : h1.loggers = h.loggers ++ [(name, l)] := by
        rw [c.loggers]
        unfold Map.insert
        unfold registered at hreg
        rw [hreg]
      rw [hins, c.rest.root, List.map_append, List.mem_append]
      intro hmem
      rcases hmem with hmem | hmem
      · exact ih hmem
      · have hl : h.root = l := by simpa using hmem
        have hlt := r0.wf.root_lt
        rw [hl, c.ptr] at hlt
        exact Nat.lt_irrefl _ hlt
  | clear _ ih => rw [clear_eq]; simp
  | existsCall name _ ih => exact ih
  | getCurrentLoggers _ ih => exact ih
  | setThreshold l _ ih => exact ih
  | setThresholdStr table levelStr _ ih =>
    exact root_not_listed_of_sameTree (sameTree_setThresholdStr table _ levelStr) ih
  | addHierarchyEventListener listener _ ih =>
    exact root_not_listed_of_sameTree (sameTree_addHierarchyEventListener _ listener) ih
  | shutdown nested _ ih =>
    exact root_not_listed_of_sameTree (sameTree_shutdown nested _) ih
  | resetConfiguration nested _ ih =>
    exact root_not_listed_of_sameTree (sameTree_resetConfiguration nested _) ih
  | setLevel l level _ ih =>
    exact root_not_listed_of_sameTree
      (sameTree_modifyLogger _ l _ (fun _ => rfl) (fun _ => rfl)) ih
  | setAdditivity l additive _ ih =>
    exact root_not_listed_of_sameTree
      (sameTree_modifyLogger _ l _ (fun _ => rfl) (fun _ => rfl)) ih
  | addAppender l appender _ ih =>
    exact root_not_listed_of_sameTree
      (sameTree_modifyLogger _ l _ (fun _ => rfl) (fun _ => rfl)) ih

/-- When the root has the level `v` and no registered logger has a level of
its own, the walk of the parent links from a registered logger ends with `v`
within as many loggers as its name has characters, and two more. -/
theorem effectiveLevel_of_inheriting {h : Hierarchy} (w : WF h) (v : Level)
    (hroot : levelAt h h.root = some (some v))
    (hreg : ∀ k l, registered h k = some l → levelAt h l = some none) :
    ∀ (n : Nat) (k : Str) (l : LoggerPtr), k.length < n → registered h k = some l →
      effectiveLevel h (n + 1) l = some v := by
  have base : ∀ m, effectiveLevel h (m + 1) h.root = some v := by
    intro m; simp only [effectiveLevel, hroot]
  have step : ∀ m x p, levelAt h x = some none → parentAt h x = some p →
      effectiveLevel h (m + 1) x = effectiveLevel h m p := by
    intro m x p h1 h2; simp only [effectiveLevel, h1, h2]
  intro n
  induction n with
  | zero => intro k l hk _; exact absurd hk (Nat.not_lt_zero _)
  | succ n ih =>
    intro k l hk hl
    rcases w.par k l hl with h2 | ⟨kp, p, h2, h3, hd⟩
    · rw [step _ l _ (hreg k l hl) h2]; exact base n
    · rw [step _ l _ (hreg k l hl) h2]
      have hlen := dottedAncestor_length hd
      cases n with
      | zero => omega
      | succ m => exact ih kp p (by omega) h3

/-! ## The claims -/

/-- C1: of the six orders in which `getLogger` is called for `"a.b.c"`,
`"a.b"` and `"a"` on a fresh hierarchy, five end in the tree of the claim
(`"a.b.c"` under `"a.b"`, `"a.b"` under `"a"`, `"a"` under the root `0`), but
the order `"a.b.c"`, `"a.b"`, `"a"` ends with `"a.b"` (logger `2`) under the
root although `"a"` (logger `3`) is registered. -/
theorem C1_order_abc_ab_a_leaves_ab_under_root :
    treeAfter "root" ["a.b.c", "a.b", "a"] ["a.b.c", "a.b", "a"]
      = .ok [(some 1, some 2), (some 2, some 0), (some 3, some 0)] ∧
    treeAfter "root" ["a", "a.b", "a.b.c"] ["a.b.c", "a.b", "a"]
      = .ok [(some 3, some 2), (some 2, some 1), (some 1, some 0)] ∧
    treeAfter "root" ["a", "a.b.c", "a.b"] ["a.b.c", "a.b", "a"]
      = .ok [(some 2, some 3), (some 3, some 1), (some 1, some 0)] ∧
    treeAfter "root" ["a.b", "a", "a.b.c"] ["a.b.c", "a.b", "a"]
      = .ok [(some 3, some 1), (some 1, some 2), (some 2, some 0)] ∧
    treeAfter "root" ["a.b", "a.b.c", "a"] ["a.b.c", "a.b", "a"]
      = .ok [(some 2, some 1), (some 1, some 3), (some 3, some 0)] ∧
    treeAfter "root" ["a.b.c", "a", "a.b"] ["a.b.c", "a.b", "a"]
      = .ok [(some 1, some 3), (some 3, some 2), (some 2, some 0)] :=
  ⟨by decide, by decide, by decide, by decide, by decide, by decide⟩

/-- C2: after `getLogger` for the siblings `"a.b"` and `"a.c"` and then for
`"a"` on a fresh hierarchy, `"a.b"` (logger `1`) is under `"a"` (logger `3`)
but `"a.c"` (logger `2`) is still under the root `0`: its parent is not the
registered logger named by its longest proper dotted prefix. -/
theorem C2_second_sibling_stays_under_root :
    treeAfter "root" ["a.b", "a.c", "a"] ["a.b", "a.c", "a"]
      = .ok [(some 1, some 3), (some 2, some 0), (some 3, some 0)] := by
  decide

/-- C3: `getLogger` is idempotent.  When a call `getLogger(name)` returned
the logger `l` and left the state `h1`, a second call returns the same `l` and
leaves the state `h1`, every field of it; and when `name` was registered
before the first call, that call already returned the registered logger and
left the state as it was. -/
theorem C3_getLogger_idempotent (h h1 : Hierarchy) (name : Str) (l : LoggerPtr)
    (hrun : Hierarchy.getLogger h name = .ok (l, h1)) :
    Hierarchy.getLogger h1 name = .ok (l, h1) ∧
    (∀ l0, registered h name = some l0 → l = l0 ∧ h1 = h) := by
  unfold Hierarchy.getLogger at hrun ⊢
  cases hreg : registered h name with
  | some x =>
    rw [getLoggerFuel_registered _ h name x hreg] at hrun
    simp only [Except.ok.injEq, Prod.mk.injEq] at hrun
    obtain ⟨rfl, rfl⟩ := hrun
    exact ⟨getLoggerFuel_registered _ h name x hreg,
      fun l0 hl0 => ⟨Option.some.inj hl0, rfl⟩⟩
  | none =>
    have c := getLoggerFuel_created _ h h1 name l hreg hrun
    have hreg1 : registered h1 name = some l := by
      rw [registered_created c, hreg]; simp
    exact ⟨getLoggerFuel_registered _ h1 name l hreg1, fun l0 hl0 => by simp at hl0⟩

/-- C3, at the fresh hierarchy and the name `"a.b"`: the first call creates
logger `1`, the second returns logger `1` and the same state. -/
theorem C3_getLogger_idempotent_witness :
    Hierarchy.getLogger (Hierarchy.new (rootLogger "root".toList)) "a.b".toList
      = .ok (1, exampleHierarchy ["a.b"]) ∧
    Hierarchy.getLogger (exampleHierarchy ["a.b"]) "a.b".toList
      = .ok (1, exampleHierarchy ["a.b"]) :=
  ⟨by decide,
   (C3_getLogger_idempotent (Hierarchy.new (rootLogger "root".toList))
      (exampleHierarchy ["a.b"]) "a.b".toList 1 (by decide)).1⟩

/-- C4: when `getLogger(name)` creates the logger `l` (no logger was
registered under `name`), then right after the call `l` is registered under
`name` and its parent is the nearest ancestor: the logger registered under the
longest registered proper dotted prefix of `name`, or the root when no proper
dotted prefix is registered; this is so in every state, with or without a
provision node keyed by `name`.  And in every state the hierarchy goes
through the call returns when `name` does not begin with a dot. -/
theorem C4_new_logger_parent_is_nearest_ancestor (h : Hierarchy) (name : Str)
    (hnew : registered h name = none) :
    (∀ l h1, Hierarchy.getLogger h name = .ok (l, h1) →
      registered h1 name = some l ∧
      parentAt h1 l = some (nearestAncestor h1 name) ∧
      ((nearestAncestor h1 name = h1.root ∧
          ∀ q, DottedAncestor q name → registered h1 q = none) ∨
       (∃ kp, DottedAncestor kp name ∧ registered h1 kp = some (nearestAncestor h1 name) ∧
          ∀ q, DottedAncestor q name → kp.length < q.length → registered h1 q = none))) ∧
    (Reachable h → name.head? ≠ some '.' →
      ∃ l h1, Hierarchy.getLogger h name = .ok (l, h1)) := by
  refine ⟨fun l h1 hrun => ?_, fun hr h0 => ?_⟩
  · have c := getLoggerFuel_created _ h h1 name l hnew hrun
    exact ⟨registered_after_getLogger hrun, c.parentNew, nearestAncestor_spec h1 name⟩
  · exact getLogger_total hr.wf name (by rw [← List.head?_eq_getElem?]; exact h0)

/-- C4, in the state after `getLogger("a")` and `getLogger("a.b.c")`, where a
provision node is keyed by `"a.b"`: `getLogger("a.b")` creates logger `3`, whose
parent is then logger `1`, the logger `"a"`. -/
theorem C4_new_logger_parent_is_nearest_ancestor_witness :
    registered (exampleHierarchy ["a", "a.b.c"]) "a.b".toList = none ∧
    Map.find (exampleHierarchy ["a", "a.b.c"]).provisionNodes "a.b".toList = some [2] ∧
    parentAt (exampleHierarchy ["a", "a.b.c", "a.b"]) 3
      = some (nearestAncestor (exampleHierarchy ["a", "a.b.c", "a.b"]) "a.b".toList) ∧
    nearestAncestor (exampleHierarchy ["a", "a.b.c", "a.b"]) "a.b".toList = 1 ∧
    registered (exampleHierarchy ["a", "a.b.c", "a.b"]) "a".toList = some 1 :=
  ⟨by decide, by decide,
   ((C4_new_logger_parent_is_nearest_ancestor (exampleHierarchy ["a", "a.b.c"]) "a.b".toList
      (by decide)).1 3 (exampleHierarchy ["a", "a.b.c", "a.b"]) (by decide)).2.1,
   by decide, by decide⟩

/-- C5: with a root logger named `"a.b.c"`, after `getLogger` for X = `"a.b.x"`,
Z = `"a"` and Y = `"a.b"` in this order the parent of X (logger `1`) is the
root `0` and not Y (logger `3`), because `startsWith` is applied to the name of
the root; and with X = `".x.y"`, Z = `""`, Y = `".x"` the first call does not
return. -/
theorem C5_order_X_Z_Y_fails :
    treeAfter "a.b.c" ["a.b.x", "a", "a.b"] ["a.b.x", "a", "a.b"]
      = .ok [(some 1, some 0), (some 2, some 0), (some 3, some 2)] ∧
    startsWith "a.b.c".toList "a.b".toList = true ∧
    ∀ fuel, getLoggerFuel fuel (Hierarchy.new (rootLogger "root".toList)) ".x.y".toList
      = .error .noReturn :=
  ⟨by decide, by decide, fun fuel =>
    getLoggerFuel_noReturn (WF_new _) _ (by decide) (by decide) (fun _ _ => rfl) fuel⟩

/-- C6: in every state the hierarchy goes through (by `getLogger`, `clear`
and the other calls), the parent of a registered logger is the root or a
currently registered logger `p` whose name followed by a dot is a prefix of
the child's name, hence a strictly shorter name; and the parent chain of a
registered logger reaches the root within as many hops as its name has
characters, so there is no cycle on it. -/
theorem C6_parent_chain_reaches_root (h : Hierarchy) (hr : Reachable h) (name : Str)
    (l : LoggerPtr) (hreg : registered h name = some l) :
    (parentAt h l = some h.root ∨
      ∃ pname p, parentAt h l = some p ∧ registered h pname = some p ∧
        nameAt h p = some pname ∧
        DottedAncestor pname name ∧ pname.length < name.length) ∧
    reachesRoot h (name.length + 1) l = true := by
  refine ⟨?_, reachesRoot_of_wf hr.wf _ name l (Nat.lt_succ_self _) hreg⟩
  rcases hr.wf.par name l hreg with h2 | ⟨kp, p, h2, h3, h4⟩
  · exact Or.inl h2
  · exact Or.inr ⟨kp, p, h2, h3, hr.wf.reg kp p h3, h4, dottedAncestor_length h4⟩

/-- C6, in two states.  After `getLogger` for `"a.b.c"`, `"a"`, `"ab"` and
`"a.b"`, the logger `"ab"` (logger `3`) is under the root `0`, not under `"a"`,
and its chain reaches the root.  After `getLogger("a.b")`, `clear`,
`getLogger("a")` and `getLogger("a.b")`, the new logger `"a.b"` (logger `3`) is
under the new `"a"` (logger `2`) and its chain reaches the root. -/
theorem C6_parent_chain_reaches_root_witness :
    (Reachable (exampleHierarchy ["a.b.c", "a", "ab", "a.b"]) ∧
     Reachable (exampleCleared ["a.b"] ["a", "a.b"])) ∧
    (registered (exampleHierarchy ["a.b.c", "a", "ab", "a.b"]) "ab".toList = some 3 ∧
     parentAt (exampleHierarchy ["a.b.c", "a", "ab", "a.b"]) 3 = some 0 ∧
     reachesRoot (exampleHierarchy ["a.b.c", "a", "ab", "a.b"]) 3 3 = true) ∧
    (registered (exampleCleared ["a.b"] ["a", "a.b"]) "a.b".toList = some 3 ∧
     parentAt (exampleCleared ["a.b"] ["a", "a.b"]) 3 = some 2 ∧
     reachesRoot (exampleCleared ["a.b"] ["a", "a.b"]) 4 3 = true) :=
  ⟨⟨reachable_exampleHierarchy _, reachable_exampleCleared _ _⟩,
   ⟨by decide, by decide,
    (C6_parent_chain_reaches_root _ (reachable_exampleHierarchy _) "ab".toList 3
      (by decide)).2⟩,
   ⟨by decide, by decide,
    (C6_parent_chain_reaches_root _ (reachable_exampleCleared _ _) "a.b".toList 3
      (by decide)).2⟩⟩

/-- C7: in every state the hierarchy goes through no key of the provision
nodes is the name of a registered logger; so right after `getLogger(name)`
returns there is no provision node keyed by `name`, nor by any other
registered name. -/
theorem C7_no_provision_node_for_registered_name (h : Hierarchy) (hr : Reachable h) :
    (∀ k, k ∈ h.provisionNodes.map Prod.fst → registered h k = none) ∧
    (∀ name l h1, Hierarchy.getLogger h name = .ok (l, h1) →
      name ∉ h1.provisionNodes.map Prod.fst ∧
      ∀ k, registered h1 k ≠ none → k ∉ h1.provisionNodes.map Prod.fst) := by
  have key : ∀ h2 : Hierarchy, Reachable h2 →
      ∀ k, k ∈ h2.provisionNodes.map Prod.fst → registered h2 k = none := by
    intro h2 hr2 k hk
    obtain ⟨v, hv⟩ := (mem_keys_iff _ _).1 hk
    exact hr2.wf.pnKey k v hv
  refine ⟨key h hr, fun name l h1 hrun => ⟨fun hk => ?_, fun k hk hmem => ?_⟩⟩
  · have := key h1 (Reachable.getLogger hr hrun) name hk
    rw [registered_after_getLogger hrun] at this
    simp at this
  · exact hk (key h1 (Reachable.getLogger hr hrun) k hmem)

/-- C7, in the state after `getLogger("a.b.c")`, where provision nodes are
keyed by `"a.b"` and `"a"`: none of the two names is registered, and after
`getLogger("a.b")` no provision node is keyed by `"a.b"`. -/
theorem C7_no_provision_node_for_registered_name_witness :
    Reachable (exampleHierarchy ["a.b.c"]) ∧
    (exampleHierarchy ["a.b.c"]).provisionNodes.map Prod.fst = ["a.b".toList, "a".toList] ∧
    registered (exampleHierarchy ["a.b.c"]) "a.b".toList = none ∧
    "a.b".toList ∉ (exampleHierarchy ["a.b.c", "a.b"]).provisionNodes.map Prod.fst :=
  ⟨reachable_exampleHierarchy _, by decide,
   (C7_no_provision_node_for_registered_name _ (reachable_exampleHierarchy ["a.b.c"])).1
      "a.b".toList (by decide),
   ((C7_no_provision_node_for_registered_name _ (reachable_exampleHierarchy ["a.b.c"])).2
      "a.b".toList 2 (exampleHierarchy ["a.b.c", "a.b"]) (by decide)).1⟩

/-- C8: `getLogger(".a")` and `getLogger(".")` on a fresh hierarchy do not
return, whatever fuel the loop of `updateParents` is given: from the dot at
position `0` the loop moves to `find_last_of('.', 0 - 1)`, which is position
`0` again, so the positions it visits do not decrease. -/
theorem C8_getLogger_leading_dot_never_returns (fuel : Nat) :
    getLoggerFuel fuel (Hierarchy.new (rootLogger "root".toList)) ".a".toList
      = .error .noReturn ∧
    getLoggerFuel fuel (Hierarchy.new (rootLogger "root".toList)) ".".toList
      = .error .noReturn ∧
    find_last_of ".a".toList '.' (sizeType ((0 : Int) - 1)) = some 0 ∧
    find_last_of ".".toList '.' (sizeType ((0 : Int) - 1)) = some 0 := by
  refine ⟨?_, ?_, by decide, by decide⟩
  · exact getLoggerFuel_noReturn (WF_new _) _ (by decide) (by decide) (fun _ _ => rfl) fuel
  · exact getLoggerFuel_noReturn (WF_new _) _ (by decide) (by decide) (fun _ _ => rfl) fuel

/-- C9: `exists(name)` returns the logger registered under `name`, the one
`getLogger(name)` returns, and the absent value exactly when none is
registered; it leaves the registry, the provision nodes and the logger
objects with their parent links as they were. -/
theorem C9_exists_finds_and_creates_nothing (h : Hierarchy) (name : Str) :
    (Hierarchy.exists h name).1 = registered h name ∧
    ((Hierarchy.exists h name).1 = none ↔ registered h name = none) ∧
    (∀ l, (Hierarchy.exists h name).1 = some l →
      Hierarchy.getLogger h name = .ok (l, h)) ∧
    (Hierarchy.exists h name).2.loggers = h.loggers ∧
    (Hierarchy.exists h name).2.provisionNodes = h.provisionNodes ∧
    (Hierarchy.exists h name).2.heap = h.heap :=
  ⟨rfl, Iff.rfl, fun l hl => getLoggerFuel_registered _ h name l hl, rfl, rfl, rfl⟩

/-- C10: in every state the hierarchy goes through the cached `thresholdInt`
is the integer value of the level `getThreshold` returns, and `isDisabled(v)`
holds exactly when `v` is strictly below it; after `setThreshold(l)`, for
every level `l` and so for the maximum `OFF`, `isDisabled(v)` holds exactly
for the `v` strictly below `l`; and on a freshly constructed hierarchy no `v`
at or above `ALL` is disabled. -/
theorem C10_isDisabled_iff_below_threshold (h : Hierarchy) (hr : Reachable h) (v : Int) :
    h.thresholdInt = (getThreshold h).level ∧
    (isDisabled h v = true ↔ v < (getThreshold h).level) ∧
    (∀ l : Level, getThreshold (setThreshold h l) = l ∧
      (isDisabled (setThreshold h l) v = true ↔ v < l.level)) ∧
    (isDisabled (setThreshold h Level.OFF) v = true ↔ v < Level.OFF.level) ∧
    (∀ root : Logger, getThreshold (Hierarchy.new root) = Level.ALL ∧
      (Level.ALL.level ≤ v → isDisabled (Hierarchy.new root) v = false)) := by
  have hnew : ∀ root : Logger, (Hierarchy.new root).thresholdInt = Level.ALL.level ∧
      (Hierarchy.new root).threshold = Level.ALL := by
    intro root
    unfold Hierarchy.new
    rw [(frame_setHierarchy _ _).thresholdInt, (frame_setHierarchy _ _).threshold]
    exact ⟨rfl, rfl⟩
  refine ⟨thresholdInt_eq hr, ?_, fun l => ⟨rfl, ?_⟩, ?_, fun root => ⟨(hnew root).2, ?_⟩⟩
  · unfold isDisabled getThreshold
    rw [thresholdInt_eq hr]
    simp
  · simp [isDisabled, setThreshold]
  · simp [isDisabled, setThreshold]
  · intro hv
    unfold isDisabled
    rw [(hnew root).1]
    simp only [gt_iff_lt, decide_eq_false_iff_not, not_lt]
    exact hv

/-- C10, in the state after `getLogger("a.b")`, at the level `20000`: it is not
disabled there, and it is disabled once the threshold is `OFF`. -/
theorem C10_isDisabled_iff_below_threshold_witness :
    Reachable (exampleHierarchy ["a.b"]) ∧
    isDisabled (exampleHierarchy ["a.b"]) 20000 = false ∧
    isDisabled (setThreshold (exampleHierarchy ["a.b"]) Level.OFF) 20000 = true := by
  have hc := C10_isDisabled_iff_below_threshold (exampleHierarchy ["a.b"])
    (reachable_exampleHierarchy _) 20000
  refine ⟨reachable_exampleHierarchy _, ?_, hc.2.2.2.1.2 (by decide)⟩
  cases hb : isDisabled (exampleHierarchy ["a.b"]) 20000 with
  | false => rfl
  | true => exact absurd (hc.2.1.1 hb) (by decide)

/-- C11: on a fresh hierarchy, whose threshold is `ALL`, `setThreshold("OFF")`
does not set the threshold: the parser maps `"OFF"` to the level object `OFF`,
which is also the default that stands for "not found", so the call only warns
`Could not convert [OFF] to Level.`; afterwards `getThreshold()` is still `ALL`
and the level `0`, which is below `OFF`, is not disabled.  The name `"DEBUG"`
does set the threshold. -/
theorem C11_setThreshold_OFF_by_name_only_warns :
    Level.toLevel levelNames "OFF".toList Level.ALL = Level.OFF ∧
    getThreshold (setThresholdStr levelNames (Hierarchy.new (rootLogger "root".toList))
      "OFF".toList) = Level.ALL ∧
    (setThresholdStr levelNames (Hierarchy.new (rootLogger "root".toList))
      "OFF".toList).warnings = ["Could not convert [OFF] to Level.".toList] ∧
    isDisabled (setThresholdStr levelNames (Hierarchy.new (rootLogger "root".toList))
      "OFF".toList) 0 = false ∧
    (0 : Int) < Level.OFF.level ∧
    getThreshold (setThresholdStr levelNames (Hierarchy.new (rootLogger "root".toList))
      "DEBUG".toList) = Level.DEBUG :=
  ⟨by decide, by decide, by decide, by decide, by decide, by decide⟩

/-- C12: for a level name the parser cannot convert, so that it returns
whatever default it is given, `setThreshold(name)` returns the state it was
called in with one more warning, `Could not convert [name] to Level.`: the
threshold, the cached integer threshold, `isDisabled` and every other field are
unchanged. -/
theorem C12_unparseable_level_name_only_warns (table : List (Str × Level)) (h : Hierarchy)
    (levelStr : Str) (hdefault : ∀ d : Level, Level.toLevel table levelStr d = d) :
    setThresholdStr table h levelStr =
      { h with warnings :=
          h.warnings ++ ["Could not convert [".toList ++ levelStr ++ "] to Level.".toList] } ∧
    getThreshold (setThresholdStr table h levelStr) = getThreshold h ∧
    (setThresholdStr table h levelStr).thresholdInt = h.thresholdInt ∧
    ∀ v, isDisabled (setThresholdStr table h levelStr) v = isDisabled h v := by
  have heq := setThresholdStr_sentinel table h levelStr (hdefault Level.OFF)
  rw [heq]
  exact ⟨rfl, rfl, rfl, fun _ => rfl⟩

/-- C12, for the name `"VERBOSE"`, which the table of the examples does not
have, in the state after `getLogger("a.b")`. -/
theorem C12_unparseable_level_name_only_warns_witness :
    (∀ d : Level, Level.toLevel levelNames "VERBOSE".toList d = d) ∧
    setThresholdStr levelNames (exampleHierarchy ["a.b"]) "VERBOSE".toList =
      { exampleHierarchy ["a.b"] with
        warnings := ["Could not convert [VERBOSE] to Level.".toList] } :=
  ⟨fun _ => rfl,
   (C12_unparseable_level_name_only_warns levelNames (exampleHierarchy ["a.b"])
      "VERBOSE".toList (fun _ => rfl)).1⟩

/-- C13: after `resetConfiguration`, in every state the hierarchy goes
through: the level of the root is `DEBUG`, the threshold is `ALL`, neither the
root nor a registered logger has an appender, and every registered logger has
no level of its own and additivity `true`, so that the walk of its parent links
finds its effective level, the `DEBUG` of the root. -/
theorem C13_resetConfiguration_resets_every_logger (nested : Nat → Bool) (h : Hierarchy)
    (hr : Reachable h) :
    levelAt (resetConfiguration nested h) (getRootLogger (resetConfiguration nested h))
      = some (some Level.DEBUG) ∧
    getThreshold (resetConfiguration nested h) = Level.ALL ∧
    (resetConfiguration nested h).thresholdInt = Level.ALL.level ∧
    appendersAt (resetConfiguration nested h) (getRootLogger (resetConfiguration nested h))
      = some [] ∧
    ∀ k l, registered (resetConfiguration nested h) k = some l →
      appendersAt (resetConfiguration nested h) l = some [] ∧
      levelAt (resetConfiguration nested h) l = some none ∧
      additiveAt (resetConfiguration nested h) l = some true ∧
      effectiveLevel (resetConfiguration nested h) (k.length + 2) l = some Level.DEBUG := by
  have t := sameTree_resetConfiguration nested h
  have w := hr.wf
  have hnot := root_not_listed hr
  have hrootget : (resetConfiguration nested h).heap[h.root]? =
      (h.heap[h.root]?).map (fun o => { o with level := some Level.DEBUG, appenders := [] }) := by
    rw [resetConfiguration_get]
    cases h.heap[h.root]? with
    | none => rfl
    | some o => simp only [Option.map_some', hnot, if_false, if_true]
  obtain ⟨o, ho⟩ : ∃ o, h.heap[h.root]? = some o :=
    ⟨_, List.getElem?_eq_getElem w.root_lt⟩
  have hrootlevel : levelAt (resetConfiguration nested h) h.root = some (some Level.DEBUG) := by
    unfold levelAt; rw [hrootget, ho]; rfl
  have hregs : ∀ k l, registered (resetConfiguration nested h) k = some l →
      ∃ o1 : Logger, (resetConfiguration nested h).heap[l]? =
        some { o1 with level := none, additive := true, appenders := [] } := by
    intro k l hk
    have hk0 : registered h k = some l := by
      unfold registered at hk ⊢; rw [t.loggers] at hk; exact hk
    have hlt : l < h.heap.length := nameAt_lt (w.reg k l hk0)
    refine ⟨h.heap[l], ?_⟩
    rw [resetConfiguration_get, List.getElem?_eq_getElem hlt]
    simp only [Option.map_some', registered_mem_values hk0, if_true]
  have hlevels : ∀ k l, registered (resetConfiguration nested h) k = some l →
      levelAt (resetConfiguration nested h) l = some none := by
    intro k l hk
    obtain ⟨o1, h1⟩ := hregs k l hk
    unfold levelAt; rw [h1]
  have hroot1 : getRootLogger (resetConfiguration nested h) = h.root := t.root
  rw [hroot1]
  refine ⟨hrootlevel, ?_, ?_, ?_, fun k l hk => ?_⟩
  · exact resetConfiguration_keeps (fun s => s.threshold) (fun _ _ _ => rfl) nested h
  · exact resetConfiguration_keeps (fun s => s.thresholdInt) (fun _ _ _ => rfl) nested h
  · unfold appendersAt; rw [hrootget, ho]; rfl
  · obtain ⟨o1, h1⟩ := hregs k l hk
    refine ⟨by unfold appendersAt; rw [h1], hlevels k l hk, by unfold additiveAt; rw [h1], ?_⟩
    have hroot2 : levelAt (resetConfiguration nested h) (resetConfiguration nested h).root
        = some (some Level.DEBUG) := by rw [t.root]; exact hrootlevel
    exact effectiveLevel_of_inheriting (Reachable.resetConfiguration nested hr).wf Level.DEBUG
      hroot2 hlevels (k.length + 1) k l (Nat.lt_succ_self _) hk

/-- C13, on the example with levels and appenders, where the logger `"a"` has
the level `DEBUG` of its own and the appender `8` and the logger `"a.b"`
(logger `2`) the appender `7`: after `resetConfiguration` the logger `"a.b"` has
no appender and no level of its own, and its effective level is `DEBUG`. -/
theorem C13_resetConfiguration_resets_every_logger_witness :
    Reachable exampleConfigured ∧
    appendersAt exampleConfigured 2 = some [7] ∧
    registered (resetConfiguration (fun _ => true) exampleConfigured) "a.b".toList = some 2 ∧
    (appendersAt (resetConfiguration (fun _ => true) exampleConfigured) 2 = some [] ∧
     levelAt (resetConfiguration (fun _ => true) exampleConfigured) 2 = some none ∧
     additiveAt (resetConfiguration (fun _ => true) exampleConfigured) 2 = some true ∧
     effectiveLevel (resetConfiguration (fun _ => true) exampleConfigured)
       ("a.b".toList.length + 2) 2 = some Level.DEBUG) :=
  ⟨Reachable.addAppender 2 7 (Reachable.addAppender 1 8 (Reachable.setLevel 1 Level.DEBUG
      (Reachable.addAppender 0 7 (reachable_exampleHierarchy ["a", "a.b"])))),
   by decide, by decide,
   (C13_resetConfiguration_resets_every_logger (fun _ => true) exampleConfigured
      (Reachable.addAppender 2 7 (Reachable.addAppender 1 8 (Reachable.setLevel 1 Level.DEBUG
        (Reachable.addAppender 0 7 (reachable_exampleHierarchy ["a", "a.b"])))))).2.2.2.2
      "a.b".toList 2 (by decide)⟩

/-- C14: `resetConfiguration` leaves the root, the registry, the provision
nodes, the names and every parent link as they were, and for every name
registered before the call `getLogger(name)` afterwards returns the same logger
and leaves the state as `resetConfiguration` left it. -/
theorem C14_resetConfiguration_keeps_identity_and_structure (nested : Nat → Bool)
    (h : Hierarchy) :
    (resetConfiguration nested h).loggers = h.loggers ∧
    (resetConfiguration nested h).provisionNodes = h.provisionNodes ∧
    (resetConfiguration nested h).root = h.root ∧
    (∀ x, parentAt (resetConfiguration nested h) x = parentAt h x) ∧
    (∀ x, nameAt (resetConfiguration nested h) x = nameAt h x) ∧
    (∀ name l, registered h name = some l →
      registered (resetConfiguration nested h) name = some l ∧
      Hierarchy.getLogger (resetConfiguration nested h) name
        = .ok (l, resetConfiguration nested h)) := by
  have t := sameTree_resetConfiguration nested h
  refine ⟨t.loggers, t.provisionNodes, t.root, t.parent, t.name, fun name l hreg => ?_⟩
  have hreg1 : registered (resetConfiguration nested h) name = some l := by
    unfold registered; rw [t.loggers]; exact hreg
  exact ⟨hreg1, getLoggerFuel_registered _ _ name l hreg1⟩

/-- C15: after `shutdown` the root and every registered logger have no
appenders (the example's root had the appender `7`); the registry, the
provision nodes, the parent links, the levels of the loggers, the threshold and
its cached integer are unchanged; and a second `shutdown` leaves the state
exactly as the first left it. -/
theorem C15_shutdown_idempotent (nested : Nat → Bool) (h : Hierarchy) :
    (∀ x, (x = h.root ∨ ∃ k, registered h k = some x) →
      appendersAt (shutdown nested h) x = (appendersAt h x).map (fun _ => [])) ∧
    (shutdown nested h).loggers = h.loggers ∧
    (shutdown nested h).provisionNodes = h.provisionNodes ∧
    (∀ x, parentAt (shutdown nested h) x = parentAt h x) ∧
    (∀ x, levelAt (shutdown nested h) x = levelAt h x) ∧
    getThreshold (shutdown nested h) = getThreshold h ∧
    (shutdown nested h).thresholdInt = h.thresholdInt ∧
    shutdown nested (shutdown nested h) = shutdown nested h ∧
    (appendersAt exampleConfigured 0 = some [7] ∧
      appendersAt (shutdown (fun _ => true) exampleConfigured) 0 = some []) := by
  have t := sameTree_shutdown nested h
  have hmem : ∀ x, (∃ k, registered h k = some x) → x ∈ h.loggers.map Prod.snd := by
    intro x hx
    obtain ⟨k, hk⟩ := hx
    unfold registered at hk
    generalize h.loggers = m at hk
    induction m with
    | nil => simp [Map.find] at hk
    | cons e m ih =>
      obtain ⟨k1, v⟩ := e
      unfold Map.find at hk
      by_cases hk1 : k1 = k
      · simp only [hk1, if_true, Option.some.injEq] at hk
        subst hk; simp
      · simp only [hk1, if_false] at hk
        exact List.mem_cons_of_mem _ (ih hk)
  refine ⟨fun x hx => ?_, t.loggers, t.provisionNodes, t.parent, fun x => ?_,
    shutdown_keeps (fun s => s.threshold) (fun _ _ _ => rfl) nested h,
    shutdown_keeps (fun s => s.thresholdInt) (fun _ _ _ => rfl) nested h,
    shutdown_of_quiet nested _ (quiet_shutdown nested h), by decide, by decide⟩
  · have hx2 : x = h.root ∨ x ∈ h.loggers.map Prod.snd := by
      rcases hx with h1 | h1
      · exact Or.inl h1
      · exact Or.inr (hmem x h1)
    unfold appendersAt
    rw [shutdown_get]
    cases h.heap[x]? with
    | none => rfl
    | some o => simp only [Option.map_some', hx2, if_true]
  · unfold levelAt
    rw [shutdown_get]
    cases h.heap[x]? with
    | none => rfl
    | some o =>
      simp only [Option.map_some']
      split <;> rfl

/-- C16: `clear` returns the state it was called in with the registry emptied
and every other field as it was: afterwards `exists` finds no name and
`getCurrentLoggers` returns the empty list, while the provision nodes, the
listeners, the threshold, the root and the logger objects with their parent
links are unchanged. -/
theorem C16_clear_empties_registry_only (h : Hierarchy) :
    Hierarchy.clear h = { h with loggers := [] } ∧
    (∀ name, (Hierarchy.exists (Hierarchy.clear h) name).1 = none) ∧
    (getCurrentLoggers (Hierarchy.clear h)).1 = [] ∧
    (Hierarchy.clear h).provisionNodes = h.provisionNodes ∧
    (Hierarchy.clear h).listeners = h.listeners ∧
    getThreshold (Hierarchy.clear h) = getThreshold h ∧
    (Hierarchy.clear h).thresholdInt = h.thresholdInt ∧
    (Hierarchy.clear h).root = h.root ∧
    (Hierarchy.clear h).heap = h.heap ∧
    (∀ x, parentAt (Hierarchy.clear h) x = parentAt h x) :=
  ⟨clear_eq h, fun _ => rfl, rfl, rfl, rfl, rfl, rfl, rfl, rfl, fun _ => rfl⟩

/-- C17: after the calls `addHierarchyEventListener` for the listeners `ls` in
turn on a fresh hierarchy, the listener list is `firstRegistrations ls`: it has
no listener twice, holds exactly the listeners of `ls`, in the order of their
first registration; registering one of them again leaves the list as it is;
and `fireAddAppenderEvent` and `fireRemoveAppenderEvent` call the listeners of
the list, one call each, in the order of the list, with the given logger and
appender.  The list has no listener twice in any state the hierarchy goes
through. -/
theorem C17_listeners_once_in_registration_order (root : Logger) (ls : List Nat)
    (logger : LoggerPtr) (appender : Nat) :
    (addListeners (Hierarchy.new root) ls).listeners = firstRegistrations ls ∧
    (firstRegistrations ls).Nodup ∧
    (∀ x, x ∈ firstRegistrations ls ↔ x ∈ ls) ∧
    (firstRegistrations ls).Pairwise (fun x y => ls.indexOf x < ls.indexOf y) ∧
    (∀ (h : Hierarchy) (l : Nat), l ∈ h.listeners →
      (addHierarchyEventListener h l).listeners = h.listeners) ∧
    (∀ (h : Hierarchy) (l : Nat), l ∉ h.listeners →
      (addHierarchyEventListener h l).listeners = h.listeners ++ [l]) ∧
    (∀ h : Hierarchy, fireAddAppenderEvent h logger appender =
      h.listeners.map (fun l =>
        { listener := l, added := true, logger := logger, appender := appender })) ∧
    (∀ h : Hierarchy, fireRemoveAppenderEvent h logger appender =
      h.listeners.map (fun l =>
        { listener := l, added := false, logger := logger, appender := appender })) ∧
    (∀ h : Hierarchy, Reachable h → h.listeners.Nodup) := by
  refine ⟨?_, nodup_firstRegistrations ls, fun x => mem_firstRegistrations x ls,
    pairwise_firstRegistrations ls, fun h l hl => ?_, fun h l hl => ?_,
    fun h => fireLoop_eq_map true logger appender h.listeners,
    fun h => fireLoop_eq_map false logger appender h.listeners,
    fun h hr => listeners_nodup hr⟩
  · rw [addListeners_listeners]
    have hnew : (Hierarchy.new root).listeners = [] := rfl
    rw [hnew]
    simp
  · rw [addHierarchyEventListener_listeners]; simp [hl]
  · rw [addHierarchyEventListener_listeners]; simp [hl]

/-- C18: after `getLogger("a.b")` the provision node of `"a"` holds logger `1`;
`getLogger("a.c")` then creates logger `2`, whose parent is the root since no
proper dotted prefix is registered, but the provision node of its proper
dotted prefix `"a"` still holds logger `1` only: logger `2` has not been
appended to it. -/
theorem C18_second_waiting_logger_is_not_recorded :
    (exampleHierarchy ["a.b"]).provisionNodes = [("a".toList, [1])] ∧
    registered (exampleHierarchy ["a.b", "a.c"]) "a.c".toList = some 2 ∧
    parentAt (exampleHierarchy ["a.b", "a.c"]) 2 = some 0 ∧
    registered (exampleHierarchy ["a.b", "a.c"]) "a".toList = none ∧
    (exampleHierarchy ["a.b", "a.c"]).provisionNodes = [("a".toList, [1])] :=
  ⟨by decide, by decide, by decide, by decide, by decide⟩

/-- C19: with the root logger named `"root"`, the logger `"roo.x"` (logger `1`)
waits in the provision node of `"roo"` and has the root `0` as its parent;
`getLogger("roo")` creates logger `2` and leaves logger `1` under the root,
because the name of the root starts with `"roo"`.  With a root named `""` the
same calls put logger `1` under logger `2`. -/
theorem C19_child_of_root_is_not_reparented :
    Map.find (exampleHierarchy ["roo.x"]).provisionNodes "roo".toList = some [1] ∧
    parentAt (exampleHierarchy ["roo.x"]) 1 = some 0 ∧
    startsWith "root".toList "roo".toList = true ∧
    treeAfter "root" ["roo.x", "roo"] ["roo.x", "roo"]
      = .ok [(some 1, some 0), (some 2, some 0)] ∧
    treeAfter "" ["roo.x", "roo"] ["roo.x", "roo"]
      = .ok [(some 1, some 2), (some 2, some 0)] :=
  ⟨by decide, by decide, by decide, by decide, by decide⟩

/-- C20: `exists` returns with the lock held once more than at entry, since
it returns before `mapCs.unlock()`; `clear`, `getCurrentLoggers`,
`resetConfiguration` and every `getLogger` call that returns leave the depth as
it was at entry. -/
theorem C20_exists_leaves_the_lock_held (h : Hierarchy) (name : Str) :
    (Hierarchy.exists h name).2.mapCs = h.mapCs + 1 ∧
    (Hierarchy.clear h).mapCs = h.mapCs ∧
    (getCurrentLoggers h).2.mapCs = h.mapCs ∧
    (∀ nested, (resetConfiguration nested h).mapCs = h.mapCs) ∧
    (∀ l h1, Hierarchy.getLogger h name = .ok (l, h1) → h1.mapCs = h.mapCs) := by
  refine ⟨rfl, by rw [clear_eq], by rw [getCurrentLoggers_snd], fun nested => ?_,
    fun l h1 hrun => ?_⟩
  · rw [resetConfiguration_keeps (fun s => s.mapCs) (fun _ _ _ => rfl)]
    rfl
  · unfold Hierarchy.getLogger at hrun
    cases hreg : registered h name with
    | some x =>
      rw [getLoggerFuel_registered _ h name x hreg] at hrun
      simp only [Except.ok.injEq, Prod.mk.injEq] at hrun
      rw [← hrun.2]
    | none => exact (getLoggerFuel_created _ h h1 name l hreg hrun).mapCs

end Log4cxx
